import Mathlib

/-!
Verification of the campus-navigation graph core (`src/apply.py`).

The Python program stores an undirected graph in three Python dicts:
`nodes` (name → node tuple), `edges` (frozenset {u,v} → Edge) and
`adj` (name → dict name → Edge).  Python dicts preserve insertion order,
so every dict is embedded as an insertion-ordered association list.
A frozenset of two names is embedded as `Sym2 String`.  The `adj` values
reference the same `Edge` objects as `edges`; sharing is embedded by
storing neighbor names in `adj` and resolving the edge through `edges`.
All integer-valued fields are Python ints, embedded as `Int`.
-/

deriving instance DecidableEq for Except

namespace CampusNav

/-- Python dict lookup `d.get(k)` over an insertion-ordered association list. -/
def alookup {κ β : Type} [DecidableEq κ] (k : κ) : List (κ × β) → Option β
  | [] => none
  | p :: rest => if p.1 = k then some p.2 else alookup k rest

/-- Python dict assignment `d[k] = v`: overwrite in place when the key is
present, otherwise append at the end (insertion order). -/
def dictSet {κ β : Type} [DecidableEq κ] (k : κ) (v : β) (l : List (κ × β)) : List (κ × β) :=
  if (alookup k l).isSome then l.map (fun p => if p.1 = k then (k, v) else p) else l ++ [(k, v)]

/-- Python dict deletion `del d[k]` / `d.pop(k, None)`: drop the first
(and, for nodup keys, only) binding of `k`. -/
def aerase {κ β : Type} [DecidableEq κ] (k : κ) : List (κ × β) → List (κ × β)
  | [] => []
  | p :: rest => if p.1 = k then rest else p :: aerase k rest

/-- `Edge` dataclass of `apply.py`. -/
structure Edge where
  u : String
  v : String
  distance : Int := 1
  time : Int := 1
  accessible : Bool := true
  closed : Bool := false
  line_id : Option Nat := none
  text_id : Option Nat := none
deriving DecidableEq, Repr

/-- `Edge.key`: the frozenset of the two endpoints. -/
def Edge.key (e : Edge) : Sym2 String := Sym2.mk (e.u, e.v)

/-- `Edge.color`: red if closed, orange if not accessible, black otherwise. -/
def Edge.color (e : Edge) : String :=
  if e.closed then "red"
  else if e.accessible = false then "orange"
  else "black"

/-- A `nodes` dict value: `(x, y, oid, lid)`. -/
structure NodeInfo where
  x : Int
  y : Int
  oid : Option Nat := none
  lid : Option Nat := none
deriving DecidableEq, Repr

/-- `Graph` of `apply.py`: the three insertion-ordered dicts. -/
structure Graph where
  nodes : List (String × NodeInfo) := []
  edges : List (Sym2 String × Edge) := []
  adj : List (String × List String) := []
deriving DecidableEq

/-- The error kinds of the `ValueError`s raised by `Graph` (spec §7). -/
inductive GErr where
  | DuplicateNode
  | SelfLoop
  | UnknownNode
  | DuplicateEdge
  | UnknownEdge
deriving DecidableEq, Repr

/-- The fresh graph built by `Graph.__init__`. -/
def Graph.empty : Graph := {}

/-- Names currently present in the node dict. -/
def Graph.nodeNames (g : Graph) : List String := g.nodes.map Prod.fst

/-- Inner-dict assignment `adj[u][v] = e` (edge identity is carried by the
central edge store, so only the neighbor name is recorded). -/
def adjSet (adj : List (String × List String)) (u v : String) : List (String × List String) :=
  adj.map (fun p => if p.1 = u then (u, if v ∈ p.2 then p.2 else p.2 ++ [v]) else p)

/-- Inner-dict deletion `del adj[u][v]`, a no-op when either key is absent
(matching the `if u in self.adj and v in self.adj[u]` guard). -/
def adjDel (adj : List (String × List String)) (u v : String) : List (String × List String) :=
  adj.map (fun p => if p.1 = u then (u, p.2.erase v) else p)

/-- `Graph.add_node`. -/
def Graph.add_node (g : Graph) (name : String) (x y : Int) : Except GErr Graph :=
  if (alookup name g.nodes).isSome then .error .DuplicateNode
  else .ok { g with nodes := dictSet name ⟨x, y, none, none⟩ g.nodes,
                    adj := dictSet name [] g.adj }

/-- `Graph.add_edge`. -/
def Graph.add_edge (g : Graph) (u v : String) (distance time : Int) (accessible : Bool) :
    Except GErr (Edge × Graph) :=
  if u = v then .error .SelfLoop
  else if (alookup u g.nodes).isNone || (alookup v g.nodes).isNone then .error .UnknownNode
  else if (alookup (Sym2.mk (u, v)) g.edges).isSome then .error .DuplicateEdge
  else
    let e : Edge := { u := u, v := v, distance := distance, time := time, accessible := accessible }
    .ok (e, { g with edges := dictSet (Sym2.mk (u, v)) e g.edges,
                     adj := adjSet (adjSet g.adj u v) v u })

/-- The state change of a successful `Graph.remove_edge`. -/
def Graph.removeEdgeOk (g : Graph) (u v : String) : Graph :=
  { g with edges := aerase (Sym2.mk (u, v)) g.edges, adj := adjDel (adjDel g.adj u v) v u }

/-- `Graph.remove_edge`. -/
def Graph.remove_edge (g : Graph) (u v : String) : Except GErr (Edge × Graph) :=
  match alookup (Sym2.mk (u, v)) g.edges with
  | none => .error .UnknownEdge
  | some e => .ok (e, g.removeEdgeOk u v)

/-- `Graph.randomize_edge_weights`.  The two successive `random.randint(1, 20)`
draws consumed by edge number `i` (in edge-dict iteration order) are supplied by
the oracle `f` at indices `2*i` and `2*i+1`; `randint`'s contract (a result in
`[1, 20]`) is a hypothesis on `f` where needed. -/
def Graph.randomize_edge_weights (g : Graph) (f : Nat → Int) : Graph :=
  let reroll := fun (q : Nat × Sym2 String × Edge) =>
    (q.2.1, { q.2.2 with distance := f (2 * q.1), time := f (2 * q.1 + 1) })
  { g with edges := g.edges.enum.map reroll }

/-- `Graph.get_edge`. -/
def Graph.get_edge (g : Graph) (u v : String) : Option Edge :=
  alookup (Sym2.mk (u, v)) g.edges

/-- `Graph.toggle_closed` (the in-place flip of the shared `Edge` object is a
central-store update). -/
def Graph.toggle_closed (g : Graph) (u v : String) : Except GErr (Edge × Graph) :=
  match g.get_edge u v with
  | none => .error .UnknownEdge
  | some e =>
    let e' := { e with closed := !e.closed }
    .ok (e', { g with edges := dictSet (Sym2.mk (u, v)) e' g.edges })

/-- `Graph.toggle_accessibility`. -/
def Graph.toggle_accessibility (g : Graph) (u v : String) : Except GErr (Edge × Graph) :=
  match g.get_edge u v with
  | none => .error .UnknownEdge
  | some e =>
    let e' := { e with accessible := !e.accessible }
    .ok (e', { g with edges := dictSet (Sym2.mk (u, v)) e' g.edges })

/-- The adjacency list of `name` (`self.adj[name]` keys, insertion order). -/
def Graph.adjListOf (g : Graph) (name : String) : List String :=
  (alookup name g.adj).getD []

/-- The `for nbr in neighbors` loop body of `Graph.remove_node`. -/
def removeNodeLoop (name : String) : List String → Graph → List Edge × Graph
  | [], g => ([], g)
  | nbr :: rest, g =>
    match g.get_edge name nbr with
    | none => removeNodeLoop name rest g
    | some e =>
      let res := removeNodeLoop name rest (g.removeEdgeOk name nbr)
      (e :: res.1, res.2)

/-- `Graph.remove_node`. -/
def Graph.remove_node (g : Graph) (name : String) : Except GErr (List Edge × Graph) :=
  if (alookup name g.nodes).isNone then .error .UnknownNode
  else
    let res := removeNodeLoop name (g.adjListOf name) g
    .ok (res.1, { res.2 with adj := aerase name res.2.adj, nodes := aerase name res.2.nodes })

/-- Code-point lexicographic `≤` on character lists: the order Python uses to
compare the neighbor-name sort keys. -/
def charsLe : List Char → List Char → Bool
  | [], _ => true
  | _ :: _, [] => false
  | a :: as, b :: bs =>
    if a.toNat < b.toNat then true
    else if b.toNat < a.toNat then false
    else charsLe as bs

/-- Code-point lexicographic `<` on character lists. -/
def charsLt : List Char → List Char → Bool
  | [], [] => false
  | [], _ :: _ => true
  | _ :: _, [] => false
  | a :: as, b :: bs =>
    if a.toNat < b.toNat then true
    else if b.toNat < a.toNat then false
    else charsLt as bs

/-- Python string `<=` (code-point lexicographic). -/
def strLe (a b : String) : Bool := charsLe a.data b.data

/-- Python string `<` (code-point lexicographic). -/
def strLt (a b : String) : Bool := charsLt a.data b.data

/-- `list.insert`-style ordered insertion for the stable sort below. -/
def ordInsert {α : Type} (le : α → α → Bool) (a : α) : List α → List α
  | [] => [a]
  | b :: l => if le a b then a :: b :: l else b :: ordInsert le a l

/-- A stable sort by `le`.  Python's `list.sort` is a stable sort by the key
function, and a stable sort is determined by its comparator, so this embeds
`out.sort(key=lambda t: t[0])` exactly. -/
def insSort {α : Type} (le : α → α → Bool) : List α → List α
  | [] => []
  | a :: l => ordInsert le a (insSort le l)

/-- `Graph.neighbors`: filter `adj[node]` by closure/accessibility, then
`out.sort(key=lambda t: t[0])`. -/
def Graph.neighbors (g : Graph) (node : String) (accessible_only : Bool) :
    List (String × Edge) :=
  let raw := (g.adjListOf node).filterMap (fun nbr =>
    match g.get_edge node nbr with
    | none => none
    | some e =>
      if e.closed then none
      else if accessible_only && !e.accessible then none
      else some (nbr, e))
  insSort (fun a b => strLe a.1 b.1) raw

/-- The neighbor names produced by `Graph.neighbors`, in traversal order. -/
def Graph.neighborNames (g : Graph) (node : String) (ao : Bool) : List String :=
  (g.neighbors node ao).map Prod.fst

/-- The inner `for number, _ in self.neighbors(cur, accessible_only)` loop of
`Graph.bfs`: returns the updated `(queue, visited, parent, discover)`. -/
def bfsExpand (cur : String) : List String → List String → List String →
    List (String × Option String) → List String →
    List String × List String × List (String × Option String) × List String
  | [], q, visited, parent, discover => (q, visited, parent, discover)
  | n :: ns, q, visited, parent, discover =>
    if n ∈ visited then bfsExpand cur ns q visited parent discover
    else bfsExpand cur ns (q ++ [n]) (visited ++ [n]) (dictSet n (some cur) parent)
      (discover ++ [n])

/-- The `while q` loop of `Graph.bfs`; the queue is a `deque` popped at the
front and extended at the back.  `fuel` bounds the iteration count (the Python
loop needs none; `nodes.length + 1` is proven sufficient below). -/
def bfsLoop (g : Graph) (goal : String) (ao : Bool) :
    Nat → List String → List String → List (String × Option String) → List String →
    List String → List (String × Option String) × List String × List String
  | 0, _, _, parent, order, discover => (parent, order, discover)
  | _ + 1, [], _, parent, order, discover => (parent, order, discover)
  | fuel + 1, cur :: rest, visited, parent, order, discover =>
    if cur = goal then (parent, order ++ [cur], discover)
    else
      let r := bfsExpand cur (g.neighborNames cur ao) rest visited parent discover
      bfsLoop g goal ao fuel r.1 r.2.1 r.2.2.1 (order ++ [cur]) r.2.2.2

/-- The path-reconstruction loop `while cur is not None` shared by `bfs` and
`dfs` (appends then reverses; rendered directly in final order).  `fuel` bounds
the chain length; `parent.length + 1` is proven sufficient below. -/
def buildPath (parent : List (String × Option String)) : Nat → String → List String
  | 0, _ => []
  | fuel + 1, cur =>
    match alookup cur parent with
    | none => [cur]
    | some none => [cur]
    | some (some p) => buildPath parent fuel p ++ [cur]

/-- `Graph.bfs`. -/
def Graph.bfs (g : Graph) (start goal : String) (ao : Bool) :
    Except GErr (List String × List String × List String) :=
  if (alookup start g.nodes).isNone || (alookup goal g.nodes).isNone then .error .UnknownNode
  else
    let r := bfsLoop g goal ao (g.nodes.length + 1) [start] [start] [(start, none)] [] []
    if (alookup goal r.1).isNone then .ok ([], r.2.1, r.2.2)
    else .ok (buildPath r.1 (r.1.length + 1) goal, r.2.1, r.2.2)

/-- Ghost trace of the observable list appends performed by `Graph.dfs`:
`visit n` is `order.append(n)` (with `visited.add(n)`), `disc n` is
`discover.append(n)`. -/
inductive DEv where
  | visit (n : String)
  | disc (n : String)
deriving DecidableEq, Repr

/-- The mutable state threaded through `Graph.dfs`'s nested `recurse`;
`events` is the ghost interleaving of the `order`/`discover` appends. -/
structure DfsSt where
  visited : List String
  parent : List (String × Option String)
  found : Bool
  order : List String
  discover : List String
  events : List DEv
deriving DecidableEq, Repr

/-- The `for number, _ in self.neighbors(u, accessible_only)` loop of
`recurse`; `next` is the recursive call into the next depth level.  Note the
loop keeps iterating (and keeps appending to `parent` and `discover`) even
after `found` becomes true. -/
def dfsKids (u : String) (next : String → DfsSt → DfsSt) : List String → DfsSt → DfsSt
  | [], st => st
  | n :: rest, st =>
    let st' :=
      if n ∈ st.visited then st
      else
        next n
          { st with parent := dictSet n (some u) st.parent,
                    discover := st.discover ++ [n], events := st.events ++ [DEv.disc n] }
    dfsKids u next rest st'

/-- One call of `recurse(u)` inside `Graph.dfs`.  `fuel` bounds the recursion
depth (the Python recursion needs none; `nodes.length + 1` is proven
sufficient below, the fuel-exhausted branch skips the neighbor loop). -/
def dfsVisit (g : Graph) (goal : String) (ao : Bool) : Nat → String → DfsSt → DfsSt
  | 0, u, st =>
    if st.found then st
    else
      let st1 : DfsSt := { st with visited := st.visited ++ [u], order := st.order ++ [u],
                                   events := st.events ++ [DEv.visit u] }
      if u = goal then { st1 with found := true } else st1
  | fuel + 1, u, st =>
    if st.found then st
    else
      let st1 : DfsSt := { st with visited := st.visited ++ [u], order := st.order ++ [u],
                                   events := st.events ++ [DEv.visit u] }
      if u = goal then { st1 with found := true }
      else dfsKids u (fun n st2 => dfsVisit g goal ao fuel n st2) (g.neighborNames u ao) st1

/-- The final `recurse` state of a `Graph.dfs` call (after the node check). -/
def Graph.dfsRun (g : Graph) (start goal : String) (ao : Bool) : DfsSt :=
  dfsVisit g goal ao (g.nodes.length + 1) start
    { visited := [], parent := [(start, none)], found := false, order := [], discover := [],
      events := [] }

/-- `Graph.dfs`. -/
def Graph.dfs (g : Graph) (start goal : String) (ao : Bool) :
    Except GErr (List String × List String × List String) :=
  if (alookup start g.nodes).isNone || (alookup goal g.nodes).isNone then .error .UnknownNode
  else
    let st := g.dfsRun start goal ao
    if !st.found then .ok ([], st.order, st.discover)
    else .ok (buildPath st.parent (st.parent.length + 1) goal, st.order, st.discover)

/-! ### Association-list lemmas -/

section AList

variable {κ β : Type} [DecidableEq κ]

theorem alookup_eq_none_iff (k : κ) (l : List (κ × β)) :
    alookup k l = none ↔ k ∉ l.map Prod.fst := by
  induction l with
  | nil => simp [alookup]
  | cons p rest ih =>
    by_cases h : p.1 = k
    · simp [alookup, h]
    · have h' : ¬ k = p.1 := fun hh => h hh.symm
      simp [alookup, h, h', ih]

theorem alookup_isSome_iff (k : κ) (l : List (κ × β)) :
    (alookup k l).isSome = true ↔ k ∈ l.map Prod.fst := by
  constructor
  · intro h
    by_contra hmem
    rw [← alookup_eq_none_iff] at hmem
    simp [hmem] at h
  · intro h
    rcases hl : alookup k l with _ | v
    · exact absurd h ((alookup_eq_none_iff k l).mp hl)
    · rfl

theorem alookup_mem {k : κ} {v : β} {l : List (κ × β)} (h : alookup k l = some v) :
    (k, v) ∈ l := by
  induction l with
  | nil => simp [alookup] at h
  | cons p rest ih =>
    by_cases hp : p.1 = k
    · simp only [alookup, hp, if_pos] at h
      cases h
      subst hp
      simp
    · simp only [alookup, hp, if_neg, if_false] at h
      exact List.mem_cons_of_mem _ (ih h)

theorem alookup_append (k : κ) (l₁ l₂ : List (κ × β)) :
    alookup k (l₁ ++ l₂) =
      match alookup k l₁ with
      | some v => some v
      | none => alookup k l₂ := by
  induction l₁ with
  | nil => simp [alookup]
  | cons p rest ih => by_cases h : p.1 = k <;> simp [alookup, h, ih]

theorem alookup_map_modify (k : κ) (f : β → β) (l : List (κ × β)) :
    alookup k (l.map (fun p => if p.1 = k then (k, f p.2) else p)) =
      (alookup k l).map f := by
  induction l with
  | nil => simp [alookup]
  | cons p rest ih =>
    by_cases h : p.1 = k <;> simp [alookup, h, ih]

theorem alookup_map_modify_ne {k k' : κ} (h : k' ≠ k) (f : β → β) (l : List (κ × β)) :
    alookup k' (l.map (fun p => if p.1 = k then (k, f p.2) else p)) = alookup k' l := by
  induction l with
  | nil => simp [alookup]
  | cons p rest ih =>
    by_cases hp : p.1 = k
    · have : p.1 ≠ k' := by rw [hp]; exact Ne.symm h
      simp [alookup, hp, this, Ne.symm h, ih]
    · by_cases hp' : p.1 = k' <;> simp [alookup, hp, hp', h, ih]

theorem dictSet_absent {k : κ} {l : List (κ × β)} (h : alookup k l = none) (v : β) :
    dictSet k v l = l ++ [(k, v)] := by
  simp [dictSet, h]

theorem dictSet_keys_absent {k : κ} {l : List (κ × β)} (h : alookup k l = none) (v : β) :
    (dictSet k v l).map Prod.fst = l.map Prod.fst ++ [k] := by
  simp [dictSet_absent h]

theorem dictSet_keys (k : κ) (v : β) (l : List (κ × β)) :
    (dictSet k v l).map Prod.fst =
      if (alookup k l).isSome then l.map Prod.fst else l.map Prod.fst ++ [k] := by
  by_cases h : (alookup k l).isSome
  · simp only [dictSet, h, if_pos, if_true, List.map_map]
    refine List.map_congr_left (fun p _ => ?_)
    by_cases hp : p.1 = k <;> simp [hp]
  · simp [dictSet, h]

theorem alookup_dictSet_self (k : κ) (v : β) (l : List (κ × β)) :
    alookup k (dictSet k v l) = some v := by
  by_cases h : (alookup k l).isSome
  · obtain ⟨w, hw⟩ := Option.isSome_iff_exists.mp h
    have := alookup_map_modify k (fun _ => v) l
    simp only [dictSet, h, if_true, if_pos]
    rw [this, hw]
    rfl
  · rw [Option.not_isSome_iff_eq_none] at h
    rw [dictSet_absent h, alookup_append, h]
    simp [alookup]

theorem alookup_dictSet_ne {k k' : κ} (h : k' ≠ k) (v : β) (l : List (κ × β)) :
    alookup k' (dictSet k v l) = alookup k' l := by
  by_cases hs : (alookup k l).isSome
  · simp only [dictSet, hs, if_true, if_pos]
    exact alookup_map_modify_ne h (fun _ => v) l
  · rw [Option.not_isSome_iff_eq_none] at hs
    rw [dictSet_absent hs, alookup_append]
    rcases hl : alookup k' l with _ | w
    · simp [alookup, Ne.symm h]
    · rfl

theorem aerase_absent {k : κ} {l : List (κ × β)} (h : alookup k l = none) :
    aerase k l = l := by
  induction l with
  | nil => rfl
  | cons p rest ih =>
    by_cases hp : p.1 = k
    · simp [alookup, hp] at h
    · simp only [alookup, hp, if_neg, if_false] at h
      simp [aerase, hp, ih h]

theorem alookup_aerase_ne {k k' : κ} (h : k' ≠ k) (l : List (κ × β)) :
    alookup k' (aerase k l) = alookup k' l := by
  induction l with
  | nil => rfl
  | cons p rest ih =>
    by_cases hp : p.1 = k
    · have : p.1 ≠ k' := by rw [hp]; exact Ne.symm h
      simp [aerase, alookup, hp, this, Ne.symm h]
    · by_cases hp' : p.1 = k' <;> simp [aerase, alookup, hp, hp', h, ih]

theorem aerase_keys (k : κ) (l : List (κ × β)) :
    (aerase k l).map Prod.fst = (l.map Prod.fst).erase k := by
  induction l with
  | nil => rfl
  | cons p rest ih =>
    by_cases hp : p.1 = k
    · simp [aerase, hp, List.erase_cons_head]
    · simp [aerase, hp, List.erase_cons_tail, ih]

theorem alookup_aerase_self {k : κ} {l : List (κ × β)}
    (hnd : (l.map Prod.fst).Nodup) : alookup k (aerase k l) = none := by
  rw [alookup_eq_none_iff, aerase_keys]
  exact hnd.not_mem_erase

end AList

/-! ### Sorting lemmas: `insSort` is a stable sort, `charsLe` a linear order -/

section Sorting

variable {α : Type}

theorem ordInsert_perm (le : α → α → Bool) (a : α) (l : List α) :
    List.Perm (ordInsert le a l) (a :: l) := by
  induction l with
  | nil => exact List.Perm.refl _
  | cons b l ih =>
    by_cases h : le a b = true
    · rw [ordInsert, if_pos h]
    · rw [ordInsert, if_neg h]
      exact (ih.cons b).trans (List.Perm.swap a b l)

theorem insSort_perm (le : α → α → Bool) (l : List α) : List.Perm (insSort le l) l := by
  induction l with
  | nil => exact List.Perm.refl _
  | cons a l ih => exact (ordInsert_perm le a (insSort le l)).trans (ih.cons a)

theorem ordInsert_pairwise (le : α → α → Bool)
    (htot : ∀ a b, le a b = true ∨ le b a = true)
    (htrans : ∀ a b c, le a b = true → le b c = true → le a c = true)
    (a : α) {l : List α} (h : l.Pairwise (fun x y => le x y = true)) :
    (ordInsert le a l).Pairwise (fun x y => le x y = true) := by
  induction l with
  | nil => simp [ordInsert]
  | cons b l ih =>
    rcases List.pairwise_cons.mp h with ⟨hb, hl⟩
    by_cases hab : le a b = true
    · rw [ordInsert, if_pos hab]
      refine List.pairwise_cons.mpr ⟨?_, h⟩
      intro y hy
      rcases List.mem_cons.mp hy with rfl | hy
      · exact hab
      · exact htrans a b y hab (hb y hy)
    · have hba : le b a = true := (htot a b).resolve_left hab
      rw [ordInsert, if_neg hab]
      refine List.pairwise_cons.mpr ⟨?_, ih hl⟩
      intro y hy
      have := (ordInsert_perm le a l).mem_iff.mp hy
      rcases List.mem_cons.mp this with rfl | hy'
      · exact hba
      · exact hb y hy'

theorem insSort_pairwise (le : α → α → Bool)
    (htot : ∀ a b, le a b = true ∨ le b a = true)
    (htrans : ∀ a b c, le a b = true → le b c = true → le a c = true)
    (l : List α) : (insSort le l).Pairwise (fun x y => le x y = true) := by
  induction l with
  | nil => exact List.Pairwise.nil
  | cons a l ih => exact ordInsert_pairwise le htot htrans a ih

theorem charsLe_total (l m : List Char) : charsLe l m = true ∨ charsLe m l = true := by
  induction l generalizing m with
  | nil => left; rfl
  | cons a as ih =>
    cases m with
    | nil => right; rfl
    | cons b bs =>
      rcases Nat.lt_trichotomy a.toNat b.toNat with h | h | h
      · left; simp [charsLe, h]
      · have h1 : ¬ a.toNat < b.toNat := by omega
        have h2 : ¬ b.toNat < a.toNat := by omega
        rcases ih bs with hc | hc
        · left; simp [charsLe, h1, h2, hc]
        · right; simp [charsLe, h1, h2, hc]
      · right; simp [charsLe, h]

theorem charsLe_trans {l m r : List Char} (h1 : charsLe l m = true)
    (h2 : charsLe m r = true) : charsLe l r = true := by
  induction l generalizing m r with
  | nil => rfl
  | cons a as ih =>
    cases m with
    | nil => simp [charsLe] at h1
    | cons b bs =>
      cases r with
      | nil => simp [charsLe] at h2
      | cons c cs =>
        by_cases hab : a.toNat < b.toNat <;> by_cases hbc : b.toNat < c.toNat
        · have : a.toNat < c.toNat := by omega
          simp [charsLe, this]
        · by_cases hcb : c.toNat < b.toNat
          · simp [charsLe, hbc, hcb] at h2
          · have hbceq : b.toNat = c.toNat := by omega
            have : a.toNat < c.toNat := by omega
            simp [charsLe, this]
        · by_cases hba : b.toNat < a.toNat
          · simp [charsLe, hab, hba] at h1
          · have habeq : a.toNat = b.toNat := by omega
            have : a.toNat < c.toNat := by omega
            simp [charsLe, this]
        · by_cases hba : b.toNat < a.toNat
          · simp [charsLe, hab, hba] at h1
          · by_cases hcb : c.toNat < b.toNat
            · simp [charsLe, hbc, hcb] at h2
            · have h1' : charsLe as bs = true := by
                simpa [charsLe, hab, hba] using h1
              have h2' : charsLe bs cs = true := by
                simpa [charsLe, hbc, hcb] using h2
              have hac : ¬ a.toNat < c.toNat := by omega
              have hca : ¬ c.toNat < a.toNat := by omega
              simp [charsLe, hac, hca, ih h1' h2']

theorem charsLt_of_le_of_ne {l m : List Char} (h : charsLe l m = true) (hne : l ≠ m) :
    charsLt l m = true := by
  induction l generalizing m with
  | nil =>
    cases m with
    | nil => exact absurd rfl hne
    | cons b bs => rfl
  | cons a as ih =>
    cases m with
    | nil => simp [charsLe] at h
    | cons b bs =>
      by_cases hab : a.toNat < b.toNat
      · simp [charsLt, hab]
      · by_cases hba : b.toNat < a.toNat
        · simp [charsLe, hab, hba] at h
        · have habeq : a = b := Char.ext (UInt32.ext (by omega : a.toNat = b.toNat))
          have h' : charsLe as bs = true := by simpa [charsLe, hab, hba] using h
          have hne' : as ≠ bs := by
            intro hEq
            exact hne (by rw [habeq, hEq])
          simp [charsLt, hab, hba, ih h' hne']

theorem strLe_total (a b : String) : strLe a b = true ∨ strLe b a = true :=
  charsLe_total a.data b.data

theorem strLe_trans {a b c : String} (h1 : strLe a b = true) (h2 : strLe b c = true) :
    strLe a c = true :=
  charsLe_trans h1 h2

theorem strLt_of_le_of_ne {a b : String} (h : strLe a b = true) (hne : a ≠ b) :
    strLt a b = true :=
  charsLt_of_le_of_ne h (fun hd => hne (String.ext hd))

end Sorting

/-! ### Graph well-formedness: the structural invariant of the Graph Store -/

theorem alookup_of_mem_nodup {κ β : Type} [DecidableEq κ] {l : List (κ × β)} {k : κ} {v : β}
    (hnd : (l.map Prod.fst).Nodup) (hmem : (k, v) ∈ l) : alookup k l = some v := by
  induction l with
  | nil => simp at hmem
  | cons p rest ih =>
    rw [List.map_cons, List.nodup_cons] at hnd
    rcases List.mem_cons.mp hmem with rfl | hmem'
    · simp [alookup]
    · have hk : p.1 ≠ k := by
        intro hEq
        exact hnd.1 (hEq ▸ List.mem_map_of_mem Prod.fst hmem')
      simp [alookup, hk, ih hnd.2 hmem']

theorem nodup_append_single {α : Type} {l : List α} {a : α} (hnd : l.Nodup) (ha : a ∉ l) :
    (l ++ [a]).Nodup := by
  rw [List.nodup_append]
  exact ⟨hnd, List.nodup_singleton a, by simpa [List.disjoint_singleton] using ha⟩

theorem adjSet_keys (adj : List (String × List String)) (u v : String) :
    (adjSet adj u v).map Prod.fst = adj.map Prod.fst := by
  unfold adjSet
  rw [List.map_map]
  refine List.map_congr_left (fun p _ => ?_)
  by_cases hp : p.1 = u <;> simp [hp]

theorem alookup_adjSet_self (adj : List (String × List String)) (u v : String) :
    alookup u (adjSet adj u v) =
      (alookup u adj).map (fun l => if v ∈ l then l else l ++ [v]) := by
  unfold adjSet
  exact alookup_map_modify u (fun l => if v ∈ l then l else l ++ [v]) adj

theorem alookup_adjSet_ne {w u : String} (h : w ≠ u) (adj : List (String × List String))
    (v : String) : alookup w (adjSet adj u v) = alookup w adj := by
  unfold adjSet
  exact alookup_map_modify_ne h (fun l => if v ∈ l then l else l ++ [v]) adj

theorem adjDel_keys (adj : List (String × List String)) (u v : String) :
    (adjDel adj u v).map Prod.fst = adj.map Prod.fst := by
  unfold adjDel
  rw [List.map_map]
  refine List.map_congr_left (fun p _ => ?_)
  by_cases hp : p.1 = u <;> simp [hp]

theorem alookup_adjDel_self (adj : List (String × List String)) (u v : String) :
    alookup u (adjDel adj u v) = (alookup u adj).map (fun l => l.erase v) := by
  unfold adjDel
  exact alookup_map_modify u (fun l => l.erase v) adj

theorem alookup_adjDel_ne {w u : String} (h : w ≠ u) (adj : List (String × List String))
    (v : String) : alookup w (adjDel adj u v) = alookup w adj := by
  unfold adjDel
  exact alookup_map_modify_ne h (fun l => l.erase v) adj

/-- The adjacency projection has a directed entry `u → v`
(`v in self.adj[u]` in Python). -/
def adjHas (g : Graph) (u v : String) : Prop :=
  v ∈ g.adjListOf u

/-- The structural invariant of the Graph Store (spec §3): distinct node
names, adjacency keyed exactly by the nodes, every stored edge keyed by the
unordered pair of its two distinct endpoints (both existing nodes), and the
adjacency projection symmetric and consistent with the edge set. -/
structure WF (g : Graph) : Prop where
  nodesNodup : (g.nodes.map Prod.fst).Nodup
  adjKeysEq : g.adj.map Prod.fst = g.nodes.map Prod.fst
  edgesNodup : (g.edges.map Prod.fst).Nodup
  edgeKey : ∀ p ∈ g.edges, p.1 = Sym2.mk (p.2.u, p.2.v) ∧ p.2.u ≠ p.2.v
  edgeEnds : ∀ p ∈ g.edges, p.2.u ∈ g.nodeNames ∧ p.2.v ∈ g.nodeNames
  adjNodup : ∀ p ∈ g.adj, p.2.Nodup
  adjIffEdge : ∀ u v, adjHas g u v ↔
    ((alookup (Sym2.mk (u, v)) g.edges).isSome = true ∧ u ≠ v)

theorem WF_empty : WF Graph.empty := by
  refine ⟨?_, ?_, ?_, ?_, ?_, ?_, ?_⟩ <;>
    simp [Graph.empty, adjHas, Graph.adjListOf, alookup, Graph.nodeNames]

theorem WF.adj_isSome_iff {g : Graph} (h : WF g) (u : String) :
    (alookup u g.adj).isSome = true ↔ u ∈ g.nodeNames := by
  rw [alookup_isSome_iff, h.adjKeysEq]
  exact Iff.rfl

theorem get_edge_symm (g : Graph) (u v : String) : g.get_edge u v = g.get_edge v u := by
  unfold Graph.get_edge
  rw [show Sym2.mk (u, v) = Sym2.mk (v, u) from Sym2.eq_swap]

theorem WF.get_edge_diag {g : Graph} (h : WF g) (u : String) : g.get_edge u u = none := by
  rcases he : g.get_edge u u with _ | e
  · rfl
  · exfalso
    have hmem := alookup_mem he
    rcases h.edgeKey _ hmem with ⟨hk, hne⟩
    rcases Sym2.eq_iff.mp hk with ⟨h1, h2⟩ | ⟨h1, h2⟩ <;> exact hne (h1 ▸ h2 ▸ rfl)

theorem WF.get_edge_mem {g : Graph} (h : WF g) {u v : String} {e : Edge}
    (he : g.get_edge u v = some e) :
    (Sym2.mk (u, v), e) ∈ g.edges ∧ Sym2.mk (u, v) = Sym2.mk (e.u, e.v) ∧ e.u ≠ e.v :=
  ⟨alookup_mem he, (h.edgeKey _ (alookup_mem he)).1, (h.edgeKey _ (alookup_mem he)).2⟩

theorem aerase_subset {κ β : Type} [DecidableEq κ] (k : κ) (l : List (κ × β)) :
    ∀ p, p ∈ aerase k l → p ∈ l := by
  intro p hp
  induction l with
  | nil => simp [aerase] at hp
  | cons q rest ih =>
    by_cases hq : q.1 = k
    · rw [aerase, if_pos hq] at hp
      exact List.mem_cons_of_mem _ hp
    · rw [aerase, if_neg hq] at hp
      rcases List.mem_cons.mp hp with rfl | hp'
      · exact List.mem_cons_self _ _
      · exact List.mem_cons_of_mem _ (ih hp')

theorem adjSet_mem {adj : List (String × List String)} {u v : String} {p}
    (hp : p ∈ adjSet adj u v) :
    ∃ q ∈ adj, p.2 = q.2 ∨ (v ∉ q.2 ∧ p.2 = q.2 ++ [v]) := by
  rcases List.mem_map.mp hp with ⟨q, hq, hqe⟩
  refine ⟨q, hq, ?_⟩
  by_cases h1 : q.1 = u
  · rw [if_pos h1] at hqe
    by_cases h2 : v ∈ q.2
    · left; rw [← hqe]; simp [h2]
    · right; refine ⟨h2, ?_⟩; rw [← hqe]; simp [h2]
  · left; rw [if_neg h1] at hqe; rw [← hqe]

theorem adjDel_mem {adj : List (String × List String)} {u v : String} {p}
    (hp : p ∈ adjDel adj u v) :
    ∃ q ∈ adj, p.2 = q.2 ∨ p.2 = q.2.erase v := by
  rcases List.mem_map.mp hp with ⟨q, hq, hqe⟩
  refine ⟨q, hq, ?_⟩
  by_cases h1 : q.1 = u
  · right; rw [if_pos h1] at hqe; rw [← hqe]
  · left; rw [if_neg h1] at hqe; rw [← hqe]

theorem sym2_eq_cases {x y u v : String} (hEq : Sym2.mk (x, y) = Sym2.mk (u, v)) :
    (x = u ∧ y = v) ∨ (x = v ∧ y = u) :=
  Sym2.eq_iff.mp hEq

theorem alookup_append_single_ne {κ β : Type} [DecidableEq κ] {k k' : κ} (h : k' ≠ k)
    (v : β) (l : List (κ × β)) : alookup k (l ++ [(k', v)]) = alookup k l := by
  rw [alookup_append]
  rcases hl : alookup k l with _ | w
  · simp [alookup, h]
  · rfl

theorem alookup_append_single_self {κ β : Type} [DecidableEq κ] {k : κ}
    {l : List (κ × β)} (h : alookup k l = none) (v : β) :
    alookup k (l ++ [(k, v)]) = some v := by
  rw [alookup_append, h]
  simp [alookup]

theorem mem_insert_tail_iff {l : List String} {v y : String} :
    (y ∈ if v ∈ l then l else l ++ [v]) ↔ (y ∈ l ∨ y = v) := by
  by_cases hv : v ∈ l
  · rw [if_pos hv]
    exact (or_iff_left_of_imp (fun hy => hy ▸ hv)).symm
  · rw [if_neg hv]
    simp [List.mem_append]

/-- `add_node` preserves the structural invariant. -/
theorem WF.preserve_add_node {g g' : Graph} {name : String} {x y : Int} (h : WF g)
    (hok : g.add_node name x y = .ok g') : WF g' := by
  unfold Graph.add_node at hok
  by_cases hs : (alookup name g.nodes).isSome = true
  · rw [if_pos hs] at hok; cases hok
  rw [if_neg hs] at hok
  rw [Option.not_isSome_iff_eq_none] at hs
  have hname : name ∉ g.nodes.map Prod.fst := (alookup_eq_none_iff _ _).mp hs
  have hadj : alookup name g.adj = none := by
    rw [alookup_eq_none_iff, h.adjKeysEq]; exact hname
  rw [Except.ok.injEq] at hok
  subst hok
  rw [dictSet_absent hs, dictSet_absent hadj]
  refine ⟨?_, ?_, ?_, ?_, ?_, ?_, ?_⟩
  · simpa [List.map_append] using nodup_append_single h.nodesNodup hname
  · simp [List.map_append, h.adjKeysEq]
  · exact h.edgesNodup
  · exact h.edgeKey
  · intro p hp
    rcases h.edgeEnds p hp with ⟨h1, h2⟩
    constructor <;> simp only [Graph.nodeNames, List.map_append] <;>
      exact List.mem_append_left _ (by assumption)
  · intro p hp
    rcases List.mem_append.mp hp with hp' | hp'
    · exact h.adjNodup p hp'
    · simp only [List.mem_singleton] at hp'
      subst hp'
      exact List.nodup_nil
  · intro a b
    have base := h.adjIffEdge a b
    simp only [adjHas, Graph.adjListOf] at base ⊢
    rw [alookup_append]
    rcases ha : alookup a g.adj with _ | l
    · rw [ha] at base
      by_cases han : name = a
      · subst han
        simp only [alookup, if_pos rfl]
        simp only [Option.getD_some, Option.getD_none] at base ⊢
        simpa using base
      · simp only [alookup, if_neg han]
        exact base
    · rw [ha] at base
      exact base

/-- `toggle_closed` preserves the structural invariant. -/
theorem WF.preserve_toggle_closed {g g' : Graph} {u v : String} {e : Edge} (h : WF g)
    (hok : g.toggle_closed u v = .ok (e, g')) : WF g' := by
  unfold Graph.toggle_closed at hok
  rcases hge : g.get_edge u v with _ | e0
  · rw [hge] at hok; cases hok
  rw [hge] at hok
  simp only [Except.ok.injEq, Prod.mk.injEq] at hok
  obtain ⟨he, hg'⟩ := hok
  subst hg'
  have hkey : (alookup (Sym2.mk (u, v)) g.edges).isSome = true := by
    unfold Graph.get_edge at hge; rw [hge]; rfl
  have hmap : dictSet (Sym2.mk (u, v)) { e0 with closed := !e0.closed } g.edges =
      g.edges.map (fun p => if p.1 = Sym2.mk (u, v) then
        (Sym2.mk (u, v), { e0 with closed := !e0.closed }) else p) := by
    rw [dictSet, if_pos hkey]
  have hkeys : (dictSet (Sym2.mk (u, v)) { e0 with closed := !e0.closed } g.edges).map
      Prod.fst = g.edges.map Prod.fst := by
    rw [dictSet_keys, if_pos hkey]
  have hmem : ∀ p, p ∈ dictSet (Sym2.mk (u, v)) { e0 with closed := !e0.closed } g.edges →
      p ∈ g.edges ∨ p = (Sym2.mk (u, v), { e0 with closed := !e0.closed }) := by
    intro p hp
    rw [hmap] at hp
    rcases List.mem_map.mp hp with ⟨q, hq, hqe⟩
    by_cases h1 : q.1 = Sym2.mk (u, v)
    · right; rw [if_pos h1] at hqe; exact hqe.symm
    · left; rw [if_neg h1] at hqe; rw [← hqe]; exact hq
  have hmemKey := h.get_edge_mem hge
  refine ⟨h.nodesNodup, h.adjKeysEq, ?_, ?_, ?_, h.adjNodup, ?_⟩
  · rw [hkeys]; exact h.edgesNodup
  · intro p hp
    rcases hmem p hp with hp' | hp'
    · exact h.edgeKey p hp'
    · subst hp'
      exact ⟨hmemKey.2.1, hmemKey.2.2⟩
  · intro p hp
    rcases hmem p hp with hp' | hp'
    · exact h.edgeEnds p hp'
    · subst hp'
      simpa using h.edgeEnds _ hmemKey.1
  · intro a b
    have base := h.adjIffEdge a b
    have : (alookup (Sym2.mk (a, b))
        (dictSet (Sym2.mk (u, v)) { e0 with closed := !e0.closed } g.edges)).isSome =
        (alookup (Sym2.mk (a, b)) g.edges).isSome := by
      by_cases hk : Sym2.mk (a, b) = Sym2.mk (u, v)
      · rw [hk, alookup_dictSet_self, hkey]; rfl
      · rw [alookup_dictSet_ne hk]
    simpa [adjHas, Graph.adjListOf, this] using base

/-- `toggle_accessibility` preserves the structural invariant. -/
theorem WF.preserve_toggle_accessibility {g g' : Graph} {u v : String} {e : Edge} (h : WF g)
    (hok : g.toggle_accessibility u v = .ok (e, g')) : WF g' := by
  unfold Graph.toggle_accessibility at hok
  rcases hge : g.get_edge u v with _ | e0
  · rw [hge] at hok; cases hok
  rw [hge] at hok
  simp only [Except.ok.injEq, Prod.mk.injEq] at hok
  obtain ⟨he, hg'⟩ := hok
  subst hg'
  have hkey : (alookup (Sym2.mk (u, v)) g.edges).isSome = true := by
    unfold Graph.get_edge at hge; rw [hge]; rfl
  have hmap : dictSet (Sym2.mk (u, v)) { e0 with accessible := !e0.accessible } g.edges =
      g.edges.map (fun p => if p.1 = Sym2.mk (u, v) then
        (Sym2.mk (u, v), { e0 with accessible := !e0.accessible }) else p) := by
    rw [dictSet, if_pos hkey]
  have hkeys : (dictSet (Sym2.mk (u, v)) { e0 with accessible := !e0.accessible } g.edges).map
      Prod.fst = g.edges.map Prod.fst := by
    rw [dictSet_keys, if_pos hkey]
  have hmem : ∀ p,
      p ∈ dictSet (Sym2.mk (u, v)) { e0 with accessible := !e0.accessible } g.edges →
      p ∈ g.edges ∨ p = (Sym2.mk (u, v), { e0 with accessible := !e0.accessible }) := by
    intro p hp
    rw [hmap] at hp
    rcases List.mem_map.mp hp with ⟨q, hq, hqe⟩
    by_cases h1 : q.1 = Sym2.mk (u, v)
    · right; rw [if_pos h1] at hqe; exact hqe.symm
    · left; rw [if_neg h1] at hqe; rw [← hqe]; exact hq
  have hmemKey := h.get_edge_mem hge
  refine ⟨h.nodesNodup, h.adjKeysEq, ?_, ?_, ?_, h.adjNodup, ?_⟩
  · rw [hkeys]; exact h.edgesNodup
  · intro p hp
    rcases hmem p hp with hp' | hp'
    · exact h.edgeKey p hp'
    · subst hp'
      exact ⟨hmemKey.2.1, hmemKey.2.2⟩
  · intro p hp
    rcases hmem p hp with hp' | hp'
    · exact h.edgeEnds p hp'
    · subst hp'
      simpa using h.edgeEnds _ hmemKey.1
  · intro a b
    have base := h.adjIffEdge a b
    have : (alookup (Sym2.mk (a, b))
        (dictSet (Sym2.mk (u, v)) { e0 with accessible := !e0.accessible } g.edges)).isSome =
        (alookup (Sym2.mk (a, b)) g.edges).isSome := by
      by_cases hk : Sym2.mk (a, b) = Sym2.mk (u, v)
      · rw [hk, alookup_dictSet_self, hkey]; rfl
      · rw [alookup_dictSet_ne hk]
    simpa [adjHas, Graph.adjListOf, this] using base

/-- `add_edge` preserves the structural invariant. -/
theorem WF.preserve_add_edge {g : Graph} {u v : String} {d t : Int} {a : Bool} {e : Edge}
    {g' : Graph} (h : WF g) (hok : g.add_edge u v d t a = .ok (e, g')) : WF g' := by
  unfold Graph.add_edge at hok
  by_cases huv : u = v
  · rw [if_pos huv] at hok; cases hok
  rw [if_neg huv] at hok
  by_cases hun : ((alookup u g.nodes).isNone || (alookup v g.nodes).isNone) = true
  · rw [if_pos hun] at hok; cases hok
  rw [if_neg hun] at hok
  by_cases hdup : (alookup (Sym2.mk (u, v)) g.edges).isSome = true
  · rw [if_pos hdup] at hok; cases hok
  rw [if_neg hdup] at hok
  simp only [Except.ok.injEq, Prod.mk.injEq] at hok
  obtain ⟨hE, hG⟩ := hok
  subst hG
  rw [Option.not_isSome_iff_eq_none] at hdup
  have hkey_notin : Sym2.mk (u, v) ∉ g.edges.map Prod.fst := (alookup_eq_none_iff _ _).mp hdup
  simp only [Bool.or_eq_true, Option.isNone_iff_eq_none] at hun
  push_neg at hun
  obtain ⟨hu0, hv0⟩ := hun
  have hu1 : (alookup u g.nodes).isSome = true := Option.ne_none_iff_isSome.mp hu0
  have hv1 : (alookup v g.nodes).isSome = true := Option.ne_none_iff_isSome.mp hv0
  have humem : u ∈ g.nodes.map Prod.fst := (alookup_isSome_iff _ _).mp hu1
  have hvmem : v ∈ g.nodes.map Prod.fst := (alookup_isSome_iff _ _).mp hv1
  have hua : (alookup u g.adj).isSome = true := by
    rw [alookup_isSome_iff, h.adjKeysEq]; exact humem
  have hva : (alookup v g.adj).isSome = true := by
    rw [alookup_isSome_iff, h.adjKeysEq]; exact hvmem
  obtain ⟨lu, hlu⟩ := Option.isSome_iff_exists.mp hua
  obtain ⟨lv, hlv⟩ := Option.isSome_iff_exists.mp hva
  rw [dictSet_absent hdup]
  refine ⟨h.nodesNodup, ?_, ?_, ?_, ?_, ?_, ?_⟩
  · rw [adjSet_keys, adjSet_keys, h.adjKeysEq]
  · simp only [List.map_append, List.map_cons, List.map_nil]
    exact nodup_append_single h.edgesNodup hkey_notin
  · intro p hp
    rcases List.mem_append.mp hp with hp' | hp'
    · exact h.edgeKey p hp'
    · simp only [List.mem_singleton] at hp'
      subst hp'
      exact ⟨rfl, huv⟩
  · intro p hp
    rcases List.mem_append.mp hp with hp' | hp'
    · exact h.edgeEnds p hp'
    · simp only [List.mem_singleton] at hp'
      subst hp'
      exact ⟨humem, hvmem⟩
  · intro p hp
    rcases adjSet_mem hp with ⟨q, hq, hcase⟩
    rcases adjSet_mem hq with ⟨r, hr, hcase'⟩
    have hrnd : r.2.Nodup := h.adjNodup r hr
    have hqnd : q.2.Nodup := by
      rcases hcase' with hh | ⟨hv2, hh⟩
      · rw [hh]; exact hrnd
      · rw [hh]; exact nodup_append_single hrnd hv2
    rcases hcase with hh | ⟨hu2, hh⟩
    · rw [hh]; exact hqnd
    · rw [hh]; exact nodup_append_single hqnd hu2
  · intro x y
    have base := h.adjIffEdge x y
    by_cases hxu : x = u
    · subst hxu
      have l1 : alookup x (adjSet (adjSet g.adj x v) v x) =
          some (if v ∈ lu then lu else lu ++ [v]) := by
        rw [alookup_adjSet_ne huv (adjSet g.adj x v) x, alookup_adjSet_self, hlu]
        rfl
      simp only [adjHas, Graph.adjListOf] at base ⊢
      rw [l1, Option.getD_some, mem_insert_tail_iff]
      by_cases hyv : y = v
      · subst hyv
        constructor
        · intro _
          refine ⟨?_, huv⟩
          rw [alookup_append_single_self hdup]
          rfl
        · intro _
          exact Or.inr rfl
      · have hne : Sym2.mk (x, y) ≠ Sym2.mk (x, v) := by
          intro hEq
          rcases sym2_eq_cases hEq with ⟨_, h2⟩ | ⟨h1, _⟩
          · exact hyv h2
          · exact huv h1
        rw [alookup_append_single_ne (Ne.symm hne)]
        rw [hlu, Option.getD_some] at base
        constructor
        · intro hy
          rcases hy with hy | hy
          · exact base.mp hy
          · exact absurd hy hyv
        · intro hr
          exact Or.inl (base.mpr hr)
    · by_cases hxv : x = v
      · subst hxv
        have l1 : alookup x (adjSet (adjSet g.adj u x) x u) =
            some (if u ∈ lv then lv else lv ++ [u]) := by
          rw [alookup_adjSet_self, alookup_adjSet_ne (Ne.symm huv), hlv]
          rfl
        simp only [adjHas, Graph.adjListOf] at base ⊢
        rw [l1, Option.getD_some, mem_insert_tail_iff]
        by_cases hyu : y = u
        · subst hyu
          constructor
          · intro _
            refine ⟨?_, Ne.symm huv⟩
            rw [show Sym2.mk (x, y) = Sym2.mk (y, x) from Sym2.eq_swap,
              alookup_append_single_self hdup]
            rfl
          · intro _
            exact Or.inr rfl
        · have hne : Sym2.mk (x, y) ≠ Sym2.mk (u, x) := by
            intro hEq
            rcases sym2_eq_cases hEq with ⟨h1, _⟩ | ⟨_, h2⟩
            · exact huv h1.symm
            · exact hyu h2
          rw [alookup_append_single_ne (Ne.symm hne)]
          rw [hlv, Option.getD_some] at base
          constructor
          · intro hy
            rcases hy with hy | hy
            · exact base.mp hy
            · exact absurd hy hyu
          · intro hr
            exact Or.inl (base.mpr hr)
      · have l1 : alookup x (adjSet (adjSet g.adj u v) v u) = alookup x g.adj := by
          rw [alookup_adjSet_ne hxv (adjSet g.adj u v) u, alookup_adjSet_ne hxu g.adj v]
        have hne : Sym2.mk (x, y) ≠ Sym2.mk (u, v) := by
          intro hEq
          rcases sym2_eq_cases hEq with ⟨h1, _⟩ | ⟨h1, _⟩
          · exact hxu h1
          · exact hxv h1
        simp only [adjHas, Graph.adjListOf] at base ⊢
        rw [l1, alookup_append_single_ne (Ne.symm hne)]
        exact base

/-- A successful `remove_edge` preserves the structural invariant. -/
theorem WF.preserve_removeEdgeOk {g : Graph} {u v : String} {e : Edge} (h : WF g)
    (hsome : alookup (Sym2.mk (u, v)) g.edges = some e) : WF (g.removeEdgeOk u v) := by
  have hmem : (Sym2.mk (u, v), e) ∈ g.edges := alookup_mem hsome
  rcases h.edgeKey _ hmem with ⟨hk, hneuv⟩
  have huv : u ≠ v := by
    intro hEq
    rcases sym2_eq_cases hk with ⟨h1, h2⟩ | ⟨h1, h2⟩ <;>
      exact hneuv (by rw [← h1, ← h2, hEq])
  unfold Graph.removeEdgeOk
  refine ⟨h.nodesNodup, ?_, ?_, ?_, ?_, ?_, ?_⟩
  · rw [adjDel_keys, adjDel_keys, h.adjKeysEq]
  · rw [aerase_keys]
    exact h.edgesNodup.erase _
  · intro p hp
    exact h.edgeKey p (aerase_subset _ _ p hp)
  · intro p hp
    exact h.edgeEnds p (aerase_subset _ _ p hp)
  · intro p hp
    rcases adjDel_mem hp with ⟨q, hq, hcase⟩
    rcases adjDel_mem hq with ⟨r, hr, hcase'⟩
    have hrnd : r.2.Nodup := h.adjNodup r hr
    have hqnd : q.2.Nodup := by
      rcases hcase' with hh | hh
      · rw [hh]; exact hrnd
      · rw [hh]; exact hrnd.erase _
    rcases hcase with hh | hh
    · rw [hh]; exact hqnd
    · rw [hh]; exact hqnd.erase _
  · intro x y
    have base := h.adjIffEdge x y
    by_cases hxu : x = u
    · subst hxu
      simp only [adjHas, Graph.adjListOf] at base ⊢
      rcases halu : alookup x g.adj with _ | lu
      · have l1 : alookup x (adjDel (adjDel g.adj x v) v x) = none := by
          rw [alookup_adjDel_ne huv (adjDel g.adj x v) x, alookup_adjDel_self, halu]
          rfl
        rw [halu] at base
        rw [l1]
        constructor
        · intro hy
          simp at hy
        · intro hr
          by_cases hky : Sym2.mk (x, y) = Sym2.mk (x, v)
          · rw [hky, alookup_aerase_self h.edgesNodup] at hr
            simp at hr
          · rw [alookup_aerase_ne hky] at hr
            exact absurd hr (by simpa using base.not.mp (by simp))
      · have l1 : alookup x (adjDel (adjDel g.adj x v) v x) = some (lu.erase v) := by
          rw [alookup_adjDel_ne huv (adjDel g.adj x v) x, alookup_adjDel_self, halu]
          rfl
        rw [halu] at base
        rw [l1]
        have hlund : lu.Nodup := h.adjNodup _ (alookup_mem halu)
        simp only [Option.getD_some] at base ⊢
        by_cases hyv : y = v
        · subst hyv
          constructor
          · intro hy
            exact absurd ((hlund.mem_erase_iff).mp hy).1 (by simp)
          · intro hr
            rw [alookup_aerase_self h.edgesNodup] at hr
            simp at hr
        · have hne : Sym2.mk (x, y) ≠ Sym2.mk (x, v) := by
            intro hEq
            rcases sym2_eq_cases hEq with ⟨_, h2⟩ | ⟨h1, _⟩
            · exact hyv h2
            · exact huv h1
          rw [alookup_aerase_ne hne, List.mem_erase_of_ne hyv]
          exact base
    · by_cases hxv : x = v
      · subst hxv
        simp only [adjHas, Graph.adjListOf] at base ⊢
        have hswap : Sym2.mk (u, x) = Sym2.mk (x, u) := Sym2.eq_swap
        rcases halu : alookup x g.adj with _ | lv
        · have l1 : alookup x (adjDel (adjDel g.adj u x) x u) = none := by
            rw [alookup_adjDel_self, alookup_adjDel_ne (Ne.symm huv), halu]
            rfl
          rw [halu] at base
          rw [l1]
          constructor
          · intro hy
            simp at hy
          · intro hr
            by_cases hky : Sym2.mk (x, y) = Sym2.mk (u, x)
            · rw [hky, hswap, show Sym2.mk (x, u) = Sym2.mk (u, x) from Sym2.eq_swap,
                alookup_aerase_self h.edgesNodup] at hr
              simp at hr
            · by_cases hky2 : Sym2.mk (x, y) = Sym2.mk (u, x)
              · exact absurd hky2 hky
              · rw [alookup_aerase_ne hky2] at hr
                exact absurd hr (by simpa using base.not.mp (by simp))
        · have l1 : alookup x (adjDel (adjDel g.adj u x) x u) = some (lv.erase u) := by
            rw [alookup_adjDel_self, alookup_adjDel_ne (Ne.symm huv), halu]
            rfl
          rw [halu] at base
          rw [l1]
          have hlvnd : lv.Nodup := h.adjNodup _ (alookup_mem halu)
          simp only [Option.getD_some] at base ⊢
          by_cases hyu : y = u
          · subst hyu
            constructor
            · intro hy
              exact absurd ((hlvnd.mem_erase_iff).mp hy).1 (by simp)
            · intro hr
              rw [show Sym2.mk (x, y) = Sym2.mk (y, x) from Sym2.eq_swap,
                alookup_aerase_self h.edgesNodup] at hr
              simp at hr
          · have hne : Sym2.mk (x, y) ≠ Sym2.mk (u, x) := by
              intro hEq
              rcases sym2_eq_cases hEq with ⟨h1, _⟩ | ⟨_, h2⟩
              · exact hxu h1
              · exact hyu h2
            rw [alookup_aerase_ne hne, List.mem_erase_of_ne hyu]
            exact base
      · have l1 : alookup x (adjDel (adjDel g.adj u v) v u) = alookup x g.adj := by
          rw [alookup_adjDel_ne hxv (adjDel g.adj u v) u, alookup_adjDel_ne hxu g.adj v]
        have hne : Sym2.mk (x, y) ≠ Sym2.mk (u, v) := by
          intro hEq
          rcases sym2_eq_cases hEq with ⟨h1, _⟩ | ⟨h1, _⟩
          · exact hxu h1
          · exact hxv h1
        simp only [adjHas, Graph.adjListOf] at base ⊢
        rw [l1, alookup_aerase_ne hne]
        exact base

theorem randomize_keys (g : Graph) (f : Nat → Int) :
    (g.randomize_edge_weights f).edges.map Prod.fst = g.edges.map Prod.fst := by
  unfold Graph.randomize_edge_weights
  simp only [List.map_map]
  have : (Prod.fst ∘ fun q : Nat × Sym2 String × Edge =>
      (q.2.1, { q.2.2 with distance := f (2 * q.1), time := f (2 * q.1 + 1) })) =
      (Prod.fst ∘ Prod.snd) := rfl
  rw [this, show (Prod.fst ∘ Prod.snd : Nat × Sym2 String × Edge → Sym2 String) =
    Prod.fst ∘ (Prod.snd : Nat × Sym2 String × Edge → Sym2 String × Edge) from rfl,
    ← List.map_map, List.enum_map_snd]

theorem randomize_mem {g : Graph} {f : Nat → Int} {p : Sym2 String × Edge}
    (hp : p ∈ (g.randomize_edge_weights f).edges) :
    ∃ q ∈ g.edges, ∃ i, p = (q.1,
      { q.2 with distance := f (2 * i), time := f (2 * i + 1) }) := by
  unfold Graph.randomize_edge_weights at hp
  rcases List.mem_map.mp hp with ⟨x, hx, hxe⟩
  refine ⟨x.2, ?_, x.1, hxe.symm⟩
  have : x.2 ∈ g.edges.enum.map Prod.snd := List.mem_map_of_mem Prod.snd hx
  rwa [List.enum_map_snd] at this

theorem forall₂_congr_left {α β : Type} {R S : α → β → Prop} :
    ∀ {l₁ : List α} {l₂ : List β}, List.Forall₂ R l₁ l₂ →
      (∀ a ∈ l₁, ∀ b, R a b → S a b) → List.Forall₂ S l₁ l₂
  | _, _, List.Forall₂.nil, _ => List.Forall₂.nil
  | _, _, List.Forall₂.cons hab hrest, hc =>
    List.Forall₂.cons (hc _ (List.mem_cons_self _ _) _ hab)
      (forall₂_congr_left hrest (fun a ha b hr => hc a (List.mem_cons_of_mem _ ha) b hr))

/-- Characterization of the edge-removal loop of `remove_node`: it removes
exactly the edges `{name, nbr}` for `nbr` in the neighbor list, collects them
in iteration order, and touches nothing else. -/
theorem removeNodeLoop_spec (name : String) :
    ∀ (nbrs : List String) (g : Graph), WF g → nbrs.Nodup →
    (∀ nbr ∈ nbrs, (g.get_edge name nbr).isSome = true ∧ nbr ≠ name) →
    WF (removeNodeLoop name nbrs g).2 ∧
    (removeNodeLoop name nbrs g).2.nodes = g.nodes ∧
    (removeNodeLoop name nbrs g).2.adj.map Prod.fst = g.adj.map Prod.fst ∧
    List.Forall₂ (fun nbr e => g.get_edge name nbr = some e) nbrs
      (removeNodeLoop name nbrs g).1 ∧
    (∀ nbr ∈ nbrs,
      alookup (Sym2.mk (name, nbr)) (removeNodeLoop name nbrs g).2.edges = none) ∧
    (∀ k, (∀ nbr ∈ nbrs, k ≠ Sym2.mk (name, nbr)) →
      alookup k (removeNodeLoop name nbrs g).2.edges = alookup k g.edges) ∧
    (∀ p ∈ (removeNodeLoop name nbrs g).2.edges, p ∈ g.edges)
  | [], g, hwf, _, _ =>
    ⟨hwf, rfl, rfl, List.Forall₂.nil, by simp, fun k _ => rfl, fun p hp => hp⟩
  | nbr :: rest, g, hwf, hnd, hcond => by
    obtain ⟨hs, hnbrname⟩ := hcond nbr (List.mem_cons_self _ _)
    obtain ⟨e, hsome⟩ := Option.isSome_iff_exists.mp hs
    have hsome' : alookup (Sym2.mk (name, nbr)) g.edges = some e := hsome
    rw [List.nodup_cons] at hnd
    have hkeyne : ∀ nbr' ∈ rest, Sym2.mk (name, nbr') ≠ Sym2.mk (name, nbr) := by
      intro nbr' hn' hEq
      rcases sym2_eq_cases hEq with ⟨_, h2⟩ | ⟨_, h2⟩
      · exact hnd.1 (h2 ▸ hn')
      · exact (hcond nbr' (List.mem_cons_of_mem _ hn')).2 h2
    have hwf' : WF (g.removeEdgeOk name nbr) := hwf.preserve_removeEdgeOk hsome'
    have hlookup' : ∀ nbr' ∈ rest,
        (g.removeEdgeOk name nbr).get_edge name nbr' = g.get_edge name nbr' := by
      intro nbr' hn'
      unfold Graph.get_edge Graph.removeEdgeOk
      exact alookup_aerase_ne (hkeyne nbr' hn') g.edges
    have hcond' : ∀ nbr' ∈ rest,
        ((g.removeEdgeOk name nbr).get_edge name nbr').isSome = true ∧ nbr' ≠ name := by
      intro nbr' hn'
      rw [hlookup' nbr' hn']
      exact hcond nbr' (List.mem_cons_of_mem _ hn')
    obtain ⟨ihWF, ihNodes, ihAdjKeys, ihF2, ihRemoved, ihKept, ihSub⟩ :=
      removeNodeLoop_spec name rest (g.removeEdgeOk name nbr) hwf' hnd.2 hcond'
    have hred : removeNodeLoop name (nbr :: rest) g =
        (e :: (removeNodeLoop name rest (g.removeEdgeOk name nbr)).1,
         (removeNodeLoop name rest (g.removeEdgeOk name nbr)).2) := by
      rw [removeNodeLoop, hsome]
    rw [hred]
    refine ⟨ihWF, ihNodes, ?_, ?_, ?_, ?_, ?_⟩
    · rw [ihAdjKeys]
      unfold Graph.removeEdgeOk
      rw [adjDel_keys, adjDel_keys]
    · refine List.Forall₂.cons hsome' ?_
      refine forall₂_congr_left ihF2 (fun a ha b hr => ?_)
      rw [← hlookup' a ha]
      exact hr
    · intro nbr' hn'
      rcases List.mem_cons.mp hn' with rfl | hn''
      · rw [ihKept _ (fun w hw => Ne.symm (hkeyne w hw))]
        exact alookup_aerase_self hwf.edgesNodup
      · exact ihRemoved nbr' hn''
    · intro k hk
      rw [ihKept k (fun w hw => hk w (List.mem_cons_of_mem _ hw))]
      unfold Graph.removeEdgeOk
      exact alookup_aerase_ne (hk nbr (List.mem_cons_self _ _)) g.edges
    · intro p hp
      have := ihSub p hp
      unfold Graph.removeEdgeOk at this
      exact aerase_subset _ _ p this

/-- Master characterization of a successful `remove_node`: the invariant is
preserved, the removed edges are exactly the incident ones in
adjacency-iteration order, all other edges and nodes survive untouched, and no
adjacency entry references the removed node afterwards. -/
theorem remove_node_master {g : Graph} {name : String} (hwf : WF g)
    (hmem : name ∈ g.nodeNames) :
    ∃ es g', g.remove_node name = .ok (es, g') ∧ WF g' ∧
      List.Forall₂ (fun nbr e => g.get_edge name nbr = some e) (g.adjListOf name) es ∧
      (∀ k e, alookup k g'.edges = some e ↔ (alookup k g.edges = some e ∧ name ∉ k)) ∧
      (∀ m, alookup m g'.nodes = if m = name then none else alookup m g.nodes) ∧
      (∀ x l, alookup x g'.adj = some l → x ≠ name ∧ name ∉ l) := by
  have hns : (alookup name g.nodes).isSome = true := by
    rw [alookup_isSome_iff]
    exact hmem
  have hnn : ¬ ((alookup name g.nodes).isNone = true) := by
    rcases hx : alookup name g.nodes with _ | w
    · rw [hx] at hns; cases hns
    · simp
  have hadjs : (alookup name g.adj).isSome = true := by
    rw [alookup_isSome_iff, hwf.adjKeysEq]
    exact hmem
  obtain ⟨l₀, hl₀⟩ := Option.isSome_iff_exists.mp hadjs
  have hlist : g.adjListOf name = l₀ := by
    rw [Graph.adjListOf, hl₀]
    rfl
  have hnodup : l₀.Nodup := hwf.adjNodup _ (alookup_mem hl₀)
  have hcond : ∀ nbr ∈ l₀, (g.get_edge name nbr).isSome = true ∧ nbr ≠ name := by
    intro nbr hn
    have hhas : adjHas g name nbr := by
      rw [adjHas, hlist]
      exact hn
    rcases (hwf.adjIffEdge name nbr).mp hhas with ⟨hsome, hne⟩
    exact ⟨hsome, Ne.symm hne⟩
  obtain ⟨ihWF, ihNodes, ihAdjKeys, ihF2, ihRemoved, ihKept, ihSub⟩ :=
    removeNodeLoop_spec name l₀ g hwf hnodup hcond
  have hfinkeysN : (removeNodeLoop name l₀ g).2.nodes.map Prod.fst =
      g.nodes.map Prod.fst := by rw [ihNodes]
  have hfinkeysA : (removeNodeLoop name l₀ g).2.adj.map Prod.fst =
      g.adj.map Prod.fst := ihAdjKeys
  have hAdjKeysNodup : ((removeNodeLoop name l₀ g).2.adj.map Prod.fst).Nodup := by
    rw [hfinkeysA, hwf.adjKeysEq]
    exact hwf.nodesNodup
  have hNodesKeysNodup : ((removeNodeLoop name l₀ g).2.nodes.map Prod.fst).Nodup := by
    rw [hfinkeysN]
    exact hwf.nodesNodup
  -- after the loop, no surviving edge is incident to `name`
  have hA : ∀ k e, alookup k (removeNodeLoop name l₀ g).2.edges = some e → name ∉ k := by
    intro k e hk hmemk
    have hpmem : (k, e) ∈ (removeNodeLoop name l₀ g).2.edges := alookup_mem hk
    have hgmem : (k, e) ∈ g.edges := ihSub _ hpmem
    rcases hwf.edgeKey _ hgmem with ⟨hkey, hne⟩
    simp only at hkey
    rcases (by rw [hkey] at hmemk; exact Sym2.mem_iff.mp hmemk :
      name = e.u ∨ name = e.v) with h1 | h1
    · have hhas : adjHas g name e.v := by
        refine (hwf.adjIffEdge name e.v).mpr ⟨?_, h1 ▸ hne⟩
        have hkk : Sym2.mk (name, e.v) = k := by rw [hkey, h1]
        rw [hkk, alookup_of_mem_nodup hwf.edgesNodup hgmem]
        rfl
      have hin : e.v ∈ l₀ := by
        rw [adjHas, hlist] at hhas
        exact hhas
      have hrem := ihRemoved e.v hin
      rw [show Sym2.mk (name, e.v) = k from by rw [hkey, h1]] at hrem
      rw [hrem] at hk
      cases hk
    · have hhas : adjHas g name e.u := by
        refine (hwf.adjIffEdge name e.u).mpr ⟨?_, fun hEq => hne (by rw [← hEq, ← h1])⟩
        have hkk : Sym2.mk (name, e.u) = k := by
          rw [hkey, h1]
          exact Sym2.eq_swap
        rw [hkk, alookup_of_mem_nodup hwf.edgesNodup hgmem]
        rfl
      have hin : e.u ∈ l₀ := by
        rw [adjHas, hlist] at hhas
        exact hhas
      have hrem := ihRemoved e.u hin
      rw [show Sym2.mk (name, e.u) = k from by rw [hkey, h1]; exact Sym2.eq_swap] at hrem
      rw [hrem] at hk
      cases hk
  have hred : g.remove_node name = .ok ((removeNodeLoop name l₀ g).1,
      Graph.mk (aerase name (removeNodeLoop name l₀ g).2.nodes)
        (removeNodeLoop name l₀ g).2.edges
        (aerase name (removeNodeLoop name l₀ g).2.adj)) := by
    unfold Graph.remove_node
    rw [if_neg hnn, hlist]
  -- the three dict-level characterizations, phrased on the reduced fields
  have hEdgesIff : ∀ k e, alookup k (removeNodeLoop name l₀ g).2.edges = some e ↔
      (alookup k g.edges = some e ∧ name ∉ k) := by
    intro k e
    constructor
    · intro hk
      have hnotin := hA k e hk
      refine ⟨?_, hnotin⟩
      by_cases hcase : ∀ nbr ∈ l₀, k ≠ Sym2.mk (name, nbr)
      · rw [← ihKept k hcase]
        exact hk
      · push_neg at hcase
        obtain ⟨nbr, _, hEq⟩ := hcase
        exact absurd (by rw [hEq]; exact Sym2.mem_mk_left _ _) hnotin
    · intro hpair
      have hcase : ∀ nbr ∈ l₀, k ≠ Sym2.mk (name, nbr) := by
        intro nbr _ hEq
        exact hpair.2 (by rw [hEq]; exact Sym2.mem_mk_left _ _)
      rw [ihKept k hcase]
      exact hpair.1
  have hNodesIff : ∀ m, alookup m (aerase name (removeNodeLoop name l₀ g).2.nodes) =
      if m = name then none else alookup m g.nodes := by
    intro m
    by_cases hm : m = name
    · rw [if_pos hm, hm]
      exact alookup_aerase_self hNodesKeysNodup
    · rw [if_neg hm, alookup_aerase_ne hm, ihNodes]
  have hAdjRef : ∀ x l, alookup x (aerase name (removeNodeLoop name l₀ g).2.adj) = some l →
      x ≠ name ∧ name ∉ l := by
    intro x l hxl
    have hxne : x ≠ name := by
      intro hEq
      rw [hEq, alookup_aerase_self hAdjKeysNodup] at hxl
      cases hxl
    refine ⟨hxne, ?_⟩
    intro hin
    rw [alookup_aerase_ne hxne] at hxl
    have hhas : adjHas (removeNodeLoop name l₀ g).2 x name := by
      rw [adjHas, Graph.adjListOf, hxl]
      exact hin
    rcases (ihWF.adjIffEdge x name).mp hhas with ⟨hsome2, _⟩
    obtain ⟨e2, he2⟩ := Option.isSome_iff_exists.mp hsome2
    exact absurd (Sym2.mem_mk_right _ _) (hA _ _ he2)
  have hWFout : WF (Graph.mk (aerase name (removeNodeLoop name l₀ g).2.nodes)
      (removeNodeLoop name l₀ g).2.edges
      (aerase name (removeNodeLoop name l₀ g).2.adj)) := by
    refine ⟨?_, ?_, ihWF.edgesNodup, ihWF.edgeKey, ?_, ?_, ?_⟩
    · show ((aerase name (removeNodeLoop name l₀ g).2.nodes).map Prod.fst).Nodup
      rw [aerase_keys]
      exact hNodesKeysNodup.erase _
    · show (aerase name (removeNodeLoop name l₀ g).2.adj).map Prod.fst =
        (aerase name (removeNodeLoop name l₀ g).2.nodes).map Prod.fst
      rw [aerase_keys, aerase_keys, hfinkeysA, hfinkeysN, hwf.adjKeysEq]
    · intro p hp
      have hend := ihWF.edgeEnds p hp
      have hpkey := ihWF.edgeKey p hp
      have hlookup : alookup p.1 (removeNodeLoop name l₀ g).2.edges = some p.2 :=
        alookup_of_mem_nodup ihWF.edgesNodup hp
      have hnotin := hA p.1 p.2 hlookup
      have hune : p.2.u ≠ name := by
        intro hEq
        exact hnotin (by rw [hpkey.1, ← hEq]; exact Sym2.mem_mk_left _ _)
      have hvne : p.2.v ≠ name := by
        intro hEq
        exact hnotin (by rw [hpkey.1, ← hEq]; exact Sym2.mem_mk_right _ _)
      constructor
      · show p.2.u ∈ (aerase name (removeNodeLoop name l₀ g).2.nodes).map Prod.fst
        rw [aerase_keys]
        refine (List.mem_erase_of_ne hune).mpr ?_
        exact hend.1
      · show p.2.v ∈ (aerase name (removeNodeLoop name l₀ g).2.nodes).map Prod.fst
        rw [aerase_keys]
        refine (List.mem_erase_of_ne hvne).mpr ?_
        exact hend.2
    · intro p hp
      exact ihWF.adjNodup p (aerase_subset _ _ p hp)
    · intro x y
      show (y ∈ (alookup x (aerase name (removeNodeLoop name l₀ g).2.adj)).getD []) ↔ _
      by_cases hx : x = name
      · rw [hx, alookup_aerase_self hAdjKeysNodup]
        constructor
        · intro hy
          simp at hy
        · intro hpair
          obtain ⟨e2, he2⟩ := Option.isSome_iff_exists.mp hpair.1
          exact absurd (Sym2.mem_mk_left _ _) (hA _ _ he2)
      · rw [alookup_aerase_ne hx]
        have base := ihWF.adjIffEdge x y
        rw [adjHas, Graph.adjListOf] at base
        exact base
  refine ⟨(removeNodeLoop name l₀ g).1,
    Graph.mk (aerase name (removeNodeLoop name l₀ g).2.nodes)
      (removeNodeLoop name l₀ g).2.edges
      (aerase name (removeNodeLoop name l₀ g).2.adj),
    hred, hWFout, ?_, hEdgesIff, hNodesIff, hAdjRef⟩
  rw [hlist]
  exact ihF2

/-- `randomize_edge_weights` preserves the structural invariant. -/
theorem WF.preserve_randomize {g : Graph} (h : WF g) (f : Nat → Int) :
    WF (g.randomize_edge_weights f) := by
  have hkeys := randomize_keys g f
  have hlook : ∀ k, (alookup k (g.randomize_edge_weights f).edges).isSome =
      (alookup k g.edges).isSome := by
    intro k
    by_cases hk : k ∈ g.edges.map Prod.fst
    · have h1 : (alookup k g.edges).isSome = true := (alookup_isSome_iff _ _).mpr hk
      have h2 : (alookup k (g.randomize_edge_weights f).edges).isSome = true :=
        (alookup_isSome_iff _ _).mpr (hkeys ▸ hk)
      rw [h1, h2]
    · have h1 : alookup k g.edges = none := (alookup_eq_none_iff _ _).mpr hk
      have h2 : alookup k (g.randomize_edge_weights f).edges = none :=
        (alookup_eq_none_iff _ _).mpr (hkeys ▸ hk)
      rw [h1, h2]
  refine ⟨h.nodesNodup, h.adjKeysEq, ?_, ?_, ?_, h.adjNodup, ?_⟩
  · rw [hkeys]; exact h.edgesNodup
  · intro p hp
    rcases randomize_mem hp with ⟨q, hq, i, hpe⟩
    subst hpe
    simpa using h.edgeKey q hq
  · intro p hp
    rcases randomize_mem hp with ⟨q, hq, i, hpe⟩
    subst hpe
    simpa using h.edgeEnds q hq
  · intro x y
    have base := h.adjIffEdge x y
    simp only [adjHas, Graph.adjListOf] at base ⊢
    rw [hlook]
    exact base

/-- A successful `remove_edge` preserves the structural invariant. -/
theorem WF.preserve_remove_edge {g g' : Graph} {u v : String} {e : Edge} (h : WF g)
    (hok : g.remove_edge u v = .ok (e, g')) : WF g' := by
  unfold Graph.remove_edge at hok
  rcases hs : alookup (Sym2.mk (u, v)) g.edges with _ | e0
  · rw [hs] at hok; cases hok
  · rw [hs] at hok
    simp only [Except.ok.injEq, Prod.mk.injEq] at hok
    rw [← hok.2]
    exact h.preserve_removeEdgeOk hs

/-- A successful `remove_node` preserves the structural invariant. -/
theorem WF.preserve_remove_node {g g' : Graph} {n : String} {es : List Edge} (h : WF g)
    (hok : g.remove_node n = .ok (es, g')) : WF g' := by
  have hmem : n ∈ g.nodeNames := by
    by_contra hmem
    have hnone : alookup n g.nodes = none := (alookup_eq_none_iff _ _).mpr hmem
    unfold Graph.remove_node at hok
    rw [if_pos (by rw [hnone]; rfl)] at hok
    cases hok
  obtain ⟨es2, g2, hred, hwf2, _⟩ := remove_node_master h hmem
  rw [hok] at hred
  simp only [Except.ok.injEq, Prod.mk.injEq] at hred
  rw [hred.2]
  exact hwf2

/-- The graph states reachable from a fresh `Graph()` through the Graph Store
operations (spec §4.1). -/
inductive Reaches : Graph → Prop where
  | empty : Reaches Graph.empty
  | add_node {g g' : Graph} {n : String} {x y : Int} :
      Reaches g → Graph.add_node g n x y = .ok g' → Reaches g'
  | add_edge {g g' : Graph} {u v : String} {d t : Int} {a : Bool} {e : Edge} :
      Reaches g → Graph.add_edge g u v d t a = .ok (e, g') → Reaches g'
  | remove_edge {g g' : Graph} {u v : String} {e : Edge} :
      Reaches g → Graph.remove_edge g u v = .ok (e, g') → Reaches g'
  | remove_node {g g' : Graph} {n : String} {es : List Edge} :
      Reaches g → Graph.remove_node g n = .ok (es, g') → Reaches g'
  | toggle_closed {g g' : Graph} {u v : String} {e : Edge} :
      Reaches g → Graph.toggle_closed g u v = .ok (e, g') → Reaches g'
  | toggle_accessibility {g g' : Graph} {u v : String} {e : Edge} :
      Reaches g → Graph.toggle_accessibility g u v = .ok (e, g') → Reaches g'
  | randomize {g : Graph} (f : Nat → Int) :
      Reaches g → Reaches (Graph.randomize_edge_weights g f)

/-- Every reachable Graph Store state satisfies the structural invariant. -/
theorem WF_of_reaches {g : Graph} (h : Reaches g) : WF g := by
  induction h with
  | empty => exact WF_empty
  | add_node _ hok ih => exact ih.preserve_add_node hok
  | add_edge _ hok ih => exact ih.preserve_add_edge hok
  | remove_edge _ hok ih => exact ih.preserve_remove_edge hok
  | remove_node _ hok ih => exact ih.preserve_remove_node hok
  | toggle_closed _ hok ih => exact ih.preserve_toggle_closed hok
  | toggle_accessibility _ hok ih => exact ih.preserve_toggle_accessibility hok
  | randomize f _ ih => exact ih.preserve_randomize f

/-! ### Characterization of `Graph.neighbors` -/

theorem filterMap_fst_sublist (f : String → Option (String × Edge))
    (hf : ∀ a p, f a = some p → p.1 = a) :
    ∀ l : List String, ((l.filterMap f).map Prod.fst).Sublist l := by
  intro l
  induction l with
  | nil => simp
  | cons a l ih =>
    rw [List.filterMap_cons]
    rcases hfa : f a with _ | p
    · exact ih.cons a
    · rw [List.map_cons, hf a p hfa]
      exact ih.cons₂ a

/-- The filtered, pre-sort list built by the loop inside `Graph.neighbors`. -/
def neighborsRaw (g : Graph) (node : String) (ao : Bool) : List (String × Edge) :=
  (g.adjListOf node).filterMap (fun nbr =>
    match g.get_edge node nbr with
    | none => none
    | some e =>
      if e.closed then none
      else if ao && !e.accessible then none
      else some (nbr, e))

theorem neighbors_eq_sort_raw (g : Graph) (node : String) (ao : Bool) :
    g.neighbors node ao = insSort (fun a b => strLe a.1 b.1) (neighborsRaw g node ao) := rfl

theorem neighborsRaw_fst (g : Graph) (node : String) (ao : Bool) :
    ∀ a p, (match g.get_edge node a with
      | none => none
      | some e =>
        if e.closed then none
        else if ao && !e.accessible then none
        else some (a, e) : Option (String × Edge)) = some p → p.1 = a := by
  intro a p hp
  rcases hge : g.get_edge node a with _ | e <;> simp only [hge] at hp
  · cases hp
  · by_cases h1 : e.closed = true
    · rw [if_pos h1] at hp
      cases hp
    · rw [if_neg h1] at hp
      by_cases h2 : (ao && !e.accessible) = true
      · rw [if_pos h2] at hp
        cases hp
      · rw [if_neg h2] at hp
        cases hp
        rfl

theorem mem_neighborsRaw_iff {g : Graph} (hwf : WF g) (n : String) (ao : Bool)
    (nbr : String) (e : Edge) :
    (nbr, e) ∈ neighborsRaw g n ao ↔
      (g.get_edge n nbr = some e ∧ e.closed = false ∧ (ao = true → e.accessible = true)) := by
  rw [neighborsRaw, List.mem_filterMap]
  constructor
  · rintro ⟨a, ha, hfa⟩
    rcases hge : g.get_edge n a with _ | e0 <;> simp only [hge] at hfa
    · cases hfa
    · by_cases h1 : e0.closed = true
      · rw [if_pos h1] at hfa
        cases hfa
      · rw [if_neg h1] at hfa
        by_cases h2 : (ao && !e0.accessible) = true
        · rw [if_pos h2] at hfa
          cases hfa
        · rw [if_neg h2] at hfa
          have hpair := Option.some.inj hfa
          rw [Prod.mk.injEq] at hpair
          obtain ⟨rfl, rfl⟩ := hpair
          refine ⟨hge, by simpa using h1, ?_⟩
          intro hao
          by_cases hb : e0.accessible = true
          · exact hb
          · exfalso
            have hb2 : e0.accessible = false := by simpa using hb
            exact h2 (by rw [hao, hb2]; rfl)
  · rintro ⟨hge, hcl, hacc⟩
    have hne : n ≠ nbr := by
      intro hEq
      rw [← hEq, hwf.get_edge_diag n] at hge
      cases hge
    have hsome : (alookup (Sym2.mk (n, nbr)) g.edges).isSome = true := by
      have hx : alookup (Sym2.mk (n, nbr)) g.edges = some e := hge
      rw [hx]
      rfl
    have hhas : adjHas g n nbr := (hwf.adjIffEdge n nbr).mpr ⟨hsome, hne⟩
    refine ⟨nbr, hhas, ?_⟩
    simp only [hge, hcl, if_false, Bool.false_eq_true]
    by_cases hao : ao = true
    · rw [hao, hacc hao]
      rfl
    · have hao2 : ao = false := by simpa using hao
      rw [hao2]
      rfl

/-- Membership characterization of `Graph.neighbors` on well-formed graphs:
exactly the adjacent (neighbor, edge) pairs whose edge survives the filter. -/
theorem mem_neighbors_iff {g : Graph} (hwf : WF g) (n : String) (ao : Bool)
    (nbr : String) (e : Edge) :
    (nbr, e) ∈ g.neighbors n ao ↔
      (g.get_edge n nbr = some e ∧ e.closed = false ∧ (ao = true → e.accessible = true)) := by
  rw [neighbors_eq_sort_raw,
    (insSort_perm (fun a b => strLe a.1 b.1) (neighborsRaw g n ao)).mem_iff]
  exact mem_neighborsRaw_iff hwf n ao nbr e

theorem adjListOf_nodup {g : Graph} (hwf : WF g) (n : String) : (g.adjListOf n).Nodup := by
  rw [Graph.adjListOf]
  rcases ha : alookup n g.adj with _ | l
  · exact List.nodup_nil
  · exact hwf.adjNodup _ (alookup_mem ha)

theorem neighbors_names_nodup {g : Graph} (hwf : WF g) (n : String) (ao : Bool) :
    ((g.neighbors n ao).map Prod.fst).Nodup := by
  have hperm : List.Perm ((g.neighbors n ao).map Prod.fst)
      ((neighborsRaw g n ao).map Prod.fst) := by
    rw [neighbors_eq_sort_raw]
    exact (insSort_perm _ _).map Prod.fst
  refine hperm.nodup_iff.mpr ?_
  exact ((filterMap_fst_sublist _ (neighborsRaw_fst g n ao) _).nodup (adjListOf_nodup hwf n))

/-- The neighbor names returned by `Graph.neighbors` are strictly increasing in
code-point lexicographic order. -/
theorem neighbors_names_sorted {g : Graph} (hwf : WF g) (n : String) (ao : Bool) :
    ((g.neighbors n ao).map Prod.fst).Pairwise (fun a b => strLt a b = true) := by
  have hle : ((g.neighbors n ao).map Prod.fst).Pairwise (fun a b => strLe a b = true) := by
    rw [neighbors_eq_sort_raw]
    rw [List.pairwise_map]
    exact insSort_pairwise _ (fun a b => strLe_total a.1 b.1)
      (fun a b c => strLe_trans) (neighborsRaw g n ao)
  have hne : ((g.neighbors n ao).map Prod.fst).Pairwise (fun a b => a ≠ b) :=
    neighbors_names_nodup hwf n ao
  exact (hle.and hne).imp (fun hab => strLt_of_le_of_ne hab.1 hab.2)

/-! ### Witness graph: a concrete state built through the Graph Store API -/

/-- The accessible A–B edge of the witness graph. -/
def wE1 : Edge := { u := "A", v := "B", distance := 5, time := 4, accessible := true }

/-- The non-accessible A–C edge of the witness graph. -/
def wE2 : Edge := { u := "A", v := "C", distance := 2, time := 3, accessible := false }

/-- Nodes A, B, C with edges A–B (accessible) and A–C (not accessible),
exactly as produced by the operation chain in `wG_reaches`. -/
def wG : Graph :=
  { nodes := [("A", ⟨0, 0, none, none⟩), ("B", ⟨1, 0, none, none⟩),
              ("C", ⟨2, 0, none, none⟩)],
    edges := [(Sym2.mk ("A", "B"), wE1), (Sym2.mk ("A", "C"), wE2)],
    adj := [("A", ["B", "C"]), ("B", ["A"]), ("C", ["A"])] }

def wG1 : Graph :=
  { nodes := [("A", ⟨0, 0, none, none⟩)], edges := [], adj := [("A", [])] }

def wG2 : Graph :=
  { nodes := [("A", ⟨0, 0, none, none⟩), ("B", ⟨1, 0, none, none⟩)],
    edges := [], adj := [("A", []), ("B", [])] }

def wG3 : Graph :=
  { nodes := [("A", ⟨0, 0, none, none⟩), ("B", ⟨1, 0, none, none⟩),
              ("C", ⟨2, 0, none, none⟩)],
    edges := [], adj := [("A", []), ("B", []), ("C", [])] }

def wG4 : Graph :=
  { nodes := [("A", ⟨0, 0, none, none⟩), ("B", ⟨1, 0, none, none⟩),
              ("C", ⟨2, 0, none, none⟩)],
    edges := [(Sym2.mk ("A", "B"), wE1)],
    adj := [("A", ["B"]), ("B", ["A"]), ("C", [])] }

/-- The witness random-draw oracle: every `randint` call returns 7. -/
def f7 : Nat → Int := fun _ => 7

theorem wG_reaches : Reaches wG := by
  have h0 : Reaches Graph.empty := Reaches.empty
  have e1 : Graph.add_node Graph.empty "A" 0 0 = .ok wG1 := by decide
  have e2 : Graph.add_node wG1 "B" 1 0 = .ok wG2 := by decide
  have e3 : Graph.add_node wG2 "C" 2 0 = .ok wG3 := by decide
  have e4 : Graph.add_edge wG3 "A" "B" 5 4 true = .ok (wE1, wG4) := by decide
  have e5 : Graph.add_edge wG4 "A" "C" 2 3 false = .ok (wE2, wG) := by decide
  exact Reaches.add_edge (Reaches.add_edge
    (Reaches.add_node (Reaches.add_node (Reaches.add_node h0 e1) e2) e3) e4) e5

/-! ### Claim C3 -/

/-- C3: for every well-formed graph, node `n` and flag `accessible_only`,
`neighbors(n, accessible_only)` returns exactly the (neighbor, edge) pairs
adjacent to `n` whose edge is not closed (and, when the filter is on, also
accessible), its neighbor names are strictly sorted in code-point
lexicographic order, and repeated calls in unchanged state return the
identical sequence. -/
theorem c3_neighbors_filtered_sorted_deterministic (g : Graph) (hwf : WF g)
    (n : String) (ao : Bool) :
    (∀ nbr e, (nbr, e) ∈ g.neighbors n ao ↔
      (g.get_edge n nbr = some e ∧ e.closed = false ∧
        (ao = true → e.accessible = true))) ∧
    ((g.neighbors n ao).map Prod.fst).Pairwise (fun a b => strLt a b = true) ∧
    g.neighbors n ao = g.neighbors n ao :=
  ⟨fun nbr e => mem_neighbors_iff hwf n ao nbr e, neighbors_names_sorted hwf n ao, rfl⟩

theorem c3_witness :
    (("B", wE1) ∈ wG.neighbors "A" true ↔
      (wG.get_edge "A" "B" = some wE1 ∧ wE1.closed = false ∧
        ((true : Bool) = true → wE1.accessible = true))) ∧
    ((wG.neighbors "A" true).map Prod.fst).Pairwise (fun a b => strLt a b = true) :=
  ⟨(c3_neighbors_filtered_sorted_deterministic wG (WF_of_reaches wG_reaches) "A" true).1 "B" wE1,
   (c3_neighbors_filtered_sorted_deterministic wG (WF_of_reaches wG_reaches) "A" true).2.1⟩

/-! ### Claim C4 -/

/-- C4: in every Graph Store state reachable through the API (`Reaches`),
for every stored edge `{u,v}`, the adjacency projection has entries in both
directions and `get_edge(u,v)` and `get_edge(v,u)` both resolve to that same
edge — the symmetry invariant is preserved by every operation. -/
theorem c4_adjacency_symmetry {g : Graph} (h : Reaches g) :
    ∀ k e, (k, e) ∈ g.edges →
      adjHas g e.u e.v ∧ adjHas g e.v e.u ∧
      g.get_edge e.u e.v = some e ∧ g.get_edge e.v e.u = some e := by
  have hwf := WF_of_reaches h
  intro k e hmem
  rcases hwf.edgeKey _ hmem with ⟨hkey, hne⟩
  simp only at hkey hne
  have hlook : g.get_edge e.u e.v = some e := by
    unfold Graph.get_edge
    rw [← hkey]
    exact alookup_of_mem_nodup hwf.edgesNodup hmem
  have hlook2 : g.get_edge e.v e.u = some e := by
    rw [get_edge_symm]
    exact hlook
  refine ⟨?_, ?_, hlook, hlook2⟩
  · refine (hwf.adjIffEdge e.u e.v).mpr ⟨?_, hne⟩
    rw [show alookup (Sym2.mk (e.u, e.v)) g.edges = some e from hlook]
    rfl
  · refine (hwf.adjIffEdge e.v e.u).mpr ⟨?_, Ne.symm hne⟩
    rw [show alookup (Sym2.mk (e.v, e.u)) g.edges = some e from hlook2]
    rfl

theorem c4_witness :
    adjHas wG wE1.u wE1.v ∧ adjHas wG wE1.v wE1.u ∧
    wG.get_edge wE1.u wE1.v = some wE1 ∧ wG.get_edge wE1.v wE1.u = some wE1 :=
  c4_adjacency_symmetry wG_reaches (Sym2.mk ("A", "B")) wE1 (by decide)

/-! ### Claim C8 -/

/-- C8: `randomize_weights` keeps the node dict, the adjacency projection and
the edge keys (with every edge's endpoints, closed/accessible flags and canvas
ids) exactly as they were, and replaces each edge's `distance` and `time` by
fresh `randint(1, 20)` draws, which therefore lie in `[1, 20]`. -/
theorem c8_randomize_frame (g : Graph) (f : Nat → Int)
    (hf : ∀ n, 1 ≤ f n ∧ f n ≤ 20) :
    (g.randomize_edge_weights f).nodes = g.nodes ∧
    (g.randomize_edge_weights f).adj = g.adj ∧
    (g.randomize_edge_weights f).edges.length = g.edges.length ∧
    ∀ i (hi : i < g.edges.length) (hi2 : i < (g.randomize_edge_weights f).edges.length),
      ((g.randomize_edge_weights f).edges.get ⟨i, hi2⟩).1 = (g.edges.get ⟨i, hi⟩).1 ∧
      ((g.randomize_edge_weights f).edges.get ⟨i, hi2⟩).2.u = (g.edges.get ⟨i, hi⟩).2.u ∧
      ((g.randomize_edge_weights f).edges.get ⟨i, hi2⟩).2.v = (g.edges.get ⟨i, hi⟩).2.v ∧
      ((g.randomize_edge_weights f).edges.get ⟨i, hi2⟩).2.closed =
        (g.edges.get ⟨i, hi⟩).2.closed ∧
      ((g.randomize_edge_weights f).edges.get ⟨i, hi2⟩).2.accessible =
        (g.edges.get ⟨i, hi⟩).2.accessible ∧
      ((g.randomize_edge_weights f).edges.get ⟨i, hi2⟩).2.line_id =
        (g.edges.get ⟨i, hi⟩).2.line_id ∧
      ((g.randomize_edge_weights f).edges.get ⟨i, hi2⟩).2.text_id =
        (g.edges.get ⟨i, hi⟩).2.text_id ∧
      1 ≤ ((g.randomize_edge_weights f).edges.get ⟨i, hi2⟩).2.distance ∧
      ((g.randomize_edge_weights f).edges.get ⟨i, hi2⟩).2.distance ≤ 20 ∧
      1 ≤ ((g.randomize_edge_weights f).edges.get ⟨i, hi2⟩).2.time ∧
      ((g.randomize_edge_weights f).edges.get ⟨i, hi2⟩).2.time ≤ 20 := by
  refine ⟨rfl, rfl, ?_, ?_⟩
  · unfold Graph.randomize_edge_weights
    simp
  · intro i hi hi2
    have hget : (g.randomize_edge_weights f).edges.get ⟨i, hi2⟩ =
        ((g.edges.get ⟨i, hi⟩).1,
         { (g.edges.get ⟨i, hi⟩).2 with distance := f (2 * i), time := f (2 * i + 1) }) := by
      unfold Graph.randomize_edge_weights
      simp only [List.get_eq_getElem, List.getElem_map, List.getElem_enum]
    rw [hget]
    exact ⟨rfl, rfl, rfl, rfl, rfl, rfl, rfl,
      (hf (2 * i)).1, (hf (2 * i)).2, (hf (2 * i + 1)).1, (hf (2 * i + 1)).2⟩

theorem c8_witness :
    (wG.randomize_edge_weights f7).nodes = wG.nodes ∧
    (wG.randomize_edge_weights f7).adj = wG.adj ∧
    (wG.randomize_edge_weights f7).edges.length = wG.edges.length ∧
    ∀ i (hi : i < wG.edges.length)
      (hi2 : i < (wG.randomize_edge_weights f7).edges.length),
      ((wG.randomize_edge_weights f7).edges.get ⟨i, hi2⟩).1 =
        (wG.edges.get ⟨i, hi⟩).1 ∧
      ((wG.randomize_edge_weights f7).edges.get ⟨i, hi2⟩).2.u =
        (wG.edges.get ⟨i, hi⟩).2.u ∧
      ((wG.randomize_edge_weights f7).edges.get ⟨i, hi2⟩).2.v =
        (wG.edges.get ⟨i, hi⟩).2.v ∧
      ((wG.randomize_edge_weights f7).edges.get ⟨i, hi2⟩).2.closed =
        (wG.edges.get ⟨i, hi⟩).2.closed ∧
      ((wG.randomize_edge_weights f7).edges.get ⟨i, hi2⟩).2.accessible =
        (wG.edges.get ⟨i, hi⟩).2.accessible ∧
      ((wG.randomize_edge_weights f7).edges.get ⟨i, hi2⟩).2.line_id =
        (wG.edges.get ⟨i, hi⟩).2.line_id ∧
      ((wG.randomize_edge_weights f7).edges.get ⟨i, hi2⟩).2.text_id =
        (wG.edges.get ⟨i, hi⟩).2.text_id ∧
      1 ≤ ((wG.randomize_edge_weights f7).edges.get ⟨i, hi2⟩).2.distance ∧
      ((wG.randomize_edge_weights f7).edges.get ⟨i, hi2⟩).2.distance ≤ 20 ∧
      1 ≤ ((wG.randomize_edge_weights f7).edges.get ⟨i, hi2⟩).2.time ∧
      ((wG.randomize_edge_weights f7).edges.get ⟨i, hi2⟩).2.time ≤ 20 :=
  c8_randomize_frame wG f7 (fun n => ⟨show (1 : Int) ≤ 7 by decide, show (7 : Int) ≤ 20 by decide⟩)

/-! ### Claim C6 -/

/-- The state the caller observes after a mutating call: the successor state
on success, the unchanged input graph when the operation raises. -/
def afterG {α : Type} (g : Graph) (r : Except GErr α) (proj : α → Graph) : Graph :=
  match r with
  | .ok a => proj a
  | .error _ => g

/-- C6: every mutating Graph Store operation raises exactly the specified
error exactly under the specified condition (with `add_edge`'s checks in
source order: self-loop, then unknown endpoint, then duplicate), raises no
other kind, and is all-or-nothing — the state the caller observes after a
raise is exactly the input state, since every operation performs all of its
checks before mutating anything. -/
theorem c6_error_conditions_all_or_nothing (g : Graph) :
    (∀ n x y, g.add_node n x y = .error GErr.DuplicateNode ↔ n ∈ g.nodeNames) ∧
    (∀ u v d t a, g.add_edge u v d t a = .error GErr.SelfLoop ↔ u = v) ∧
    (∀ u v d t a, g.add_edge u v d t a = .error GErr.UnknownNode ↔
      (u ≠ v ∧ (u ∉ g.nodeNames ∨ v ∉ g.nodeNames))) ∧
    (∀ u v d t a, g.add_edge u v d t a = .error GErr.DuplicateEdge ↔
      (u ≠ v ∧ u ∈ g.nodeNames ∧ v ∈ g.nodeNames ∧ (g.get_edge u v).isSome = true)) ∧
    (∀ u v, g.remove_edge u v = .error GErr.UnknownEdge ↔ g.get_edge u v = none) ∧
    (∀ u v, g.toggle_closed u v = .error GErr.UnknownEdge ↔ g.get_edge u v = none) ∧
    (∀ u v, g.toggle_accessibility u v = .error GErr.UnknownEdge ↔ g.get_edge u v = none) ∧
    (∀ n, g.remove_node n = .error GErr.UnknownNode ↔ n ∉ g.nodeNames) ∧
    (∀ n x y err, g.add_node n x y = .error err → err = GErr.DuplicateNode ∧
      afterG g (g.add_node n x y) id = g) ∧
    (∀ u v d t a err, g.add_edge u v d t a = .error err →
      (err = GErr.SelfLoop ∨ err = GErr.UnknownNode ∨ err = GErr.DuplicateEdge) ∧
      afterG g (g.add_edge u v d t a) Prod.snd = g) ∧
    (∀ u v err, g.remove_edge u v = .error err → err = GErr.UnknownEdge ∧
      afterG g (g.remove_edge u v) Prod.snd = g) ∧
    (∀ u v err, g.toggle_closed u v = .error err → err = GErr.UnknownEdge ∧
      afterG g (g.toggle_closed u v) Prod.snd = g) ∧
    (∀ u v err, g.toggle_accessibility u v = .error err → err = GErr.UnknownEdge ∧
      afterG g (g.toggle_accessibility u v) Prod.snd = g) ∧
    (∀ n err, g.remove_node n = .error err → err = GErr.UnknownNode ∧
      afterG g (g.remove_node n) Prod.snd = g) := by
  have hAddNode : ∀ n x y, ((alookup n g.nodes).isSome = true →
      g.add_node n x y = .error GErr.DuplicateNode) ∧
      (¬ (alookup n g.nodes).isSome = true →
      ∃ g', g.add_node n x y = .ok g') := by
    intro n x y
    constructor
    · intro hs
      unfold Graph.add_node
      rw [if_pos hs]
    · intro hs
      unfold Graph.add_node
      rw [if_neg hs]
      exact ⟨_, rfl⟩
  have hAddEdgeCases : ∀ u v d t a,
      (u = v → g.add_edge u v d t a = .error GErr.SelfLoop) ∧
      (u ≠ v → ((alookup u g.nodes).isNone || (alookup v g.nodes).isNone) = true →
        g.add_edge u v d t a = .error GErr.UnknownNode) ∧
      (u ≠ v → ¬ ((alookup u g.nodes).isNone || (alookup v g.nodes).isNone) = true →
        (alookup (Sym2.mk (u, v)) g.edges).isSome = true →
        g.add_edge u v d t a = .error GErr.DuplicateEdge) ∧
      (u ≠ v → ¬ ((alookup u g.nodes).isNone || (alookup v g.nodes).isNone) = true →
        ¬ (alookup (Sym2.mk (u, v)) g.edges).isSome = true →
        ∃ e g', g.add_edge u v d t a = .ok (e, g')) := by
    intro u v d t a
    refine ⟨?_, ?_, ?_, ?_⟩
    · intro huv
      unfold Graph.add_edge
      rw [if_pos huv]
    · intro huv hun
      unfold Graph.add_edge
      rw [if_neg huv, if_pos hun]
    · intro huv hun hdup
      unfold Graph.add_edge
      rw [if_neg huv, if_neg hun, if_pos hdup]
    · intro huv hun hdup
      unfold Graph.add_edge
      rw [if_neg huv, if_neg hun, if_neg hdup]
      exact ⟨_, _, rfl⟩
  have hmemIso : ∀ w, (alookup w g.nodes).isSome = true ↔ w ∈ g.nodeNames :=
    fun w => alookup_isSome_iff w g.nodes
  have hNodeGuard : ∀ u v, ((alookup u g.nodes).isNone || (alookup v g.nodes).isNone) = true ↔
      (u ∉ g.nodeNames ∨ v ∉ g.nodeNames) := by
    intro u v
    rw [Bool.or_eq_true, Option.isNone_iff_eq_none, Option.isNone_iff_eq_none,
      alookup_eq_none_iff, alookup_eq_none_iff]
    exact Iff.rfl
  refine ⟨?_, ?_, ?_, ?_, ?_, ?_, ?_, ?_, ?_, ?_, ?_, ?_, ?_, ?_⟩
  · intro n x y
    constructor
    · intro h
      by_cases hs : (alookup n g.nodes).isSome = true
      · exact (hmemIso n).mp hs
      · obtain ⟨g', hg'⟩ := (hAddNode n x y).2 hs
        rw [hg'] at h
        cases h
    · intro hm
      exact (hAddNode n x y).1 ((hmemIso n).mpr hm)
  · intro u v d t a
    constructor
    · intro h
      by_cases huv : u = v
      · exact huv
      · exfalso
        by_cases hun : ((alookup u g.nodes).isNone || (alookup v g.nodes).isNone) = true
        · rw [(hAddEdgeCases u v d t a).2.1 huv hun] at h
          simp at h
        · by_cases hdup : (alookup (Sym2.mk (u, v)) g.edges).isSome = true
          · rw [(hAddEdgeCases u v d t a).2.2.1 huv hun hdup] at h
            simp at h
          · obtain ⟨e, g', hg'⟩ := (hAddEdgeCases u v d t a).2.2.2 huv hun hdup
            rw [hg'] at h
            cases h
    · intro huv
      exact (hAddEdgeCases u v d t a).1 huv
  · intro u v d t a
    constructor
    · intro h
      by_cases huv : u = v
      · rw [(hAddEdgeCases u v d t a).1 huv] at h
        simp at h
      · refine ⟨huv, (hNodeGuard u v).mp ?_⟩
        by_cases hun : ((alookup u g.nodes).isNone || (alookup v g.nodes).isNone) = true
        · exact hun
        · exfalso
          by_cases hdup : (alookup (Sym2.mk (u, v)) g.edges).isSome = true
          · rw [(hAddEdgeCases u v d t a).2.2.1 huv hun hdup] at h
            simp at h
          · obtain ⟨e, g', hg'⟩ := (hAddEdgeCases u v d t a).2.2.2 huv hun hdup
            rw [hg'] at h
            cases h
    · intro ⟨huv, hmiss⟩
      exact (hAddEdgeCases u v d t a).2.1 huv ((hNodeGuard u v).mpr hmiss)
  · intro u v d t a
    constructor
    · intro h
      by_cases huv : u = v
      · rw [(hAddEdgeCases u v d t a).1 huv] at h
        simp at h
      · by_cases hun : ((alookup u g.nodes).isNone || (alookup v g.nodes).isNone) = true
        · rw [(hAddEdgeCases u v d t a).2.1 huv hun] at h
          simp at h
        · by_cases hdup : (alookup (Sym2.mk (u, v)) g.edges).isSome = true
          · have hboth := (hNodeGuard u v).not.mp hun
            push_neg at hboth
            exact ⟨huv, hboth.1, hboth.2, hdup⟩
          · obtain ⟨e, g', hg'⟩ := (hAddEdgeCases u v d t a).2.2.2 huv hun hdup
            rw [hg'] at h
            cases h
    · intro ⟨huv, hu, hv, hdup⟩
      refine (hAddEdgeCases u v d t a).2.2.1 huv ?_ hdup
      rw [hNodeGuard u v]
      push_neg
      exact ⟨hu, hv⟩
  · intro u v
    unfold Graph.remove_edge
    rcases hge : alookup (Sym2.mk (u, v)) g.edges with _ | e
    · exact iff_of_true rfl hge
    · refine iff_of_false (by intro h; cases h) ?_
      intro h
      unfold Graph.get_edge at h
      rw [h] at hge
      cases hge
  · intro u v
    unfold Graph.toggle_closed
    rcases hge : g.get_edge u v with _ | e
    · exact iff_of_true rfl rfl
    · exact iff_of_false (by intro h; cases h) (by intro h; cases h)
  · intro u v
    unfold Graph.toggle_accessibility
    rcases hge : g.get_edge u v with _ | e
    · exact iff_of_true rfl rfl
    · exact iff_of_false (by intro h; cases h) (by intro h; cases h)
  · intro n
    unfold Graph.remove_node
    by_cases hn : (alookup n g.nodes).isNone = true
    · rw [if_pos hn]
      exact iff_of_true rfl ((alookup_eq_none_iff n g.nodes).mp (Option.isNone_iff_eq_none.mp hn))
    · rw [if_neg hn]
      refine iff_of_false (by intro h; cases h) ?_
      intro hm
      exact hn (Option.isNone_iff_eq_none.mpr ((alookup_eq_none_iff n g.nodes).mpr hm))
  · intro n x y err h
    by_cases hs : (alookup n g.nodes).isSome = true
    · have := (hAddNode n x y).1 hs
      rw [this] at h ⊢
      cases h
      exact ⟨rfl, rfl⟩
    · obtain ⟨g', hg'⟩ := (hAddNode n x y).2 hs
      rw [hg'] at h
      cases h
  · intro u v d t a err h
    by_cases huv : u = v
    · rw [(hAddEdgeCases u v d t a).1 huv] at h ⊢
      cases h
      exact ⟨Or.inl rfl, rfl⟩
    · by_cases hun : ((alookup u g.nodes).isNone || (alookup v g.nodes).isNone) = true
      · rw [(hAddEdgeCases u v d t a).2.1 huv hun] at h ⊢
        cases h
        exact ⟨Or.inr (Or.inl rfl), rfl⟩
      · by_cases hdup : (alookup (Sym2.mk (u, v)) g.edges).isSome = true
        · rw [(hAddEdgeCases u v d t a).2.2.1 huv hun hdup] at h ⊢
          cases h
          exact ⟨Or.inr (Or.inr rfl), rfl⟩
        · obtain ⟨e, g', hg'⟩ := (hAddEdgeCases u v d t a).2.2.2 huv hun hdup
          rw [hg'] at h
          cases h
  · intro u v err h
    unfold Graph.remove_edge at h ⊢
    rcases hge : alookup (Sym2.mk (u, v)) g.edges with _ | e
    · rw [hge] at h
      cases h
      exact ⟨rfl, rfl⟩
    · rw [hge] at h
      cases h
  · intro u v err h
    unfold Graph.toggle_closed at h ⊢
    rcases hge : g.get_edge u v with _ | e
    · rw [hge] at h
      cases h
      exact ⟨rfl, rfl⟩
    · rw [hge] at h
      cases h
  · intro u v err h
    unfold Graph.toggle_accessibility at h ⊢
    rcases hge : g.get_edge u v with _ | e
    · rw [hge] at h
      cases h
      exact ⟨rfl, rfl⟩
    · rw [hge] at h
      cases h
  · intro n err h
    unfold Graph.remove_node at h ⊢
    by_cases hn : (alookup n g.nodes).isNone = true
    · rw [if_pos hn] at h
      cases h
      refine ⟨rfl, ?_⟩
      unfold afterG
      rw [if_pos hn]
    · rw [if_neg hn] at h
      cases h

/-! ### Claim C5 -/

/-- C5: for every well-formed graph and every node present in it,
`remove_node(name)` succeeds, returns exactly the edges incident to `name`
in adjacency-iteration order, removes exactly those edges and no others,
removes the node itself, and leaves no adjacency entry anywhere in the graph
referencing the removed node. -/
theorem c5_remove_node_exact (g : Graph) (name : String) (hwf : WF g)
    (hmem : name ∈ g.nodeNames) :
    ∃ es g', g.remove_node name = .ok (es, g') ∧
      List.Forall₂ (fun nbr e => g.get_edge name nbr = some e) (g.adjListOf name) es ∧
      (∀ k e, alookup k g'.edges = some e ↔ (alookup k g.edges = some e ∧ name ∉ k)) ∧
      (∀ m, alookup m g'.nodes = if m = name then none else alookup m g.nodes) ∧
      (∀ x l, alookup x g'.adj = some l → x ≠ name ∧ name ∉ l) := by
  obtain ⟨es, g', h1, _, h3, h4, h5, h6⟩ := remove_node_master hwf hmem
  exact ⟨es, g', h1, h3, h4, h5, h6⟩

theorem c5_witness :
    ∃ es g', wG.remove_node "B" = .ok (es, g') ∧
      List.Forall₂ (fun nbr e => wG.get_edge "B" nbr = some e) (wG.adjListOf "B") es ∧
      (∀ k e, alookup k g'.edges = some e ↔ (alookup k wG.edges = some e ∧ "B" ∉ k)) ∧
      (∀ m, alookup m g'.nodes = if m = "B" then none else alookup m wG.nodes) ∧
      (∀ x l, alookup x g'.adj = some l → x ≠ "B" ∧ "B" ∉ l) :=
  c5_remove_node_exact wG "B" (WF_of_reaches wG_reaches) (by decide)

/-! ### Reachability over the filtered adjacency (hop-count semantics) -/

/-- `ReachN g ao start n v`: `v` is reachable from `start` in exactly `n` hops
over edges surviving the closure/accessibility filter (as exposed by
`Graph.neighbors`). -/
inductive ReachN (g : Graph) (ao : Bool) (start : String) : Nat → String → Prop where
  | refl : ReachN g ao start 0 start
  | step {n : Nat} {v w : String} : ReachN g ao start n v →
      w ∈ g.neighborNames v ao → ReachN g ao start (n + 1) w

/-- `v` has minimal filtered hop-distance `n` from `start`. -/
def isMin (g : Graph) (ao : Bool) (start : String) (v : String) (n : Nat) : Prop :=
  ReachN g ao start n v ∧ ∀ m, ReachN g ao start m v → n ≤ m

/-- A node sequence is a valid walk over the filtered adjacency. -/
def validChain (g : Graph) (ao : Bool) : List String → Bool
  | [] => true
  | [_] => true
  | u :: v :: rest =>
    decide (v ∈ g.neighborNames u ao) && validChain g ao (v :: rest)

theorem isMin_unique {g : Graph} {ao : Bool} {start v : String} {a b : Nat}
    (ha : isMin g ao start v a) (hb : isMin g ao start v b) : a = b :=
  Nat.le_antisymm (ha.2 b hb.1) (hb.2 a ha.1)

theorem isMin_start (g : Graph) (ao : Bool) (start : String) :
    isMin g ao start start 0 :=
  ⟨ReachN.refl, fun m _ => Nat.zero_le m⟩

theorem reachN_zero {g : Graph} {ao : Bool} {start v : String}
    (h : ReachN g ao start 0 v) : v = start := by
  cases h
  rfl

theorem exists_isMin {g : Graph} {ao : Bool} {start : String} {k : Nat} {y : String}
    (h : ReachN g ao start k y) : ∃ m, isMin g ao start y m := by
  induction k using Nat.strong_induction_on generalizing y with
  | _ k ih =>
    by_cases hc : ∃ j, j < k ∧ ReachN g ao start j y
    · obtain ⟨j, hj, hr⟩ := hc
      exact ih j hj hr
    · push_neg at hc
      exact ⟨k, h, fun m hm => Nat.not_lt.mp (fun hlt => hc m hlt hm)⟩

/-- Prepending a filtered edge at the front of a reachability derivation. -/
theorem reachN_cons {g : Graph} {ao : Bool} {u v w : String} {n : Nat}
    (huv : v ∈ g.neighborNames u ao) (h : ReachN g ao v n w) :
    ReachN g ao u (n + 1) w := by
  induction h with
  | refl => exact ReachN.step ReachN.refl huv
  | step _ hmem ih => exact ReachN.step ih hmem

/-- Every node y at minimal distance m+1 has a predecessor at minimal
distance m with a surviving edge to y. -/
theorem isMin_pred {g : Graph} {ao : Bool} {start y : String} {m : Nat}
    (h : isMin g ao start y (m + 1)) :
    ∃ z, isMin g ao start z m ∧ y ∈ g.neighborNames z ao := by
  rcases h with ⟨hr, hmin⟩
  cases hr with
  | step hz hmem =>
    rename_i z
    obtain ⟨mz, hmz⟩ := exists_isMin hz
    have hle : m + 1 ≤ mz + 1 := hmin (mz + 1) (ReachN.step hmz.1 hmem)
    have hge2 : mz ≤ m := hmz.2 m hz
    have hEq : mz = m := by omega
    exact ⟨z, hEq ▸ hmz, hmem⟩

/-- Under well-formedness, filtered neighbors are nodes of the graph. -/
theorem neighborNames_sub {g : Graph} (hwf : WF g) {u y : String} {ao : Bool}
    (h : y ∈ g.neighborNames u ao) : y ∈ g.nodeNames := by
  rw [Graph.neighborNames] at h
  rcases List.mem_map.mp h with ⟨p, hp, hpe⟩
  rcases p with ⟨nbr, e⟩
  cases hpe
  show nbr ∈ g.nodeNames
  rcases (mem_neighbors_iff hwf u ao nbr e).mp hp with ⟨hge, _, _⟩
  have hmem := alookup_mem hge
  rcases hwf.edgeKey _ hmem with ⟨hkey, _⟩
  rcases hwf.edgeEnds _ hmem with ⟨hu, hv⟩
  simp only at hkey hu hv
  rcases sym2_eq_cases hkey.symm with ⟨_, h2⟩ | ⟨h1, _⟩
  · rw [h2] at hv
    exact hv
  · rw [h1] at hu
    exact hu

/-- A valid chain stays valid when extended by one surviving edge at its end. -/
theorem validChain_snoc {g : Graph} {ao : Bool} :
    ∀ {c : List String} {p x : String}, validChain g ao c = true →
      c.getLast? = some p → x ∈ g.neighborNames p ao →
      validChain g ao (c ++ [x]) = true := by
  intro c
  induction c with
  | nil => intro p x _ hl _; cases hl
  | cons a c ih =>
    intro p x hv hl hx
    cases c with
    | nil =>
      simp only [List.getLast?_singleton, Option.some.injEq] at hl
      subst hl
      simp [validChain, hx]
    | cons b c =>
      rw [show validChain g ao (a :: b :: c) =
        (decide (b ∈ g.neighborNames a ao) && validChain g ao (b :: c)) from rfl,
        Bool.and_eq_true] at hv
      have hl' : (b :: c).getLast? = some p := by
        rwa [List.getLast?_cons_cons] at hl
      have hrest := ih hv.2 hl' hx
      rw [show (a :: b :: c) ++ [x] = a :: b :: (c ++ [x]) from rfl]
      rw [show validChain g ao (a :: b :: (c ++ [x])) =
        (decide (b ∈ g.neighborNames a ao) && validChain g ao (b :: (c ++ [x]))) from rfl]
      rw [Bool.and_eq_true]
      exact ⟨hv.1, hrest⟩

/-- A valid chain from `u` to `v` of `n+1` nodes yields an `n`-hop
reachability derivation. -/
theorem reachN_of_chain {g : Graph} {ao : Bool} :
    ∀ (c : List String) (u v : String), validChain g ao (u :: c) = true →
      (u :: c).getLast? = some v → ReachN g ao u c.length v := by
  intro c
  induction c with
  | nil =>
    intro u v _ hl
    simp only [List.getLast?_singleton, Option.some.injEq] at hl
    subst hl
    exact ReachN.refl
  | cons b c ih =>
    intro u v hv hl
    rw [show validChain g ao (u :: b :: c) =
      (decide (b ∈ g.neighborNames u ao) && validChain g ao (b :: c)) from rfl,
      Bool.and_eq_true, decide_eq_true_iff] at hv
    have hl' : (b :: c).getLast? = some v := by
      rwa [List.getLast?_cons_cons] at hl
    exact reachN_cons hv.1 (ih b v hv.2 hl')

/-! ### Parent maps and shortest-path chains -/

/-- The keys of a parent map. -/
def parKeys (par : List (String × Option String)) : List String := par.map Prod.fst

/-- `MinChain g ao start par x n`: the parent map `par` carries a chain of
parent links from `x` back to `start` whose every node sits at its exact
minimal distance, `x` itself at distance `n`. -/
inductive MinChain (g : Graph) (ao : Bool) (start : String)
    (par : List (String × Option String)) : String → Nat → Prop where
  | base : alookup start par = some none → MinChain g ao start par start 0
  | step {p x : String} {n : Nat} : MinChain g ao start par p n →
      alookup x par = some (some p) → x ∈ g.neighborNames p ao →
      isMin g ao start x (n + 1) → MinChain g ao start par x (n + 1)

theorem minChain_mem_parKeys {g : Graph} {ao : Bool} {start : String}
    {par : List (String × Option String)} {x : String} {n : Nat}
    (h : MinChain g ao start par x n) : x ∈ parKeys par := by
  cases h with
  | base hl =>
    rw [parKeys, ← alookup_isSome_iff, hl]
    rfl
  | step _ hl _ _ =>
    rw [parKeys, ← alookup_isSome_iff, hl]
    rfl

/-- Extending the parent map at a fresh key preserves every minimal chain. -/
theorem minChain_mono {g : Graph} {ao : Bool} {start : String}
    {par : List (String × Option String)} {x : String} {n : Nat} {k : String}
    {v : Option String} (h : MinChain g ao start par x n)
    (hk : alookup k par = none) :
    MinChain g ao start (dictSet k v par) x n := by
  induction h with
  | base hl =>
    refine MinChain.base ?_
    have hne : start ≠ k := by
      intro hEq
      rw [hEq, hk] at hl
      cases hl
    rw [alookup_dictSet_ne hne, hl]
  | step _ hl hmem hm ih =>
    rename_i p x n _
    refine MinChain.step ih ?_ hmem hm
    have hne : x ≠ k := by
      intro hEq
      rw [hEq, hk] at hl
      cases hl
    rw [alookup_dictSet_ne hne, hl]

theorem minChain_isMin {g : Graph} {ao : Bool} {start : String}
    {par : List (String × Option String)} {x : String} {n : Nat}
    (h : MinChain g ao start par x n) : isMin g ao start x n := by
  cases h with
  | base _ => exact isMin_start g ao start
  | step _ _ _ hm => exact hm

/-- The nodes along a minimal chain: `n+1` distinct parent-map keys, each at
minimal distance at most `n`. -/
theorem minChain_nodes {g : Graph} {ao : Bool} {start : String}
    {par : List (String × Option String)} :
    ∀ {x : String} {n : Nat}, MinChain g ao start par x n →
    ∃ c : List String, c.length = n + 1 ∧ c.Nodup ∧
      (∀ y ∈ c, y ∈ parKeys par) ∧ (∀ y ∈ c, ∃ m, m ≤ n ∧ isMin g ao start y m) := by
  intro x n h
  induction h with
  | base hl =>
    refine ⟨[start], rfl, List.nodup_singleton start, ?_, ?_⟩
    · intro y hy
      rw [List.mem_singleton] at hy
      rw [hy, parKeys, ← alookup_isSome_iff, hl]
      rfl
    · intro y hy
      rw [List.mem_singleton] at hy
      rw [hy]
      exact ⟨0, Nat.zero_le 0, isMin_start _ _ _⟩
  | step hch hl hmem hm ih =>
    rename_i p x n
    obtain ⟨c, hlen, hnd, hkeys, hlev⟩ := ih
    have hxc : x ∉ c := by
      intro hx
      obtain ⟨m, hmn, hmm⟩ := hlev x hx
      have := isMin_unique hm hmm
      omega
    refine ⟨c ++ [x], by simp [hlen], nodup_append_single hnd hxc, ?_, ?_⟩
    · intro y hy
      rcases List.mem_append.mp hy with hy' | hy'
      · exact hkeys y hy'
      · rw [List.mem_singleton] at hy'
        subst hy'
        rw [parKeys, ← alookup_isSome_iff, hl]
        rfl
    · intro y hy
      rcases List.mem_append.mp hy with hy' | hy'
      · obtain ⟨m, hmn, hmm⟩ := hlev y hy'
        exact ⟨m, by omega, hmm⟩
      · rw [List.mem_singleton] at hy'
        subst hy'
        exact ⟨n + 1, le_refl _, hm⟩

theorem minChain_le_length {g : Graph} {ao : Bool} {start : String}
    {par : List (String × Option String)} {x : String} {n : Nat}
    (h : MinChain g ao start par x n) : n + 1 ≤ par.length := by
  obtain ⟨c, hlen, hnd, hkeys, _⟩ := minChain_nodes h
  have hsub : c ⊆ parKeys par := fun y hy => hkeys y hy
  have := (hnd.subperm hsub).length_le
  rw [hlen, parKeys, List.length_map] at this
  exact this

/-- `buildPath` reconstructs, from a minimal chain, a valid shortest walk from
`start` to `x` of exactly `n+1` nodes. -/
theorem buildPath_of_minChain {g : Graph} {ao : Bool} {start : String}
    {par : List (String × Option String)} :
    ∀ {x : String} {n : Nat}, MinChain g ao start par x n →
    ∀ fuel, n + 1 ≤ fuel →
    validChain g ao (buildPath par fuel x) = true ∧
    (buildPath par fuel x).head? = some start ∧
    (buildPath par fuel x).getLast? = some x ∧
    (buildPath par fuel x).length = n + 1 := by
  intro x n h
  induction h with
  | base hl =>
    intro fuel hfuel
    rcases fuel with _ | f
    · omega
    · rw [buildPath, hl]
      exact ⟨rfl, rfl, rfl, rfl⟩
  | step hch hl hmem hm ih =>
    rename_i p x n
    intro fuel hfuel
    rcases fuel with _ | f
    · omega
    · rw [buildPath, hl]
      obtain ⟨hv, hh, hlast, hlen⟩ := ih f (by omega)
      have hne : buildPath par f p ≠ [] := by
        intro hEq
        rw [hEq] at hlen
        simp at hlen
      refine ⟨validChain_snoc hv hlast hmem, ?_, ?_, ?_⟩
      · rw [List.head?_append_of_ne_nil _ hne]
        exact hh
      · rw [List.getLast?_concat]
      · rw [List.length_append, hlen]
        rfl

/-! ### The BFS loop invariant -/

/-- The invariant of the `while q` loop of `Graph.bfs`: the queue holds the
current frontier (distance `d`) followed by the next frontier (distance
`d+1`), all nodes with distance up to `d` are visited, dequeued nodes are
fully expanded, and the parent map carries an exact shortest-distance chain
for every visited node. -/
structure BfsInv (g : Graph) (ao : Bool) (start goal : String) (d : Nat)
    (q vis : List String) (par : List (String × Option String))
    (ord : List String) : Prop where
  startVis : start ∈ vis
  visSub : ∀ x ∈ vis, x ∈ g.nodeNames
  visNodup : vis.Nodup
  qSub : ∀ x ∈ q, x ∈ vis
  split : ∃ qa qb, q = qa ++ qb ∧ (∀ x ∈ qa, isMin g ao start x d) ∧
      (∀ x ∈ qb, isMin g ao start x (d + 1))
  ordVis : ∀ x, x ∈ vis ↔ (x ∈ ord ∨ x ∈ q)
  goalOrd : goal ∉ ord
  expanded : ∀ x ∈ ord, ∀ y ∈ g.neighborNames x ao, y ∈ vis
  complete : ∀ y m, isMin g ao start y m → m ≤ d → y ∈ vis
  nextLayer : ∀ y, isMin g ao start y (d + 1) → y ∈ vis ∨
      ∃ x, x ∈ q ∧ isMin g ao start x d ∧ y ∈ g.neighborNames x ao
  parKeysVis : ∀ x, x ∈ parKeys par ↔ x ∈ vis
  parChains : ∀ x ∈ vis, ∃ n, MinChain g ao start par x n

theorem bfsInv_init (g : Graph) (ao : Bool) (start goal : String)
    (hstart : start ∈ g.nodeNames) :
    BfsInv g ao start goal 0 [start] [start] [(start, none)] [] := by
  refine ⟨?_, ?_, ?_, ?_, ?_, ?_, ?_, ?_, ?_, ?_, ?_, ?_⟩
  · exact List.mem_singleton.mpr rfl
  · intro x hx
    rw [List.mem_singleton] at hx
    rw [hx]
    exact hstart
  · exact List.nodup_singleton start
  · exact fun x hx => hx
  · refine ⟨[start], [], by simp, ?_, ?_⟩
    · intro x hx
      rw [List.mem_singleton] at hx
      rw [hx]
      exact isMin_start _ _ _
    · intro x hx
      cases hx
  · intro x
    simp
  · intro h
    cases h
  · intro x hx
    cases hx
  · intro y m hm hle
    have hm0 : m = 0 := Nat.le_zero.mp hle
    rw [hm0] at hm
    rw [List.mem_singleton, reachN_zero hm.1]
  · intro y hy
    obtain ⟨z, hz, hmem⟩ := isMin_pred hy
    have hzs : z = start := reachN_zero hz.1
    right
    refine ⟨start, List.mem_singleton.mpr rfl, isMin_start _ _ _, ?_⟩
    rw [← hzs]
    exact hmem
  · intro x
    show x ∈ [start] ↔ x ∈ [start]
    exact Iff.rfl
  · intro x hx
    rw [List.mem_singleton] at hx
    rw [hx]
    exact ⟨0, MinChain.base (by simp [alookup])⟩

/-- When the whole queue already sits in the next frontier, the invariant
re-indexes to depth `d + 1`. -/
theorem bfsInv_shift {g : Graph} {ao : Bool} {start goal : String} {d : Nat}
    {q vis : List String} {par : List (String × Option String)} {ord : List String}
    (h : BfsInv g ao start goal d q vis par ord)
    (hq : ∀ x ∈ q, isMin g ao start x (d + 1)) :
    BfsInv g ao start goal (d + 1) q vis par ord := by
  have hcomp : ∀ y m, isMin g ao start y m → m ≤ d + 1 → y ∈ vis := by
    intro y m hm hle
    rcases Nat.lt_or_ge m (d + 1) with hlt | hge
    · exact h.complete y m hm (by omega)
    · have hm1 : m = d + 1 := by omega
      rw [hm1] at hm
      rcases h.nextLayer y hm with hv | ⟨x, hxq, hxd, _⟩
      · exact hv
      · exact absurd (isMin_unique hxd (hq x hxq)) (by omega)
  refine ⟨h.startVis, h.visSub, h.visNodup, h.qSub, ⟨q, [], by simp, hq,
    by intro x hx; cases hx⟩, h.ordVis, h.goalOrd, h.expanded, hcomp, ?_,
    h.parKeysVis, h.parChains⟩
  intro y hy
  obtain ⟨z, hz, hmem⟩ := isMin_pred hy
  have hzvis : z ∈ vis := hcomp z (d + 1) hz (le_refl _)
  rcases (h.ordVis z).mp hzvis with hzord | hzq
  · exact Or.inl (h.expanded z hzord y hmem)
  · exact Or.inr ⟨z, hzq, hz, hmem⟩

/-- The invariant of the inner neighbor-expansion loop: `ord ++ [cur]` is the
new visitation order, `ns` the still-unprocessed neighbors of `cur`. -/
structure ExpInv (g : Graph) (ao : Bool) (start goal : String) (d : Nat) (cur : String)
    (ord : List String) (ns q vis : List String)
    (par : List (String × Option String)) : Prop where
  startVis : start ∈ vis
  visSub : ∀ x ∈ vis, x ∈ g.nodeNames
  visNodup : vis.Nodup
  qSub : ∀ x ∈ q, x ∈ vis
  split : ∃ qa qb, q = qa ++ qb ∧ (∀ x ∈ qa, isMin g ao start x d) ∧
      (∀ x ∈ qb, isMin g ao start x (d + 1))
  ordVis : ∀ x, x ∈ vis ↔ (x ∈ ord ++ [cur] ∨ x ∈ q)
  goalOrd : goal ∉ ord ++ [cur]
  expandedOld : ∀ x ∈ ord, ∀ y ∈ g.neighborNames x ao, y ∈ vis
  expandedCur : ∀ y ∈ g.neighborNames cur ao, y ∈ vis ∨ y ∈ ns
  complete : ∀ y m, isMin g ao start y m → m ≤ d → y ∈ vis
  nextLayer : ∀ y, isMin g ao start y (d + 1) → y ∈ vis ∨ y ∈ ns ∨
      ∃ x, x ∈ q ∧ isMin g ao start x d ∧ y ∈ g.neighborNames x ao
  parKeysVis : ∀ x, x ∈ parKeys par ↔ x ∈ vis
  parChains : ∀ x ∈ vis, ∃ n, MinChain g ao start par x n
  nsSub : ∀ y ∈ ns, y ∈ g.neighborNames cur ao
  curMin : isMin g ao start cur d

/-- Running the expansion loop to completion preserves the invariant and
appends the freshly discovered nodes to both the queue and the visited set. -/
theorem bfsExpand_inv {g : Graph} (hwf : WF g) {ao : Bool} {start goal : String}
    {d : Nat} {cur : String} {ord : List String} :
    ∀ (ns q vis : List String) (par : List (String × Option String))
      (disc : List String), ExpInv g ao start goal d cur ord ns q vis par →
    ∃ fresh,
      (bfsExpand cur ns q vis par disc).1 = q ++ fresh ∧
      (bfsExpand cur ns q vis par disc).2.1 = vis ++ fresh ∧
      ExpInv g ao start goal d cur ord [] (q ++ fresh) (vis ++ fresh)
        (bfsExpand cur ns q vis par disc).2.2.1 := by
  intro ns
  induction ns with
  | nil =>
    intro q vis par disc hE
    refine ⟨[], by rw [bfsExpand, List.append_nil], by rw [bfsExpand, List.append_nil], ?_⟩
    rw [List.append_nil, List.append_nil]
    exact hE
  | cons n rest ih =>
    intro q vis par disc hE
    by_cases hn : n ∈ vis
    · rw [show bfsExpand cur (n :: rest) q vis par disc =
        bfsExpand cur rest q vis par disc from by rw [bfsExpand, if_pos hn]]
      refine ih q vis par disc ?_
      refine ⟨hE.startVis, hE.visSub, hE.visNodup, hE.qSub, hE.split, hE.ordVis,
        hE.goalOrd, hE.expandedOld, ?_, hE.complete, ?_, hE.parKeysVis, hE.parChains,
        fun y hy => hE.nsSub y (List.mem_cons_of_mem _ hy), hE.curMin⟩
      · intro y hy
        rcases hE.expandedCur y hy with hv | hns
        · exact Or.inl hv
        · rcases List.mem_cons.mp hns with rfl | hns'
          · exact Or.inl hn
          · exact Or.inr hns'
      · intro y hy
        rcases hE.nextLayer y hy with hv | hns | hw
        · exact Or.inl hv
        · rcases List.mem_cons.mp hns with rfl | hns'
          · exact Or.inl hn
          · exact Or.inr (Or.inl hns')
        · exact Or.inr (Or.inr hw)
    · rw [show bfsExpand cur (n :: rest) q vis par disc =
        bfsExpand cur rest (q ++ [n]) (vis ++ [n]) (dictSet n (some cur) par)
          (disc ++ [n]) from by rw [bfsExpand, if_neg hn]]
      have hnN : n ∈ g.neighborNames cur ao := hE.nsSub n (List.mem_cons_self _ _)
      have hreach : ReachN g ao start (d + 1) n := ReachN.step hE.curMin.1 hnN
      have hminN : isMin g ao start n (d + 1) := by
        obtain ⟨m, hm⟩ := exists_isMin hreach
        have hub : m ≤ d + 1 := hm.2 (d + 1) hreach
        have hlb : ¬ m ≤ d := by
          intro hle
          exact hn (hE.complete n m hm hle)
        have : m = d + 1 := by omega
        rw [← this]
        exact hm
      have hparn : alookup n par = none := by
        rw [alookup_eq_none_iff]
        intro hk
        exact hn ((hE.parKeysVis n).mp hk)
      have hcurvis : cur ∈ vis :=
        (hE.ordVis cur).mpr (Or.inl (List.mem_append_right _ (List.mem_singleton.mpr rfl)))
      obtain ⟨mc, hmc⟩ := hE.parChains cur hcurvis
      have hmcd : mc = d := isMin_unique (minChain_isMin hmc) hE.curMin
      have hchaincur : MinChain g ao start (dictSet n (some cur) par) cur d := by
        rw [← hmcd]
        exact minChain_mono hmc hparn
      have hnewchain : MinChain g ao start (dictSet n (some cur) par) n (d + 1) :=
        MinChain.step hchaincur (alookup_dictSet_self n (some cur) par) hnN hminN
      obtain ⟨qa, qb, hsp, hqa, hqb⟩ := hE.split
      have hE' : ExpInv g ao start goal d cur ord rest (q ++ [n]) (vis ++ [n])
          (dictSet n (some cur) par) := by
        refine ⟨List.mem_append_left _ hE.startVis, ?_, nodup_append_single hE.visNodup hn,
          ?_, ⟨qa, qb ++ [n], by rw [hsp, List.append_assoc], hqa, ?_⟩, ?_, hE.goalOrd,
          ?_, ?_, ?_, ?_, ?_, ?_, fun y hy => hE.nsSub y (List.mem_cons_of_mem _ hy),
          hE.curMin⟩
        · intro x hx
          rcases List.mem_append.mp hx with hx' | hx'
          · exact hE.visSub x hx'
          · rw [List.mem_singleton] at hx'
            rw [hx']
            exact neighborNames_sub hwf hnN
        · intro x hx
          rcases List.mem_append.mp hx with hx' | hx'
          · exact List.mem_append_left _ (hE.qSub x hx')
          · exact List.mem_append_right _ hx'
        · intro x hx
          rcases List.mem_append.mp hx with hx' | hx'
          · exact hqb x hx'
          · rw [List.mem_singleton] at hx'
            rw [hx']
            exact hminN
        · intro x
          have base := hE.ordVis x
          simp only [List.mem_append, List.mem_singleton] at base ⊢
          tauto
        · intro x hx y hy
          exact List.mem_append_left _ (hE.expandedOld x hx y hy)
        · intro y hy
          rcases hE.expandedCur y hy with hv | hns
          · exact Or.inl (List.mem_append_left _ hv)
          · rcases List.mem_cons.mp hns with rfl | hns'
            · exact Or.inl (List.mem_append_right _ (List.mem_singleton.mpr rfl))
            · exact Or.inr hns'
        · intro y m hm hle
          exact List.mem_append_left _ (hE.complete y m hm hle)
        · intro y hy
          rcases hE.nextLayer y hy with hv | hns | ⟨x, hxq, hxd, hxN⟩
          · exact Or.inl (List.mem_append_left _ hv)
          · rcases List.mem_cons.mp hns with rfl | hns'
            · exact Or.inl (List.mem_append_right _ (List.mem_singleton.mpr rfl))
            · exact Or.inr (Or.inl hns')
          · exact Or.inr (Or.inr ⟨x, List.mem_append_left _ hxq, hxd, hxN⟩)
        · intro x
          rw [show parKeys (dictSet n (some cur) par) = parKeys par ++ [n] from
            dictSet_keys_absent hparn (some cur)]
          have base := hE.parKeysVis x
          simp only [List.mem_append, List.mem_singleton] at base ⊢
          tauto
        · intro x hx
          rcases List.mem_append.mp hx with hx' | hx'
          · obtain ⟨k, hk⟩ := hE.parChains x hx'
            exact ⟨k, minChain_mono hk hparn⟩
          · rw [List.mem_singleton] at hx'
            rw [hx']
            exact ⟨d + 1, hnewchain⟩
      obtain ⟨fresh, hq1, hq2, hfin⟩ := ih (q ++ [n]) (vis ++ [n])
        (dictSet n (some cur) par) (disc ++ [n]) hE'
      refine ⟨n :: fresh, ?_, ?_, ?_⟩
      · rw [hq1, List.append_assoc]
        rfl
      · rw [hq2, List.append_assoc]
        rfl
      · rw [show q ++ n :: fresh = (q ++ [n]) ++ fresh from by
          rw [List.append_assoc]; rfl,
          show vis ++ n :: fresh = (vis ++ [n]) ++ fresh from by
          rw [List.append_assoc]; rfl]
        exact hfin

/-- On completion of the expansion loop the invariant returns to `BfsInv`
with `cur` appended to the visitation order. -/
theorem expInv_to_bfsInv {g : Graph} {ao : Bool} {start goal : String} {d : Nat}
    {cur : String} {ord q vis : List String} {par : List (String × Option String)}
    (hE : ExpInv g ao start goal d cur ord [] q vis par) :
    BfsInv g ao start goal d q vis par (ord ++ [cur]) := by
  refine ⟨hE.startVis, hE.visSub, hE.visNodup, hE.qSub, hE.split, hE.ordVis,
    hE.goalOrd, ?_, hE.complete, ?_, hE.parKeysVis, hE.parChains⟩
  · intro x hx y hy
    rcases List.mem_append.mp hx with hx' | hx'
    · exact hE.expandedOld x hx' y hy
    · rw [List.mem_singleton] at hx'
      rw [hx'] at hy
      rcases hE.expandedCur y hy with hv | hns
      · exact hv
      · cases hns
  · intro y hy
    rcases hE.nextLayer y hy with hv | hns | hw
    · exact Or.inl hv
    · cases hns
    · exact Or.inr hw

/-- One dequeue-and-expand step of the BFS loop preserves the invariant. -/
theorem bfs_dequeue {g : Graph} (hwf : WF g) {ao : Bool} {start goal : String}
    {d : Nat} {cur : String} {rest vis : List String}
    {par : List (String × Option String)} {ord : List String}
    (h : BfsInv g ao start goal d (cur :: rest) vis par ord)
    (hcur : isMin g ao start cur d) (hne : cur ≠ goal) (disc : List String) :
    ∃ fresh,
      (bfsExpand cur (g.neighborNames cur ao) rest vis par disc).1 = rest ++ fresh ∧
      (bfsExpand cur (g.neighborNames cur ao) rest vis par disc).2.1 = vis ++ fresh ∧
      BfsInv g ao start goal d (rest ++ fresh) (vis ++ fresh)
        (bfsExpand cur (g.neighborNames cur ao) rest vis par disc).2.2.1
        (ord ++ [cur]) := by
  obtain ⟨qa, qb, hsp, hqa, hqb⟩ := h.split
  have hrestsplit : ∃ qa2 qb2, rest = qa2 ++ qb2 ∧
      (∀ x ∈ qa2, isMin g ao start x d) ∧ (∀ x ∈ qb2, isMin g ao start x (d + 1)) := by
    cases qa with
    | nil =>
      refine ⟨[], rest, rfl, ?_, ?_⟩
      · intro x hx
        cases hx
      · intro x hx
        refine hqb x ?_
        rw [List.nil_append] at hsp
        rw [← hsp]
        exact List.mem_cons_of_mem _ hx
    | cons a qa' =>
      rw [List.cons_append] at hsp
      have h1 : cur = a := (List.cons.injEq _ _ _ _).mp hsp |>.1
      have h2 : rest = qa' ++ qb := (List.cons.injEq _ _ _ _).mp hsp |>.2
      exact ⟨qa', qb, h2, fun x hx => hqa x (List.mem_cons_of_mem _ hx), hqb⟩
  have hE : ExpInv g ao start goal d cur ord (g.neighborNames cur ao) rest vis par := by
    refine ⟨h.startVis, h.visSub, h.visNodup,
      fun x hx => h.qSub x (List.mem_cons_of_mem _ hx), hrestsplit, ?_, ?_,
      h.expanded, fun y hy => Or.inr hy, h.complete, ?_, h.parKeysVis, h.parChains,
      fun y hy => hy, hcur⟩
    · intro x
      have base := h.ordVis x
      simp only [List.mem_append, List.mem_singleton, List.mem_cons] at base ⊢
      tauto
    · intro hgo
      rcases List.mem_append.mp hgo with hgo' | hgo'
      · exact h.goalOrd hgo'
      · rw [List.mem_singleton] at hgo'
        exact hne hgo'.symm
    · intro y hy
      rcases h.nextLayer y hy with hv | ⟨x, hxq, hxd, hxN⟩
      · exact Or.inl hv
      · rcases List.mem_cons.mp hxq with rfl | hxq'
        · exact Or.inr (Or.inl hxN)
        · exact Or.inr (Or.inr ⟨x, hxq', hxd, hxN⟩)
  obtain ⟨fresh, h1, h2, h3⟩ := bfsExpand_inv hwf (g.neighborNames cur ao) rest vis
    par disc hE
  exact ⟨fresh, h1, h2, expInv_to_bfsInv h3⟩

/-- The main lemma about the `while q` loop of `Graph.bfs`: under the
invariant and with enough fuel, either the goal is dequeued — and then the
final parent map carries an exact shortest chain to it and the visitation
order ends with it — or the queue drains, the parent map covers exactly the
reachable nodes, and the goal is unreachable. -/
theorem bfsLoop_main {g : Graph} (hwf : WF g) (ao : Bool) (start goal : String) :
    ∀ (fuel : Nat) (d : Nat) (q vis : List String)
      (par : List (String × Option String)) (ord disc : List String),
    BfsInv g ao start goal d q vis par ord →
    q.length + (g.nodeNames.length - vis.length) ≤ fuel →
    (∃ n, isMin g ao start goal n ∧
      MinChain g ao start (bfsLoop g goal ao fuel q vis par ord disc).1 goal n ∧
      ∃ ord₀, (bfsLoop g goal ao fuel q vis par ord disc).2.1 = ord₀ ++ [goal]) ∨
    ((∀ y k, ReachN g ao start k y →
        y ∈ parKeys (bfsLoop g goal ao fuel q vis par ord disc).1) ∧
      goal ∉ parKeys (bfsLoop g goal ao fuel q vis par ord disc).1 ∧
      ¬ ∃ k, ReachN g ao start k goal) := by
  intro fuel
  induction fuel with
  | zero =>
    intro d q vis par ord disc hInv hfuel
    have hq : q = [] := by
      rcases q with _ | ⟨c, rest⟩
      · rfl
      · exfalso
        simp at hfuel
    subst hq
    rw [show bfsLoop g goal ao 0 [] vis par ord disc = (par, ord, disc) from rfl]
    right
    have hvisClosed : ∀ y k, ReachN g ao start k y → y ∈ vis := by
      intro y k hr
      induction hr with
      | refl => exact hInv.startVis
      | step hr hmem ih =>
        rename_i m v w
        have hvord : v ∈ ord := by
          rcases (hInv.ordVis v).mp ih with hv | hv
          · exact hv
          · cases hv
        exact hInv.expanded v hvord w hmem
    have hgoalNotVis : goal ∉ vis := by
      intro hg
      rcases (hInv.ordVis goal).mp hg with hv | hv
      · exact hInv.goalOrd hv
      · cases hv
    refine ⟨?_, ?_, ?_⟩
    · intro y k hr
      exact (hInv.parKeysVis y).mpr (hvisClosed y k hr)
    · intro hk
      exact hgoalNotVis ((hInv.parKeysVis goal).mp hk)
    · intro ⟨k, hr⟩
      exact hgoalNotVis (hvisClosed goal k hr)
  | succ f ih =>
    intro d q vis par ord disc hInv hfuel
    rcases q with _ | ⟨cur, rest⟩
    · rw [show bfsLoop g goal ao (f + 1) [] vis par ord disc = (par, ord, disc) from rfl]
      right
      have hvisClosed : ∀ y k, ReachN g ao start k y → y ∈ vis := by
        intro y k hr
        induction hr with
        | refl => exact hInv.startVis
        | step hr hmem ih2 =>
          rename_i m v w
          have hvord : v ∈ ord := by
            rcases (hInv.ordVis v).mp ih2 with hv | hv
            · exact hv
            · cases hv
          exact hInv.expanded v hvord w hmem
      have hgoalNotVis : goal ∉ vis := by
        intro hg
        rcases (hInv.ordVis goal).mp hg with hv | hv
        · exact hInv.goalOrd hv
        · cases hv
      refine ⟨?_, ?_, ?_⟩
      · intro y k hr
        exact (hInv.parKeysVis y).mpr (hvisClosed y k hr)
      · intro hk
        exact hgoalNotVis ((hInv.parKeysVis goal).mp hk)
      · intro ⟨k, hr⟩
        exact hgoalNotVis (hvisClosed goal k hr)
    · by_cases hcg : cur = goal
      · rw [show bfsLoop g goal ao (f + 1) (cur :: rest) vis par ord disc =
          (par, ord ++ [cur], disc) from by rw [bfsLoop, if_pos hcg]]
        left
        have hgvis : goal ∈ vis := by
          rw [← hcg]
          exact hInv.qSub cur (List.mem_cons_self _ _)
        obtain ⟨n, hmc⟩ := hInv.parChains goal hgvis
        exact ⟨n, minChain_isMin hmc, hmc, ⟨ord, by rw [hcg]⟩⟩
      · obtain ⟨qa, qb, hsp, hqa, hqb⟩ := hInv.split
        have hstep : ∃ d2, BfsInv g ao start goal d2 (cur :: rest) vis par ord ∧
            isMin g ao start cur d2 := by
          cases qa with
          | nil =>
            have hq2 : ∀ x ∈ cur :: rest, isMin g ao start x (d + 1) := by
              intro x hx
              refine hqb x ?_
              rw [hsp] at hx
              exact hx
            exact ⟨d + 1, bfsInv_shift hInv hq2, hq2 cur (List.mem_cons_self _ _)⟩
          | cons a qa' =>
            rw [List.cons_append] at hsp
            have h1 : cur = a := (List.cons.injEq _ _ _ _).mp hsp |>.1
            refine ⟨d, hInv, ?_⟩
            rw [h1]
            exact hqa a (List.mem_cons_self _ _)
        obtain ⟨d2, hInv2, hcur2⟩ := hstep
        obtain ⟨fresh, h1, h2, h3⟩ := bfs_dequeue hwf hInv2 hcur2 hcg disc
        rw [show bfsLoop g goal ao (f + 1) (cur :: rest) vis par ord disc =
          bfsLoop g goal ao f
            (bfsExpand cur (g.neighborNames cur ao) rest vis par disc).1
            (bfsExpand cur (g.neighborNames cur ao) rest vis par disc).2.1
            (bfsExpand cur (g.neighborNames cur ao) rest vis par disc).2.2.1
            (ord ++ [cur])
            (bfsExpand cur (g.neighborNames cur ao) rest vis par disc).2.2.2 from by
          rw [bfsLoop, if_neg hcg]]
        rw [h1, h2]
        refine ih d2 (rest ++ fresh) (vis ++ fresh)
          (bfsExpand cur (g.neighborNames cur ao) rest vis par disc).2.2.1
          (ord ++ [cur])
          (bfsExpand cur (g.neighborNames cur ao) rest vis par disc).2.2.2 h3 ?_
        have hsub : (vis ++ fresh).length ≤ g.nodeNames.length := by
          have hnd := h3.visNodup
          have hss : vis ++ fresh ⊆ g.nodeNames := fun x hx => h3.visSub x hx
          exact (hnd.subperm hss).length_le
        rw [List.length_append] at hsub ⊢
        rw [List.length_append]
        simp only [List.length_cons] at hfuel
        omega

/-- Full characterization of `Graph.bfs` on well-formed graphs: it succeeds,
and returns either an empty path (goal unreachable over the filtered edges)
or a valid filtered walk from start to goal of exactly minimal hop length,
with the visitation order ending at the goal. -/
theorem bfs_correct (g : Graph) (hwf : WF g) (ao : Bool) (start goal : String)
    (hs : start ∈ g.nodeNames) (hg : goal ∈ g.nodeNames) :
    ∃ path ord disc, g.bfs start goal ao = .ok (path, ord, disc) ∧
      ((path = [] ∧ ¬ ∃ k, ReachN g ao start k goal) ∨
       (validChain g ao path = true ∧ path.head? = some start ∧
        path.getLast? = some goal ∧
        (∃ n, isMin g ao start goal n ∧ path.length = n + 1) ∧
        ∃ ord₀, ord = ord₀ ++ [goal])) := by
  have hsl : (alookup start g.nodes).isSome = true := (alookup_isSome_iff _ _).mpr hs
  have hgl : (alookup goal g.nodes).isSome = true := (alookup_isSome_iff _ _).mpr hg
  have hguard : ¬ ((alookup start g.nodes).isNone || (alookup goal g.nodes).isNone) = true := by
    obtain ⟨i1, h1⟩ := Option.isSome_iff_exists.mp hsl
    obtain ⟨i2, h2⟩ := Option.isSome_iff_exists.mp hgl
    rw [h1, h2]
    simp
  have hInit := bfsInv_init g ao start goal hs
  have hfuel : [start].length + (g.nodeNames.length - [start].length) ≤
      g.nodes.length + 1 := by
    rw [Graph.nodeNames, List.length_map]
    simp only [List.length_singleton]
    omega
  rcases hres : bfsLoop g goal ao (g.nodes.length + 1) [start] [start] [(start, none)]
    [] [] with ⟨par2, ord2, disc2⟩
  have hmain := bfsLoop_main hwf ao start goal (g.nodes.length + 1) 0 [start] [start]
    [(start, none)] [] [] hInit hfuel
  rw [hres] at hmain
  have hbfs : g.bfs start goal ao =
      (if (alookup goal par2).isNone then Except.ok (([] : List String), ord2, disc2)
       else Except.ok (buildPath par2 (par2.length + 1) goal, ord2, disc2)) := by
    unfold Graph.bfs
    rw [if_neg hguard, hres]
  rcases hmain with ⟨n, hmin, hmc, ord₀, hord⟩ | ⟨_, hgk, hunreach⟩
  · have hksome : (alookup goal par2).isSome = true := by
      rw [alookup_isSome_iff]
      exact minChain_mem_parKeys hmc
    have hknone : ¬ (alookup goal par2).isNone = true := by
      obtain ⟨w, hw⟩ := Option.isSome_iff_exists.mp hksome
      rw [hw]
      simp
    rw [hbfs, if_neg hknone]
    have hlen : n + 1 ≤ par2.length := by simpa using minChain_le_length hmc
    obtain ⟨hv, hh, hl, hplen⟩ := buildPath_of_minChain hmc (par2.length + 1) (by omega)
    refine ⟨buildPath par2 (par2.length + 1) goal, ord2, disc2, rfl, Or.inr
      ⟨hv, hh, hl, ⟨n, hmin, hplen⟩, ⟨ord₀, hord⟩⟩⟩
  · have hknone : (alookup goal par2).isNone = true := by
      have : alookup goal par2 = none := by
        rw [alookup_eq_none_iff]
        exact hgk
      rw [this]
      rfl
    rw [hbfs, if_pos hknone]
    exact ⟨[], ord2, disc2, rfl, Or.inl ⟨rfl, hunreach⟩⟩

/-! ### Claim C7 -/

/-- C7: the instant the goal is dequeued, the BFS loop appends it to the
visitation order and returns — the parent map, discovery order (and the
discarded visited set) receive no further writes and no neighbor of the goal
is expanded; consequently, whenever `bfs` finds a path, its reported
visitation order has the goal as final element. -/
theorem c7_bfs_stops_at_goal :
    (∀ (g : Graph) (goal : String) (ao : Bool) (fuel : Nat) (q vis : List String)
      (par : List (String × Option String)) (ord disc : List String),
      bfsLoop g goal ao (fuel + 1) (goal :: q) vis par ord disc =
        (par, ord ++ [goal], disc)) ∧
    (∀ (g : Graph), WF g → ∀ (ao : Bool) (start goal : String),
      start ∈ g.nodeNames → goal ∈ g.nodeNames →
      ∀ path ord disc, g.bfs start goal ao = .ok (path, ord, disc) → path ≠ [] →
      ord.getLast? = some goal) := by
  constructor
  · intro g goal ao fuel q vis par ord disc
    rw [bfsLoop, if_pos rfl]
  · intro g hwf ao start goal hs hg path ord disc hok hne
    obtain ⟨path2, ord2, disc2, hok2, hcase⟩ := bfs_correct g hwf ao start goal hs hg
    rw [hok] at hok2
    simp only [Except.ok.injEq, Prod.mk.injEq] at hok2
    obtain ⟨hp, ho, hd⟩ := hok2
    rcases hcase with ⟨hemp, _⟩ | ⟨_, _, _, _, ord₀, hord⟩
    · exact absurd (hp.trans hemp) hne
    · rw [ho, hord, List.getLast?_concat]

theorem c7_witness :
    bfsLoop wG "C" false 1 (["C"] : List String) ["A", "C"]
      [("A", none), ("C", some "A")] ["A"] ["C"] =
      ([("A", none), ("C", some "A")], ["A", "C"], ["C"]) ∧
    (["A", "B", "C"] : List String).getLast? = some "C" := by
  constructor
  · exact c7_bfs_stops_at_goal.1 wG "C" false 0 [] ["A", "C"]
      [("A", none), ("C", some "A")] ["A"] ["C"]
  · exact c7_bfs_stops_at_goal.2 wG (WF_of_reaches wG_reaches) false "A" "C"
      (by decide) (by decide) ["A", "C"] ["A", "B", "C"] ["B", "C"] (by decide)
      (by decide)

/-! ### Claim C10 -/

/-- C10: when start equals goal (and the node exists), both `bfs` and `dfs`
succeed without error and return path `[s]`, visitation order `[s]`, and an
empty discovery order: bfs dequeues `s` and stops before expanding any
neighbor, dfs visits `s` and sets `found` before recursing. -/
theorem c10_start_eq_goal (g : Graph) (s : String) (ao : Bool)
    (hs : s ∈ g.nodeNames) :
    g.bfs s s ao = .ok ([s], [s], []) ∧ g.dfs s s ao = .ok ([s], [s], []) := by
  have hsl : (alookup s g.nodes).isSome = true := (alookup_isSome_iff _ _).mpr hs
  obtain ⟨i1, h1⟩ := Option.isSome_iff_exists.mp hsl
  have hguard : ¬ ((alookup s g.nodes).isNone || (alookup s g.nodes).isNone) = true := by
    rw [h1]
    simp
  have hlook : alookup s [((s : String), (none : Option String))] = some none := by
    simp [alookup]
  have hbp : buildPath [((s : String), (none : Option String))] 2 s = [s] := by
    simp only [buildPath, hlook]
  constructor
  · have hloop : bfsLoop g s ao (g.nodes.length + 1) [s] [s] [(s, none)] [] [] =
        ([(s, none)], [s], []) := by
      simp [bfsLoop]
    have hbfs : g.bfs s s ao =
        (if (alookup s [((s : String), (none : Option String))]).isNone
         then Except.ok (([] : List String), [s], ([] : List String))
         else Except.ok (buildPath [((s : String), (none : Option String))] 2 s, [s],
           ([] : List String))) := by
      unfold Graph.bfs
      rw [if_neg hguard, hloop]
      rfl
    rw [hbfs, if_neg (by rw [hlook]; decide), hbp]
  · have hrun : g.dfsRun s s ao =
        { visited := [s], parent := [(s, none)], found := true, order := [s],
          discover := [], events := [DEv.visit s] } := by
      unfold Graph.dfsRun
      simp [dfsVisit]
    have hdfs : g.dfs s s ao =
        .ok (buildPath [((s : String), (none : Option String))] 2 s, [s],
          ([] : List String)) := by
      unfold Graph.dfs
      rw [if_neg hguard, hrun]
      rfl
    rw [hdfs, hbp]

theorem c10_witness :
    ("A" ∈ wG.nodeNames) ∧
    (wG.bfs "A" "A" false = .ok (["A"], ["A"], []) ∧
     wG.dfs "A" "A" false = .ok (["A"], ["A"], [])) :=
  ⟨by decide, c10_start_eq_goal wG "A" false (by decide)⟩

/-! ### DFS: parent chains and the recursion invariant -/

/-- The nodes visited, in order, according to the ghost event trace. -/
def evVisits : List DEv → List String :=
  List.filterMap (fun e => match e with | DEv.visit n => some n | DEv.disc _ => none)

theorem evVisits_append (a b : List DEv) :
    evVisits (a ++ b) = evVisits a ++ evVisits b := by
  simp [evVisits]

theorem evVisits_visit (u : String) : evVisits [DEv.visit u] = [u] := rfl

theorem evVisits_disc (n : String) : evVisits [DEv.disc n] = [] := rfl

theorem visit_mem_evVisits {x : String} {l : List DEv} (h : DEv.visit x ∈ l) :
    x ∈ evVisits l := by
  rw [evVisits, List.mem_filterMap]
  exact ⟨DEv.visit x, h, rfl⟩

/-- `PChain g ao start par x c`: the parent map `par` carries a chain of parent
links from `x` back to `start` whose consecutive nodes are filtered neighbors;
`c` lists the chain's nodes from `start` to `x`. -/
inductive PChain (g : Graph) (ao : Bool) (start : String)
    (par : List (String × Option String)) : String → List String → Prop where
  | base : alookup start par = some none → PChain g ao start par start [start]
  | step {p x : String} {c : List String} : PChain g ao start par p c →
      alookup x par = some (some p) → x ∈ g.neighborNames p ao →
      PChain g ao start par x (c ++ [x])

theorem pchain_facts {g : Graph} {ao : Bool} {start : String}
    {par : List (String × Option String)} {x : String} {c : List String}
    (h : PChain g ao start par x c) :
    c ≠ [] ∧ c.head? = some start ∧ c.getLast? = some x ∧
      validChain g ao c = true := by
  induction h with
  | base _ => exact ⟨List.cons_ne_nil _ _, rfl, rfl, rfl⟩
  | step _ _ hmem ih =>
    obtain ⟨hne, hh, hl, hv⟩ := ih
    refine ⟨by simp, ?_, ?_, validChain_snoc hv hl hmem⟩
    · rw [List.head?_append_of_ne_nil _ hne]
      exact hh
    · rw [List.getLast?_concat]

theorem pchain_mem_sub {g : Graph} {ao : Bool} {start : String}
    {par : List (String × Option String)} {x : String} {c : List String}
    (h : PChain g ao start par x c) : ∀ k ∈ c, (alookup k par).isSome = true := by
  induction h with
  | base hl =>
    intro k hk
    rw [List.mem_singleton] at hk
    rw [hk, hl]
    rfl
  | step _ hl _ ih =>
    intro k hk
    rcases List.mem_append.mp hk with hk' | hk'
    · exact ih k hk'
    · rw [List.mem_singleton] at hk'
      rw [hk', hl]
      rfl

/-- A parent chain survives any rewrite of the parent map that preserves the
lookups at the chain's own nodes. -/
theorem pchain_mono {g : Graph} {ao : Bool} {start : String}
    {par par2 : List (String × Option String)} {x : String} {c : List String}
    (h : PChain g ao start par x c)
    (hpres : ∀ k ∈ c, alookup k par2 = alookup k par) :
    PChain g ao start par2 x c := by
  induction h with
  | base hl =>
    refine PChain.base ?_
    rw [hpres start (List.mem_singleton.mpr rfl), hl]
  | step hch hl hmem ih =>
    rename_i p x c
    refine PChain.step (ih ?_) ?_ hmem
    · intro k hk
      exact hpres k (List.mem_append.mpr (Or.inl hk))
    · rw [hpres x (List.mem_append.mpr (Or.inr (List.mem_singleton.mpr rfl))), hl]

/-- `buildPath` with enough fuel reconstructs exactly the chain's node list. -/
theorem buildPath_of_pchain {g : Graph} {ao : Bool} {start : String}
    {par : List (String × Option String)} :
    ∀ {x : String} {c : List String}, PChain g ao start par x c →
    ∀ fuel, c.length ≤ fuel → buildPath par fuel x = c := by
  intro x c h
  induction h with
  | base hl =>
    intro fuel hfuel
    rcases fuel with _ | f
    · simp at hfuel
    · rw [buildPath, hl]
  | step hch hl hmem ih =>
    rename_i p x c
    intro fuel hfuel
    rcases fuel with _ | f
    · simp at hfuel
    · rw [buildPath, hl]
      show buildPath par f p ++ [x] = c ++ [x]
      rw [ih f (by simp at hfuel; omega)]

/-- A `dfsVisit` call on a state already flagged found is the identity. -/
theorem dfsVisit_found {g : Graph} {goal : String} {ao : Bool} (fuel : Nat)
    (u : String) {st : DfsSt} (h : st.found = true) :
    dfsVisit g goal ao fuel u st = st := by
  cases fuel <;> simp [dfsVisit, h]

/-- Once `found` is set, the neighbor loop keeps iterating: it may still write
`parent` entries (only at unvisited keys) and append discovery events, but it
visits nothing — visited, found and order are untouched and every appended
event is a `disc`. -/
theorem dfsKids_found {g : Graph} {goal : String} {ao : Bool} (f : Nat)
    (u : String) :
    ∀ (ns : List String) (st : DfsSt), st.found = true →
    (dfsKids u (fun n st2 => dfsVisit g goal ao f n st2) ns st).visited =
      st.visited ∧
    (dfsKids u (fun n st2 => dfsVisit g goal ao f n st2) ns st).found = true ∧
    (dfsKids u (fun n st2 => dfsVisit g goal ao f n st2) ns st).order = st.order ∧
    (∀ k ∈ st.visited,
      alookup k (dfsKids u (fun n st2 => dfsVisit g goal ao f n st2) ns st).parent =
        alookup k st.parent) ∧
    ∃ tail,
      (dfsKids u (fun n st2 => dfsVisit g goal ao f n st2) ns st).events =
        st.events ++ tail ∧ ∀ e ∈ tail, ∀ x, e ≠ DEv.visit x := by
  intro ns
  induction ns with
  | nil =>
    intro st h
    exact ⟨rfl, h, rfl, fun k _ => rfl, [], by simp [dfsKids], by simp⟩
  | cons n rest ih =>
    intro st h
    rw [dfsKids]
    by_cases hn : n ∈ st.visited
    · rw [if_pos hn]
      exact ih st h
    · rw [if_neg hn]
      rw [dfsVisit_found f n (by exact h)]
      obtain ⟨hv, hf, ho, hp, tail, he, ht⟩ := ih
        { st with parent := dictSet n (some u) st.parent,
                  discover := st.discover ++ [n], events := st.events ++ [DEv.disc n] }
        (by exact h)
      refine ⟨hv, hf, ho, ?_, [DEv.disc n] ++ tail, ?_, ?_⟩
      · intro k hk
        rw [hp k hk]
        exact alookup_dictSet_ne (fun hEq => hn (by rw [← hEq]; exact hk)) _ _
      · rw [he]
        simp
      · intro e he2 x
        rcases List.mem_append.mp he2 with h2 | h2
        · rw [List.mem_singleton] at h2
          rw [h2]
          intro hc
          cases hc
        · exact ht e h2 x

/-- Precondition of a `recurse(u)` call in `Graph.dfs`: `found` is still
clear, `u` is a yet-unvisited node with a parent entry, the visited set is a
duplicate-free set of nodes not containing the goal, every visited node has a
parent entry, the parent map carries a chain to `u` threading only visited
nodes, and the ghost events replay the visited list. -/
structure DPre (g : Graph) (ao : Bool) (start goal u : String) (st : DfsSt) : Prop where
  foundFalse : st.found = false
  uNode : u ∈ g.nodeNames
  uNew : u ∉ st.visited
  visNodup : st.visited.Nodup
  visSub : ∀ x ∈ st.visited, x ∈ g.nodeNames
  goalNot : goal ∉ st.visited
  parVis : ∀ k ∈ st.visited, (alookup k st.parent).isSome = true
  uPar : (alookup u st.parent).isSome = true
  chain : ∃ c, PChain g ao start st.parent u c ∧ c.Sublist (st.visited ++ [u])
  evs : evVisits st.events = st.visited

/-- Postcondition of a `recurse(u)` call: visited only grows (and now holds
`u`), parent lookups at previously visited keys survive, and on termination
either `found` is set — with a goal chain in the parent map and the ghost
events showing the single goal visit followed only by discovery events — or
`found` is clear and every node visited by this call has all its filtered
neighbors visited. -/
structure DPost (g : Graph) (ao : Bool) (start goal u : String) (st st2 : DfsSt) : Prop where
  visExt : ∃ new, st2.visited = st.visited ++ new
  visNodup : st2.visited.Nodup
  visSub : ∀ x ∈ st2.visited, x ∈ g.nodeNames
  uVis : u ∈ st2.visited
  parVis : ∀ k ∈ st2.visited, (alookup k st2.parent).isSome = true
  parPres : ∀ k ∈ st.visited, alookup k st2.parent = alookup k st.parent
  evs : evVisits st2.events = st2.visited
  goalNot : st2.found = false → goal ∉ st2.visited
  foundChain : st2.found = true → ∃ c, PChain g ao start st2.parent goal c ∧
      c.Sublist st2.visited
  foundEvents : st2.found = true → ∃ d₁ d₂, st2.events = d₁ ++ DEv.visit goal :: d₂ ∧
      DEv.visit goal ∉ d₁ ∧ ∀ e ∈ d₂, ∀ x, e ≠ DEv.visit x
  closure : st2.found = false → ∀ x ∈ st2.visited, x ∉ st.visited →
      ∀ m ∈ g.neighborNames x ao, m ∈ st2.visited

/-- Invariant of the neighbor loop of `recurse(u)`: `st0` is the state on
entering the loop (`u` freshly visited), `cst` the current loop state. -/
structure KInv (g : Graph) (ao : Bool) (start goal u : String) (st0 cst : DfsSt) : Prop where
  visExt : ∃ new, cst.visited = st0.visited ++ new
  visNodup : cst.visited.Nodup
  visSub : ∀ x ∈ cst.visited, x ∈ g.nodeNames
  parVis : ∀ k ∈ cst.visited, (alookup k cst.parent).isSome = true
  parPres : ∀ k ∈ st0.visited, alookup k cst.parent = alookup k st0.parent
  evs : evVisits cst.events = cst.visited
  goalNot : cst.found = false → goal ∉ cst.visited
  chainU : ∃ c, PChain g ao start cst.parent u c ∧ c.Sublist st0.visited
  foundChain : cst.found = true → ∃ c, PChain g ao start cst.parent goal c ∧
      c.Sublist cst.visited
  foundEvents : cst.found = true → ∃ d₁ d₂, cst.events = d₁ ++ DEv.visit goal :: d₂ ∧
      DEv.visit goal ∉ d₁ ∧ ∀ e ∈ d₂, ∀ x, e ≠ DEv.visit x
  closure : cst.found = false → ∀ x ∈ cst.visited, x ∉ st0.visited →
      ∀ m ∈ g.neighborNames x ao, m ∈ cst.visited

/-- Outcome of running the neighbor loop on the remaining list `ns`. -/
structure KOut (g : Graph) (ao : Bool) (start goal u : String) (st0 : DfsSt)
    (ns : List String) (cst rst : DfsSt) : Prop where
  inv : KInv g ao start goal u st0 rst
  ext : ∃ more, rst.visited = cst.visited ++ more
  fMono : cst.found = true → rst.found = true
  procAll : rst.found = false → ∀ m ∈ ns, m ∈ rst.visited

/-- The discovery write of the neighbor loop (a `parent` entry at an unvisited
key plus a `disc` event) preserves the loop invariant. -/
theorem kinv_discover {g : Graph} {ao : Bool} {start goal u : String}
    {st0 cst : DfsSt} {n : String} (kinv : KInv g ao start goal u st0 cst)
    (hn : n ∉ cst.visited) :
    KInv g ao start goal u st0
      { cst with parent := dictSet n (some u) cst.parent,
                 discover := cst.discover ++ [n],
                 events := cst.events ++ [DEv.disc n] } := by
  have hkne : ∀ k ∈ cst.visited, k ≠ n := fun k hk hEq => hn (by rw [← hEq]; exact hk)
  have hsub0 : ∀ x ∈ st0.visited, x ∈ cst.visited := by
    obtain ⟨new, hnew⟩ := kinv.visExt
    intro x hx
    rw [hnew]
    exact List.mem_append.mpr (Or.inl hx)
  refine ⟨kinv.visExt, kinv.visNodup, kinv.visSub, ?_, ?_, ?_, kinv.goalNot, ?_, ?_, ?_,
    kinv.closure⟩
  · intro k hk
    rw [alookup_dictSet_ne (hkne k hk)]
    exact kinv.parVis k hk
  · intro k hk
    rw [alookup_dictSet_ne (hkne k (hsub0 k hk))]
    exact kinv.parPres k hk
  · show evVisits (cst.events ++ [DEv.disc n]) = cst.visited
    rw [evVisits_append, evVisits_disc, List.append_nil]
    exact kinv.evs
  · obtain ⟨c, hc, hcs⟩ := kinv.chainU
    refine ⟨c, pchain_mono hc ?_, hcs⟩
    intro k hk
    exact alookup_dictSet_ne (hkne k (hsub0 k (hcs.subset hk))) _ _
  · intro hfd
    obtain ⟨c, hc, hcs⟩ := kinv.foundChain hfd
    refine ⟨c, pchain_mono hc ?_, hcs⟩
    intro k hk
    exact alookup_dictSet_ne (hkne k (hcs.subset hk)) _ _
  · intro hfd
    obtain ⟨d₁, d₂, he, hnd, hall⟩ := kinv.foundEvents hfd
    refine ⟨d₁, d₂ ++ [DEv.disc n], ?_, hnd, ?_⟩
    · show cst.events ++ [DEv.disc n] = _
      rw [he]
      simp
    · intro e he2 x
      rcases List.mem_append.mp he2 with h2 | h2
      · exact hall e h2 x
      · rw [List.mem_singleton] at h2
        rw [h2]
        intro hc
        cases hc

/-- The state handed to a recursive `recurse(n)` call satisfies the
recursion's precondition. -/
theorem dpre_child {g : Graph} (hwf : WF g) {ao : Bool} {start goal u : String}
    {st0 cst : DfsSt} {n : String} (kinv : KInv g ao start goal u st0 cst)
    (hn : n ∉ cst.visited) (hff : cst.found = false)
    (hnN : n ∈ g.neighborNames u ao) :
    DPre g ao start goal n
      { cst with parent := dictSet n (some u) cst.parent,
                 discover := cst.discover ++ [n],
                 events := cst.events ++ [DEv.disc n] } := by
  have hkne : ∀ k ∈ cst.visited, k ≠ n := fun k hk hEq => hn (by rw [← hEq]; exact hk)
  have hsub0 : ∀ x ∈ st0.visited, x ∈ cst.visited := by
    obtain ⟨new, hnew⟩ := kinv.visExt
    intro x hx
    rw [hnew]
    exact List.mem_append.mpr (Or.inl hx)
  have hsl0 : st0.visited.Sublist cst.visited := by
    obtain ⟨new, hnew⟩ := kinv.visExt
    rw [hnew]
    exact List.sublist_append_left _ _
  refine ⟨hff, neighborNames_sub hwf hnN, hn, kinv.visNodup, kinv.visSub,
    kinv.goalNot hff, ?_, ?_, ?_, ?_⟩
  · intro k hk
    rw [alookup_dictSet_ne (hkne k hk)]
    exact kinv.parVis k hk
  · show (alookup n (dictSet n (some u) cst.parent)).isSome = true
    rw [alookup_dictSet_self]
    rfl
  · obtain ⟨c, hc, hcs⟩ := kinv.chainU
    refine ⟨c ++ [n], PChain.step (pchain_mono hc ?_) ?_ hnN, ?_⟩
    · intro k hk
      exact alookup_dictSet_ne (hkne k (hsub0 k (hcs.subset hk))) _ _
    · exact alookup_dictSet_self n (some u) cst.parent
    · show (c ++ [n]).Sublist (cst.visited ++ [n])
      exact List.Sublist.append (hcs.trans hsl0) (List.Sublist.refl [n])
  · show evVisits (cst.events ++ [DEv.disc n]) = cst.visited
    rw [evVisits_append, evVisits_disc, List.append_nil]
    exact kinv.evs

/-- Composing a child call's postcondition back into the loop invariant. -/
theorem kinv_child {g : Graph} {ao : Bool} {start goal u : String}
    {st0 cst : DfsSt} {n : String} (kinv : KInv g ao start goal u st0 cst)
    (hn : n ∉ cst.visited) (hff : cst.found = false) {st3 : DfsSt}
    (hpost : DPost g ao start goal n
      { cst with parent := dictSet n (some u) cst.parent,
                 discover := cst.discover ++ [n],
                 events := cst.events ++ [DEv.disc n] } st3) :
    KInv g ao start goal u st0 st3 ∧ (∃ more2, st3.visited = cst.visited ++ more2) ∧
      n ∈ st3.visited := by
  have hkne : ∀ k ∈ cst.visited, k ≠ n := fun k hk hEq => hn (by rw [← hEq]; exact hk)
  have hsub0 : ∀ x ∈ st0.visited, x ∈ cst.visited := by
    obtain ⟨new, hnew⟩ := kinv.visExt
    intro x hx
    rw [hnew]
    exact List.mem_append.mpr (Or.inl hx)
  obtain ⟨new2, hnew2⟩ := hpost.visExt
  have hnew2' : st3.visited = cst.visited ++ new2 := hnew2
  have hsub3 : ∀ x ∈ cst.visited, x ∈ st3.visited := by
    intro x hx
    rw [hnew2']
    exact List.mem_append.mpr (Or.inl hx)
  have hpres3 : ∀ k ∈ cst.visited, alookup k st3.parent = alookup k cst.parent := by
    intro k hk
    have := hpost.parPres k hk
    rw [this]
    exact alookup_dictSet_ne (hkne k hk) _ _
  refine ⟨⟨?_, hpost.visNodup, hpost.visSub, hpost.parVis, ?_, hpost.evs,
    hpost.goalNot, ?_, hpost.foundChain, hpost.foundEvents, ?_⟩, ⟨new2, hnew2'⟩,
    hpost.uVis⟩
  · obtain ⟨new, hnew⟩ := kinv.visExt
    refine ⟨new ++ new2, ?_⟩
    rw [hnew2', hnew, List.append_assoc]
  · intro k hk
    rw [hpres3 k (hsub0 k hk)]
    exact kinv.parPres k hk
  · obtain ⟨c, hc, hcs⟩ := kinv.chainU
    refine ⟨c, pchain_mono hc ?_, hcs⟩
    intro k hk
    exact hpres3 k (hsub0 k (hcs.subset hk))
  · intro h3f x hx3 hx0 m hm
    by_cases hx : x ∈ cst.visited
    · exact hsub3 m (kinv.closure hff x hx hx0 m hm)
    · exact hpost.closure h3f x hx3 hx m hm

/-- The neighbor loop of `recurse(u)` maintains the loop invariant, visits
every listed neighbor (unless `found` stops the traversal), and never clears
`found`. `IH` is the recursion hypothesis for depth `f`. -/
theorem dfsKids_main {g : Graph} (hwf : WF g) (ao : Bool) (start goal u : String)
    (f : Nat) (st0 : DfsSt)
    (IH : ∀ (v : String) (st : DfsSt), DPre g ao start goal v st →
      g.nodeNames.length - st.visited.length ≤ f →
      DPost g ao start goal v st (dfsVisit g goal ao f v st)) :
    ∀ (ns : List String), (∀ m ∈ ns, m ∈ g.neighborNames u ao) →
    ∀ (cst : DfsSt), KInv g ao start goal u st0 cst →
    g.nodeNames.length - st0.visited.length ≤ f →
    KOut g ao start goal u st0 ns cst
      (dfsKids u (fun n st2 => dfsVisit g goal ao f n st2) ns cst) := by
  intro ns
  induction ns with
  | nil =>
    intro _ cst kinv _
    rw [show dfsKids u (fun n st2 => dfsVisit g goal ao f n st2) [] cst = cst from rfl]
    exact ⟨kinv, ⟨[], (List.append_nil _).symm⟩, fun h => h, fun _ m hm => absurd hm
      (List.not_mem_nil m)⟩
  | cons n rest ih =>
    intro hsub cst kinv hf
    rw [dfsKids]
    by_cases hn : n ∈ cst.visited
    · rw [if_pos hn]
      have hout := ih (fun m hm => hsub m (List.mem_cons_of_mem n hm)) cst kinv hf
      refine ⟨hout.inv, hout.ext, hout.fMono, ?_⟩
      intro hrf m hm
      rcases List.mem_cons.mp hm with hm' | hm'
      · obtain ⟨more, hmore⟩ := hout.ext
        rw [hmore, hm']
        exact List.mem_append.mpr (Or.inl hn)
      · exact hout.procAll hrf m hm'
    · rw [if_neg hn]
      by_cases hfd : cst.found = true
      · have hid : dfsVisit g goal ao f n
            { cst with parent := dictSet n (some u) cst.parent,
                       discover := cst.discover ++ [n],
                       events := cst.events ++ [DEv.disc n] } =
            { cst with parent := dictSet n (some u) cst.parent,
                       discover := cst.discover ++ [n],
                       events := cst.events ++ [DEv.disc n] } :=
          dfsVisit_found f n hfd
        rw [hid]
        have hinv2 := kinv_discover kinv hn
        have hout := ih (fun m hm => hsub m (List.mem_cons_of_mem n hm)) _ hinv2 hf
        refine ⟨hout.inv, ?_, fun _ => hout.fMono hfd, ?_⟩
        · obtain ⟨more, hmore⟩ := hout.ext
          exact ⟨more, hmore⟩
        · intro hrf m hm
          exact absurd ((hout.fMono hfd).symm.trans hrf) (by decide)
      · have hff : cst.found = false := by
          cases hcf : cst.found
          · rfl
          · exact absurd hcf hfd
        have hnN : n ∈ g.neighborNames u ao := hsub n (List.mem_cons_self n rest)
        have hdpre := dpre_child hwf kinv hn hff hnN
        have hfuel2 : g.nodeNames.length - cst.visited.length ≤ f := by
          obtain ⟨new, hnew⟩ := kinv.visExt
          have hlen : cst.visited.length = st0.visited.length + new.length := by
            rw [hnew]
            simp
          omega
        have hpost := IH n _ hdpre (by exact hfuel2)
        obtain ⟨hinv3, ⟨more2, hmore2⟩, hnvis⟩ := kinv_child kinv hn hff hpost
        have hout := ih (fun m hm => hsub m (List.mem_cons_of_mem n hm)) _ hinv3 hf
        refine ⟨hout.inv, ?_, ?_, ?_⟩
        · obtain ⟨more, hmore⟩ := hout.ext
          refine ⟨more2 ++ more, ?_⟩
          rw [hmore, hmore2, List.append_assoc]
        · intro h
          exact absurd h hfd
        · intro hrf m hm
          rcases List.mem_cons.mp hm with hm' | hm'
          · obtain ⟨more, hmore⟩ := hout.ext
            rw [hmore, hm']
            exact List.mem_append.mpr (Or.inl hnvis)
          · exact hout.procAll hrf m hm'

/-- Main recursion lemma for `Graph.dfs`: with enough fuel, a `recurse(u)`
call satisfies its postcondition. -/
theorem dfsVisit_main {g : Graph} (hwf : WF g) (ao : Bool) (start goal : String) :
    ∀ (fuel : Nat) (u : String) (st : DfsSt), DPre g ao start goal u st →
    g.nodeNames.length - st.visited.length ≤ fuel →
    DPost g ao start goal u st (dfsVisit g goal ao fuel u st) := by
  intro fuel
  induction fuel with
  | zero =>
    intro u st hpre hfuel
    exfalso
    have hnd2 : (st.visited ++ [u]).Nodup := nodup_append_single hpre.visNodup hpre.uNew
    have hsub2 : (st.visited ++ [u]) ⊆ g.nodeNames := by
      intro x hx
      rcases List.mem_append.mp hx with h | h
      · exact hpre.visSub x h
      · rw [List.mem_singleton] at h
        rw [h]
        exact hpre.uNode
    have hle := (hnd2.subperm hsub2).length_le
    rw [List.length_append, List.length_singleton] at hle
    omega
  | succ f IH =>
    intro u st hpre hfuel
    have hnf : ¬ st.found = true := by
      rw [hpre.foundFalse]
      decide
    rw [dfsVisit, if_neg hnf]
    by_cases hg : u = goal
    · rw [if_pos hg]
      refine ⟨⟨[u], rfl⟩, nodup_append_single hpre.visNodup hpre.uNew, ?_,
        List.mem_append.mpr (Or.inr (List.mem_singleton.mpr rfl)), ?_,
        fun k _ => rfl, ?_, ?_, ?_, ?_, ?_⟩
      · intro x hx
        rcases List.mem_append.mp hx with h | h
        · exact hpre.visSub x h
        · rw [List.mem_singleton] at h
          rw [h]
          exact hpre.uNode
      · intro k hk
        rcases List.mem_append.mp hk with h | h
        · exact hpre.parVis k h
        · rw [List.mem_singleton] at h
          rw [h]
          exact hpre.uPar
      · show evVisits (st.events ++ [DEv.visit u]) = st.visited ++ [u]
        rw [evVisits_append, evVisits_visit, hpre.evs]
      · intro h
        cases h
      · intro _
        obtain ⟨c, hc, hcs⟩ := hpre.chain
        rw [hg] at hc
        exact ⟨c, hc, hcs⟩
      · intro _
        refine ⟨st.events, [], ?_, ?_, by intro e he x; cases he⟩
        · show st.events ++ [DEv.visit u] = st.events ++ DEv.visit goal :: []
          rw [hg]
        · intro hmem
          exact hpre.goalNot (by rw [← hpre.evs]; exact visit_mem_evVisits hmem)
      · intro h
        cases h
    · rw [if_neg hg]
      have hinit : KInv g ao start goal u
          { st with visited := st.visited ++ [u], order := st.order ++ [u],
                    events := st.events ++ [DEv.visit u] }
          { st with visited := st.visited ++ [u], order := st.order ++ [u],
                    events := st.events ++ [DEv.visit u] } := by
        refine ⟨⟨[], (List.append_nil _).symm⟩,
          nodup_append_single hpre.visNodup hpre.uNew, ?_, ?_, fun k _ => rfl, ?_, ?_,
          ?_, ?_, ?_, ?_⟩
        · intro x hx
          rcases List.mem_append.mp hx with h | h
          · exact hpre.visSub x h
          · rw [List.mem_singleton] at h
            rw [h]
            exact hpre.uNode
        · intro k hk
          rcases List.mem_append.mp hk with h | h
          · exact hpre.parVis k h
          · rw [List.mem_singleton] at h
            rw [h]
            exact hpre.uPar
        · show evVisits (st.events ++ [DEv.visit u]) = st.visited ++ [u]
          rw [evVisits_append, evVisits_visit, hpre.evs]
        · intro _
          intro hmem
          rcases List.mem_append.mp hmem with h | h
          · exact hpre.goalNot h
          · rw [List.mem_singleton] at h
            exact hg h.symm
        · obtain ⟨c, hc, hcs⟩ := hpre.chain
          exact ⟨c, hc, hcs⟩
        · intro h
          exact absurd (hpre.foundFalse.symm.trans h) (by decide)
        · intro h
          exact absurd (hpre.foundFalse.symm.trans h) (by decide)
        · intro _ x hx hx0 m _
          exact absurd hx hx0
      have hfuel1 : g.nodeNames.length - (st.visited ++ [u]).length ≤ f := by
        rw [List.length_append, List.length_singleton]
        omega
      obtain ⟨kfin, ⟨more, hmore⟩, _, hproc⟩ :=
        dfsKids_main hwf ao start goal u f _ (fun v st2 hp hfl => IH v st2 hp hfl)
          (g.neighborNames u ao) (fun m hm => hm) _ hinit hfuel1
      refine ⟨?_, kfin.visNodup, kfin.visSub, ?_, kfin.parVis, ?_, kfin.evs,
        kfin.goalNot, kfin.foundChain, kfin.foundEvents, ?_⟩
      · refine ⟨[u] ++ more, ?_⟩
        rw [hmore]
        show (st.visited ++ [u]) ++ more = st.visited ++ ([u] ++ more)
        rw [List.append_assoc]
      · rw [hmore]
        exact List.mem_append.mpr (Or.inl
          (List.mem_append.mpr (Or.inr (List.mem_singleton.mpr rfl))))
      · intro k hk
        exact kfin.parPres k (List.mem_append.mpr (Or.inl hk))
      · intro hrf x hx hxold m hm
        by_cases hxu : x = u
        · rw [hxu] at hm
          exact hproc hrf m hm
        · refine kfin.closure hrf x hx ?_ m hm
          intro hmem
          rcases List.mem_append.mp hmem with h | h
          · exact hxold h
          · rw [List.mem_singleton] at h
            exact hxu h

/-- The top-level `recurse(start)` call of `Graph.dfs` satisfies the
recursion's postcondition relative to the initial state. -/
theorem dfsRun_post (g : Graph) (hwf : WF g) (ao : Bool) (start goal : String)
    (hs : start ∈ g.nodeNames) :
    DPost g ao start goal start
      { visited := [], parent := [(start, none)], found := false, order := [],
        discover := [], events := [] } (g.dfsRun start goal ao) := by
  have hdpre : DPre g ao start goal start
      { visited := [], parent := [(start, none)], found := false, order := [],
        discover := [], events := [] } := by
    refine ⟨rfl, hs, List.not_mem_nil start, List.nodup_nil, ?_, List.not_mem_nil goal,
      ?_, ?_, ?_, rfl⟩
    · intro x hx
      exact absurd hx (List.not_mem_nil x)
    · intro k hk
      exact absurd hk (List.not_mem_nil k)
    · show (alookup start [(start, (none : Option String))]).isSome = true
      simp [alookup]
    · refine ⟨[start], PChain.base ?_, ?_⟩
      · show alookup start [(start, (none : Option String))] = some none
        simp [alookup]
      · show [start].Sublist ([] ++ [start])
        simp
  have hfuel : g.nodeNames.length - ([] : List String).length ≤ g.nodes.length + 1 := by
    rw [Graph.nodeNames, List.length_map]
    simp
  have hpost := dfsVisit_main hwf ao start goal (g.nodes.length + 1) start _ hdpre
    (by exact hfuel)
  have hrunEq : dfsVisit g goal ao (g.nodes.length + 1) start
      { visited := [], parent := [(start, none)], found := false, order := [],
        discover := [], events := [] } = g.dfsRun start goal ao := rfl
  rw [hrunEq] at hpost
  exact hpost

/-- Full characterization of `Graph.dfs` on well-formed graphs: it succeeds,
and returns an empty path exactly when the goal is unreachable over the
filtered edges; otherwise the path is a valid filtered walk from start to
goal. -/
theorem dfs_correct (g : Graph) (hwf : WF g) (ao : Bool) (start goal : String)
    (hs : start ∈ g.nodeNames) (hg : goal ∈ g.nodeNames) :
    ∃ path ord disc, g.dfs start goal ao = .ok (path, ord, disc) ∧
      ((path = [] ∧ ¬ ∃ k, ReachN g ao start k goal) ∨
       (validChain g ao path = true ∧ path.head? = some start ∧
        path.getLast? = some goal ∧ ∃ k, ReachN g ao start k goal)) := by
  have hsl : (alookup start g.nodes).isSome = true := (alookup_isSome_iff _ _).mpr hs
  have hgl : (alookup goal g.nodes).isSome = true := (alookup_isSome_iff _ _).mpr hg
  have hguard : ¬ ((alookup start g.nodes).isNone || (alookup goal g.nodes).isNone)
      = true := by
    obtain ⟨i1, h1⟩ := Option.isSome_iff_exists.mp hsl
    obtain ⟨i2, h2⟩ := Option.isSome_iff_exists.mp hgl
    rw [h1, h2]
    simp
  have hpost := dfsRun_post g hwf ao start goal hs
  have hsplit : g.dfs start goal ao =
      (if !(g.dfsRun start goal ao).found
       then Except.ok (([] : List String), (g.dfsRun start goal ao).order,
         (g.dfsRun start goal ao).discover)
       else Except.ok (buildPath (g.dfsRun start goal ao).parent
         ((g.dfsRun start goal ao).parent.length + 1) goal,
         (g.dfsRun start goal ao).order, (g.dfsRun start goal ao).discover)) := by
    unfold Graph.dfs
    rw [if_neg hguard]
  cases hfd : (g.dfsRun start goal ao).found
  · rw [hsplit, hfd, if_pos (by decide)]
    refine ⟨[], _, _, rfl, Or.inl ⟨rfl, ?_⟩⟩
    rintro ⟨k, hk⟩
    have hvis : ∀ m x, ReachN g ao start m x → x ∈ (g.dfsRun start goal ao).visited := by
      intro m x hx
      induction hx with
      | refl => exact hpost.uVis
      | step hv hmem ih =>
        exact hpost.closure hfd _ ih (List.not_mem_nil _) _ hmem
    exact hpost.goalNot hfd (hvis k goal hk)
  · rw [hsplit, hfd, if_neg (by decide)]
    obtain ⟨c, hc, hcs⟩ := hpost.foundChain hfd
    have hclen : c.length ≤ (g.dfsRun start goal ao).visited.length := hcs.length_le
    have hvp : (g.dfsRun start goal ao).visited.length ≤
        (g.dfsRun start goal ao).parent.length := by
      have hsubk : (g.dfsRun start goal ao).visited ⊆
          parKeys (g.dfsRun start goal ao).parent := by
        intro x hx
        have hv := hpost.parVis x hx
        rw [alookup_isSome_iff] at hv
        exact hv
      have hle := (hpost.visNodup.subperm hsubk).length_le
      rw [parKeys, List.length_map] at hle
      exact hle
    have hbp := buildPath_of_pchain hc ((g.dfsRun start goal ao).parent.length + 1)
      (by omega)
    rw [hbp]
    obtain ⟨hne, hh, hl, hv⟩ := pchain_facts hc
    refine ⟨c, _, _, rfl, Or.inr ⟨hv, hh, hl, ?_⟩⟩
    cases c with
    | nil => exact absurd rfl hne
    | cons a tl =>
      have ha : a = start := by
        simp only [List.head?_cons, Option.some.injEq] at hh
        exact hh
      refine ⟨tl.length, ?_⟩
      have hr := reachN_of_chain tl a goal hv hl
      rw [ha] at hr
      exact hr

/-! ### Claim C1 -/

/-- C1: for every well-formed graph, filter, and start/goal present in it,
`bfs` succeeds with a path that is empty exactly when the goal is unreachable
over the filtered edges and otherwise is a valid filtered walk from start to
goal whose edge count is the graph-theoretic minimal hop count, and `dfs`
succeeds with some valid filtered walk from start to goal, its path empty
exactly when bfs's is. -/
theorem c1_bfs_shortest_dfs_valid (g : Graph) (hwf : WF g) (ao : Bool)
    (start goal : String) (hs : start ∈ g.nodeNames) (hg : goal ∈ g.nodeNames) :
    ∃ bp bo bd dp dord dd,
      g.bfs start goal ao = .ok (bp, bo, bd) ∧
      g.dfs start goal ao = .ok (dp, dord, dd) ∧
      (bp = [] ↔ ¬ ∃ k, ReachN g ao start k goal) ∧
      (dp = [] ↔ bp = []) ∧
      ((∃ k, ReachN g ao start k goal) →
        (validChain g ao bp = true ∧ bp.head? = some start ∧ bp.getLast? = some goal ∧
          ∃ n, isMin g ao start goal n ∧ bp.length = n + 1) ∧
        (validChain g ao dp = true ∧ dp.head? = some start ∧
          dp.getLast? = some goal)) := by
  obtain ⟨bp, bo, bd, hbok, hbcase⟩ := bfs_correct g hwf ao start goal hs hg
  obtain ⟨dp, dord, dd, hdok, hdcase⟩ := dfs_correct g hwf ao start goal hs hg
  have hbiff : bp = [] ↔ ¬ ∃ k, ReachN g ao start k goal := by
    constructor
    · intro hbp
      rcases hbcase with ⟨_, hnr⟩ | ⟨_, hh, _, _⟩
      · exact hnr
      · rw [hbp] at hh
        cases hh
    · intro hnr
      rcases hbcase with ⟨hbp, _⟩ | ⟨_, _, _, ⟨n, hmin, _⟩, _⟩
      · exact hbp
      · exact absurd ⟨n, hmin.1⟩ hnr
  have hdiff : dp = [] ↔ ¬ ∃ k, ReachN g ao start k goal := by
    constructor
    · intro hdp
      rcases hdcase with ⟨_, hnr⟩ | ⟨_, hh, _, _⟩
      · exact hnr
      · rw [hdp] at hh
        cases hh
    · intro hnr
      rcases hdcase with ⟨hdp, _⟩ | ⟨_, _, _, hr⟩
      · exact hdp
      · exact absurd hr hnr
  refine ⟨bp, bo, bd, dp, dord, dd, hbok, hdok, hbiff, by rw [hdiff, hbiff], ?_⟩
  intro hr
  rcases hbcase with ⟨_, hnr⟩ | hbR
  · exact absurd hr hnr
  rcases hdcase with ⟨_, hnr⟩ | hdR
  · exact absurd hr hnr
  obtain ⟨hv, hh, hl, hex, _⟩ := hbR
  obtain ⟨hv2, hh2, hl2, _⟩ := hdR
  exact ⟨⟨hv, hh, hl, hex⟩, hv2, hh2, hl2⟩

theorem c1_witness :
    WF wG ∧ "A" ∈ wG.nodeNames ∧ "B" ∈ wG.nodeNames ∧
    (∃ bp bo bd dp dord dd,
      wG.bfs "A" "B" false = .ok (bp, bo, bd) ∧
      wG.dfs "A" "B" false = .ok (dp, dord, dd) ∧
      (bp = [] ↔ ¬ ∃ k, ReachN wG false "A" k "B") ∧
      (dp = [] ↔ bp = []) ∧
      ((∃ k, ReachN wG false "A" k "B") →
        (validChain wG false bp = true ∧ bp.head? = some "A" ∧ bp.getLast? = some "B" ∧
          ∃ n, isMin wG false "A" "B" n ∧ bp.length = n + 1) ∧
        (validChain wG false dp = true ∧ dp.head? = some "A" ∧
          dp.getLast? = some "B"))) :=
  ⟨WF_of_reaches wG_reaches, by decide, by decide,
    c1_bfs_shortest_dfs_valid wG (WF_of_reaches wG_reaches) false "A" "B"
      (by decide) (by decide)⟩

/-! ### Claim C2 -/

/-- C2 as stated is false: after the goal node has been visited (and `found`
set), the neighbor loops of the still-active recursion frames keep running and
keep appending unvisited siblings to the discovery order. In `wG`, dfs from A
to B appends C to the discovery order after the goal B was visited. -/
theorem c2_counterexample :
    (wG.dfsRun "A" "B" false).found = true ∧
    (wG.dfsRun "A" "B" false).events =
      [DEv.visit "A", DEv.disc "B"] ++ DEv.visit "B" :: [DEv.disc "C"] ∧
    ([DEv.disc "C"] : List DEv) ≠ [] ∧
    (wG.dfsRun "A" "B" false).discover = ["B", "C"] ∧
    (wG.dfsRun "A" "B" false).order = ["A", "B"] := by
  decide

/-- C2 (amended): in every dfs run that reaches the goal, the ghost event
trace splits uniquely around the goal's visit, and after that visit no
further node is visited or appended to the visitation order — every later
event is a discovery append (which, contrary to the original claim, may still
occur for unvisited siblings in active frames). -/
theorem c2_no_visits_after_goal (g : Graph) (hwf : WF g) (ao : Bool)
    (start goal : String) (hs : start ∈ g.nodeNames)
    (hfound : (g.dfsRun start goal ao).found = true) :
    ∃ d₁ d₂, (g.dfsRun start goal ao).events = d₁ ++ DEv.visit goal :: d₂ ∧
      DEv.visit goal ∉ d₁ ∧ ∀ e ∈ d₂, ∀ x, e ≠ DEv.visit x :=
  (dfsRun_post g hwf ao start goal hs).foundEvents hfound

theorem c2_witness :
    ((wG.dfsRun "A" "B" false).found = true) ∧
    (∃ d₁ d₂, (wG.dfsRun "A" "B" false).events = d₁ ++ DEv.visit "B" :: d₂ ∧
      DEv.visit "B" ∉ d₁ ∧ ∀ e ∈ d₂, ∀ x, e ≠ DEv.visit x) :=
  ⟨by decide, c2_no_visits_after_goal wG (WF_of_reaches wG_reaches) false "A" "B"
    (by decide) (by decide)⟩

/-! ### The GUI animation schedule and `clear_animation` -/

/-- Pointwise update of a canvas string attribute (`itemconfig ... fill/outline`). -/
def setS (f : Nat → String) (i : Nat) (v : String) : Nat → String :=
  fun j => if j = i then v else f j

/-- Pointwise update of a canvas numeric attribute (`itemconfig ... width`). -/
def setN (f : Nat → Nat) (i : Nat) (v : Nat) : Nat → Nat :=
  fun j => if j = i then v else f j

/-- The `for token in self.current_animation_tokens: self.root.after_cancel(token)`
loop: each recorded token's scheduled callback is removed from the pending
schedule (cancelling an absent token is a no-op, as the `except: pass`). -/
def cancelLoop : List Nat → List Nat → List Nat
  | [], pending => pending
  | t :: rest, pending => cancelLoop rest (pending.erase t)

/-- The `for e in self.graph.edges.values()` loop of `clear_animation`:
every drawn edge line is re-filled with its steady-state `e.color()` at
width 2. -/
def clearEdgesLoop : List (Sym2 String × Edge) → (Nat → String) → (Nat → Nat) →
    (Nat → String) × (Nat → Nat)
  | [], fill, width => (fill, width)
  | (_, e) :: rest, fill, width =>
    match e.line_id with
    | none => clearEdgesLoop rest fill width
    | some lid => clearEdgesLoop rest (setS fill lid e.color) (setN width lid 2)

/-- The `for _, (_, _, oid, _) in self.graph.nodes.items()` loop of
`clear_animation`: every drawn node oval is restored to black fill, black
outline, width 2. -/
def clearNodesLoop : List (String × NodeInfo) → (Nat → String) → (Nat → String) →
    (Nat → Nat) → (Nat → String) × (Nat → String) × (Nat → Nat)
  | [], fill, outline, width => (fill, outline, width)
  | (_, info) :: rest, fill, outline, width =>
    match info.oid with
    | none => clearNodesLoop rest fill outline width
    | some oid => clearNodesLoop rest (setS fill oid "black") (setS outline oid "black")
        (setN width oid 2)

/-- The GUI state touched by the animation machinery: the graph, the recorded
animation tokens, the scheduler's pending callback tokens, the canvas fill /
outline / width attributes per canvas id, and the `animating` flag. -/
structure GuiSt where
  graph : Graph
  tokens : List Nat
  pending : List Nat
  fill : Nat → String
  outline : Nat → String
  width : Nat → Nat
  animating : Bool

/-- `GUI.clear_animation`. -/
def GuiSt.clear_animation (st : GuiSt) : GuiSt :=
  let pending2 := cancelLoop st.tokens st.pending
  let ew := clearEdgesLoop st.graph.edges st.fill st.width
  let nw := clearNodesLoop st.graph.nodes ew.1 st.outline ew.2
  { st with tokens := [], pending := pending2, fill := nw.1, outline := nw.2.1,
            width := nw.2.2, animating := false }

theorem mem_cancelLoop : ∀ (ts pend : List Nat), pend.Nodup →
    ∀ x ∈ cancelLoop ts pend, x ∈ pend ∧ x ∉ ts := by
  intro ts
  induction ts with
  | nil =>
    intro pend _ x hx
    exact ⟨hx, List.not_mem_nil x⟩
  | cons t rest ih =>
    intro pend hnd x hx
    rw [cancelLoop] at hx
    obtain ⟨hx1, hx2⟩ := ih (pend.erase t) (hnd.erase t) x hx
    have hxp : x ∈ pend := List.mem_of_mem_erase hx1
    have hxt : x ≠ t := by
      intro hEq
      rw [hEq] at hx1
      exact (hnd.not_mem_erase) hx1
    refine ⟨hxp, ?_⟩
    intro hmem
    rcases List.mem_cons.mp hmem with h | h
    · exact hxt h
    · exact hx2 h

/-- Cancelling every recorded token empties the schedule, provided every
pending callback was recorded (which is how the GUI schedules them). -/
theorem cancelLoop_all (ts pend : List Nat) (hnd : pend.Nodup)
    (hsub : ∀ x ∈ pend, x ∈ ts) : cancelLoop ts pend = [] := by
  rw [List.eq_nil_iff_forall_not_mem]
  intro x hx
  obtain ⟨h1, h2⟩ := mem_cancelLoop ts pend hnd x hx
  exact h2 (hsub x h1)

theorem clearEdgesLoop_frame :
    ∀ (lst : List (Sym2 String × Edge)) (fill : Nat → String) (width : Nat → Nat)
      (l : Nat), (∀ p ∈ lst, p.2.line_id ≠ some l) →
    (clearEdgesLoop lst fill width).1 l = fill l ∧
    (clearEdgesLoop lst fill width).2 l = width l := by
  intro lst
  induction lst with
  | nil =>
    intro fill width l _
    exact ⟨rfl, rfl⟩
  | cons q rest ih =>
    intro fill width l hne
    obtain ⟨k, e⟩ := q
    rw [clearEdgesLoop]
    cases hle : e.line_id with
    | none => exact ih fill width l (fun p hp => hne p (List.mem_cons_of_mem _ hp))
    | some lid =>
      have hlne : ¬ (l = lid) := by
        intro hEq
        exact hne (k, e) (List.mem_cons_self _ _) (by rw [hle, hEq])
      obtain ⟨h1, h2⟩ := ih (setS fill lid e.color) (setN width lid 2) l
        (fun p hp => hne p (List.mem_cons_of_mem _ hp))
      rw [h1, h2]
      constructor
      · show (if l = lid then e.color else fill l) = fill l
        rw [if_neg hlne]
      · show (if l = lid then 2 else width l) = width l
        rw [if_neg hlne]

theorem clearEdgesLoop_spec :
    ∀ (lst : List (Sym2 String × Edge)) (fill : Nat → String) (width : Nat → Nat),
    (lst.filterMap (fun p => p.2.line_id)).Nodup →
    ∀ p ∈ lst, ∀ l, p.2.line_id = some l →
    (clearEdgesLoop lst fill width).1 l = Edge.color p.2 ∧
    (clearEdgesLoop lst fill width).2 l = 2 := by
  intro lst
  induction lst with
  | nil =>
    intro fill width _ p hp
    exact absurd hp (List.not_mem_nil p)
  | cons q rest ih =>
    intro fill width hnd p hp l hpl
    obtain ⟨k, e⟩ := q
    rw [clearEdgesLoop]
    rcases List.mem_cons.mp hp with hp' | hp'
    · have hle : e.line_id = some l := by
        rw [hp'] at hpl
        exact hpl
      rw [hle]
      have hnotin : l ∉ rest.filterMap (fun p => p.2.line_id) := by
        rw [List.filterMap_cons, hle] at hnd
        exact (List.nodup_cons.mp hnd).1
      have hner : ∀ p2 ∈ rest, p2.2.line_id ≠ some l := by
        intro p2 hp2 hc
        exact hnotin (List.mem_filterMap.mpr ⟨p2, hp2, hc⟩)
      obtain ⟨h1, h2⟩ := clearEdgesLoop_frame rest (setS fill l e.color)
        (setN width l 2) l hner
      rw [h1, h2, hp']
      constructor
      · show (if l = l then e.color else fill l) = e.color
        rw [if_pos rfl]
      · show (if l = l then 2 else width l) = 2
        rw [if_pos rfl]
    · have hndr : (rest.filterMap (fun p => p.2.line_id)).Nodup := by
        rw [List.filterMap_cons] at hnd
        cases hke : e.line_id with
        | none =>
          rw [hke] at hnd
          exact hnd
        | some l0 =>
          rw [hke] at hnd
          exact (List.nodup_cons.mp hnd).2
      cases hke : e.line_id with
      | none => exact ih fill width hndr p hp' l hpl
      | some lid => exact ih (setS fill lid e.color) (setN width lid 2) hndr p hp' l hpl

theorem clearNodesLoop_frame :
    ∀ (lst : List (String × NodeInfo)) (fill outline : Nat → String)
      (width : Nat → Nat) (l : Nat), (∀ p ∈ lst, p.2.oid ≠ some l) →
    (clearNodesLoop lst fill outline width).1 l = fill l ∧
    (clearNodesLoop lst fill outline width).2.1 l = outline l ∧
    (clearNodesLoop lst fill outline width).2.2 l = width l := by
  intro lst
  induction lst with
  | nil =>
    intro fill outline width l _
    exact ⟨rfl, rfl, rfl⟩
  | cons q rest ih =>
    intro fill outline width l hne
    obtain ⟨k, info⟩ := q
    rw [clearNodesLoop]
    cases hle : info.oid with
    | none => exact ih fill outline width l (fun p hp => hne p (List.mem_cons_of_mem _ hp))
    | some oid =>
      have hlne : ¬ (l = oid) := by
        intro hEq
        exact hne (k, info) (List.mem_cons_self _ _) (by rw [hle, hEq])
      obtain ⟨h1, h2, h3⟩ := ih (setS fill oid "black") (setS outline oid "black")
        (setN width oid 2) l (fun p hp => hne p (List.mem_cons_of_mem _ hp))
      rw [h1, h2, h3]
      refine ⟨?_, ?_, ?_⟩
      · show (if l = oid then "black" else fill l) = fill l
        rw [if_neg hlne]
      · show (if l = oid then "black" else outline l) = outline l
        rw [if_neg hlne]
      · show (if l = oid then 2 else width l) = width l
        rw [if_neg hlne]

theorem clearNodesLoop_spec :
    ∀ (lst : List (String × NodeInfo)) (fill outline : Nat → String)
      (width : Nat → Nat),
    (lst.filterMap (fun p => p.2.oid)).Nodup →
    ∀ p ∈ lst, ∀ i, p.2.oid = some i →
    (clearNodesLoop lst fill outline width).1 i = "black" ∧
    (clearNodesLoop lst fill outline width).2.1 i = "black" ∧
    (clearNodesLoop lst fill outline width).2.2 i = 2 := by
  intro lst
  induction lst with
  | nil =>
    intro fill outline width _ p hp
    exact absurd hp (List.not_mem_nil p)
  | cons q rest ih =>
    intro fill outline width hnd p hp i hpl
    obtain ⟨k, info⟩ := q
    rw [clearNodesLoop]
    rcases List.mem_cons.mp hp with hp' | hp'
    · have hle : info.oid = some i := by
        rw [hp'] at hpl
        exact hpl
      rw [hle]
      have hnotin : i ∉ rest.filterMap (fun p => p.2.oid) := by
        rw [List.filterMap_cons, hle] at hnd
        exact (List.nodup_cons.mp hnd).1
      have hner : ∀ p2 ∈ rest, p2.2.oid ≠ some i := by
        intro p2 hp2 hc
        exact hnotin (List.mem_filterMap.mpr ⟨p2, hp2, hc⟩)
      obtain ⟨h1, h2, h3⟩ := clearNodesLoop_frame rest (setS fill i "black")
        (setS outline i "black") (setN width i 2) i hner
      rw [h1, h2, h3]
      refine ⟨?_, ?_, ?_⟩
      · show (if i = i then "black" else fill i) = "black"
        rw [if_pos rfl]
      · show (if i = i then "black" else outline i) = "black"
        rw [if_pos rfl]
      · show (if i = i then 2 else width i) = 2
        rw [if_pos rfl]
    · have hndr : (rest.filterMap (fun p => p.2.oid)).Nodup := by
        rw [List.filterMap_cons] at hnd
        cases hke : info.oid with
        | none =>
          rw [hke] at hnd
          exact hnd
        | some l0 =>
          rw [hke] at hnd
          exact (List.nodup_cons.mp hnd).2
      cases hke : info.oid with
      | none => exact ih fill outline width hndr p hp' i hpl
      | some oid =>
        exact ih (setS fill oid "black") (setS outline oid "black") (setN width oid 2)
          hndr p hp' i hpl

/-! ### Claim C9 -/

/-- C9: `clear_animation` cancels every recorded scheduled callback — with the
GUI's bookkeeping assumptions (every pending callback token was recorded, and
the canvas ids of distinct items are distinct) the pending schedule empties,
so no further callback fires — clears the token list and the `animating` flag,
and restores every visual to its steady state: each drawn edge's fill becomes
exactly `Edge.color` of its current flags (red if closed, orange if not
accessible, black otherwise) at width 2, and each drawn node returns to black
fill and outline at width 2, none left in a transient ping color. -/
theorem c9_clear_animation_steady (st : GuiSt)
    (hpnd : st.pending.Nodup)
    (hpt : ∀ x ∈ st.pending, x ∈ st.tokens)
    (hE : (st.graph.edges.filterMap (fun p => p.2.line_id)).Nodup)
    (hN : (st.graph.nodes.filterMap (fun p => p.2.oid)).Nodup)
    (hEN : ∀ l ∈ st.graph.edges.filterMap (fun p => p.2.line_id),
      l ∉ st.graph.nodes.filterMap (fun p => p.2.oid)) :
    st.clear_animation.pending = [] ∧
    st.clear_animation.tokens = [] ∧
    st.clear_animation.animating = false ∧
    (∀ p ∈ st.graph.edges, ∀ l, p.2.line_id = some l →
      st.clear_animation.fill l = Edge.color p.2 ∧
      Edge.color p.2 = (if p.2.closed then "red"
        else if p.2.accessible = false then "orange" else "black") ∧
      st.clear_animation.width l = 2) ∧
    (∀ q ∈ st.graph.nodes, ∀ i, q.2.oid = some i →
      st.clear_animation.fill i = "black" ∧ st.clear_animation.outline i = "black" ∧
      st.clear_animation.width i = 2) := by
  refine ⟨?_, rfl, rfl, ?_, ?_⟩
  · show cancelLoop st.tokens st.pending = []
    exact cancelLoop_all st.tokens st.pending hpnd hpt
  · intro p hp l hpl
    have hspec := clearEdgesLoop_spec st.graph.edges st.fill st.width hE p hp l hpl
    have hner : ∀ q2 ∈ st.graph.nodes, q2.2.oid ≠ some l := by
      intro q2 hq2 hc
      exact hEN l (List.mem_filterMap.mpr ⟨p, hp, hpl⟩)
        (List.mem_filterMap.mpr ⟨q2, hq2, hc⟩)
    have hframe := clearNodesLoop_frame st.graph.nodes
      (clearEdgesLoop st.graph.edges st.fill st.width).1 st.outline
      (clearEdgesLoop st.graph.edges st.fill st.width).2 l hner
    refine ⟨?_, rfl, ?_⟩
    · show (clearNodesLoop st.graph.nodes
        (clearEdgesLoop st.graph.edges st.fill st.width).1 st.outline
        (clearEdgesLoop st.graph.edges st.fill st.width).2).1 l = Edge.color p.2
      rw [hframe.1, hspec.1]
    · show (clearNodesLoop st.graph.nodes
        (clearEdgesLoop st.graph.edges st.fill st.width).1 st.outline
        (clearEdgesLoop st.graph.edges st.fill st.width).2).2.2 l = 2
      rw [hframe.2.2, hspec.2]
  · intro q hq i hqi
    have hspec := clearNodesLoop_spec st.graph.nodes
      (clearEdgesLoop st.graph.edges st.fill st.width).1 st.outline
      (clearEdgesLoop st.graph.edges st.fill st.width).2 hN q hq i hqi
    exact hspec

/-- A mid-animation GUI state over a two-node, one-edge graph with drawn
canvas items: everything currently shows transient yellow at width 3. -/
def wGui : GuiSt :=
  { graph := { nodes := [("A", ⟨0, 0, some 1, some 2⟩), ("B", ⟨1, 1, some 3, some 4⟩)],
               edges := [(Sym2.mk ("A", "B"),
                 { u := "A", v := "B", accessible := false, line_id := some 10,
                   text_id := some 11 })],
               adj := [("A", ["B"]), ("B", ["A"])] },
    tokens := [5, 6, 7], pending := [6, 5],
    fill := fun _ => "yellow", outline := fun _ => "yellow",
    width := fun _ => 3, animating := true }

theorem c9_witness :
    wGui.pending.Nodup ∧ (∀ x ∈ wGui.pending, x ∈ wGui.tokens) ∧
    (wGui.graph.edges.filterMap (fun p => p.2.line_id)).Nodup ∧
    (wGui.graph.nodes.filterMap (fun p => p.2.oid)).Nodup ∧
    (∀ l ∈ wGui.graph.edges.filterMap (fun p => p.2.line_id),
      l ∉ wGui.graph.nodes.filterMap (fun p => p.2.oid)) ∧
    (wGui.clear_animation.pending = [] ∧
     wGui.clear_animation.tokens = [] ∧
     wGui.clear_animation.animating = false ∧
     (∀ p ∈ wGui.graph.edges, ∀ l, p.2.line_id = some l →
       wGui.clear_animation.fill l = Edge.color p.2 ∧
       Edge.color p.2 = (if p.2.closed then "red"
         else if p.2.accessible = false then "orange" else "black") ∧
       wGui.clear_animation.width l = 2) ∧
     (∀ q ∈ wGui.graph.nodes, ∀ i, q.2.oid = some i →
       wGui.clear_animation.fill i = "black" ∧ wGui.clear_animation.outline i = "black" ∧
       wGui.clear_animation.width i = 2)) :=
  ⟨by decide, by decide, by decide, by decide, by decide,
    c9_clear_animation_steady wGui (by decide) (by decide) (by decide) (by decide)
      (by decide)⟩

end CampusNav
